import Mathlib

/-!
Verification of the lazy iterator/iterable composition pipeline and the lexer
of the qub utility library (src/source/qub.ts).

The iterator family (`ArrayListForwardIterator`, `ArrayListReverseIterator`,
`WhereIterator`, `SkipIterator`, `TakeIterator`, `MapIterator`,
`ConcatenateIterator`) is embedded as the inductive type `Iter` whose
constructors carry exactly the mutable fields of the corresponding classes.
The methods `next` / `hasCurrent` / `getCurrent` are stateful in the source
(`SkipIterator.hasCurrent` runs `skipValues`), so each operation returns the
updated iterator state.  The internal `while` loops of `WhereIterator.next`
and `SkipIterator.skipValues` are modelled with an explicit fuel parameter;
`none` means the fuel ran out, and every theorem quantifies over all
sufficiently large fuels, so results are statements about the (unique) value
the loops converge to.

JavaScript `number` arguments that may be `undefined` are modelled as
`Option Int`; JS comparisons against `undefined` are false, which `ltU` and
`canTake` reproduce.  JS `undefined` results are `Option.none`.
-/

namespace Qub

/-- JS `skipped < toSkip` where `toSkip` may be `undefined`:
any comparison against `undefined` is false. -/
def ltU (a : Int) (b : Option Int) : Bool :=
  match b with
  | none => false
  | some t => decide (a < t)

/-- `TakeIterator.canTakeValue()`: `isDefined(this._toTake) && this._taken <= this._toTake`. -/
def canTake (toTake : Option Int) (taken : Int) : Bool :=
  match toTake with
  | none => false
  | some t => decide (taken ≤ t)

/-- Apply a predicate to a possibly-undefined current value; the source only
ever applies conditions to defined values, an undefined value counts as
failing. -/
def condOpt {T : Type} (c : T → Bool) (v : Option T) : Bool :=
  match v with
  | none => false
  | some x => c x

/-- `ArrayList.get(index)`: `undefined` unless the index is defined and
`0 ≤ index < count`. -/
def listGet {T : Type} (data : List T) (idx : Option Int) : Option T :=
  match idx with
  | none => none
  | some i => if 0 ≤ i ∧ i < (data.length : Int) then data[i.toNat]? else none

/-- The iterator family.  Every constructor corresponds to one class of the
source and carries exactly its fields:
* `arrFwd` = `ArrayListForwardIterator` (`_arrayList`, `_currentIndex`;
  `none` = not started),
* `arrRev` = `ArrayListReverseIterator`,
* `whereIt` = `WhereIterator` (`_innerIterator`, `_condition`),
* `skipIt` = `SkipIterator` (`_innerIterator`, `_toSkip`, `_skipped`),
* `takeIt` = `TakeIterator` (`_innerIterator`, `_toTake`, `_taken`),
* `mapIt` = `MapIterator` (`_innerIterator`, `_mapFunction`, `_started`),
* `concatIt` = `ConcatenateIterator` (`_first`, `_second`). -/
inductive Iter (T : Type) where
  | arrFwd (data : List T) (idx : Option Int)
  | arrRev (data : List T) (idx : Option Int)
  | whereIt (inner : Iter T) (cond : Option (T → Bool))
  | skipIt (inner : Iter T) (toSkip : Option Int) (skipped : Int)
  | takeIt (inner : Iter T) (toTake : Option Int) (taken : Int)
  | mapIt (inner : Iter T) (fn : Option (T → T)) (started : Bool)
  | concatIt (a b : Iter T)

namespace Iter

/-- `hasStarted()`: pure in every class (decorators inherit the inner
iterator's flag, `MapIterator` stores its own, `ConcatenateIterator` asks its
first side). -/
def hasStartedB {T : Type} : Iter T → Bool
  | arrFwd _ idx => idx.isSome
  | arrRev _ idx => idx.isSome
  | whereIt inner _ => hasStartedB inner
  | skipIt inner _ _ => hasStartedB inner
  | takeIt inner _ _ => hasStartedB inner
  | mapIt _ _ st => st
  | concatIt a _ => hasStartedB a

mutual

/-- `next()` of each iterator class, fuelled.  Loops
(`WhereIterator.next`'s advance-until-match and `SkipIterator.skipValues`)
recurse on the fuel. -/
def nextF {T : Type} : Nat → Iter T → Option (Iter T × Bool)
  | 0, _ => none
  | f+1, it =>
    match it with
    | .arrFwd data idx =>
      -- if (!hasStarted()) idx := 0; else if (!atEnd()) ++idx; return !atEnd()
      let idx' : Int :=
        match idx with
        | none => 0
        | some i => if i = (data.length : Int) then i else i + 1
      some (.arrFwd data (some idx'), ! decide (idx' = (data.length : Int)))
    | .arrRev data idx =>
      -- if (!hasStarted()) idx := count - 1; else if (!atEnd()) --idx; return !atEnd()
      let idx' : Int :=
        match idx with
        | none => (data.length : Int) - 1
        | some i => if i < 0 then i else i - 1
      some (.arrRev data (some idx'), ! decide (idx' < 0))
    | .whereIt inner none =>
      -- if (!condition) { super.next(); } return this.hasCurrent()
      match nextF f inner with
      | none => none
      | some (inner₁, _) =>
        match hasCurF f inner₁ with
        | none => none
        | some (inner₂, b) => some (.whereIt inner₂ none, b)
    | .whereIt inner (some c) =>
      -- while (super.next() && !condition(getCurrent())) {}  return this.hasCurrent()
      match nextF f inner with
      | none => none
      | some (inner₁, b) =>
        if b then
          match getCurF f inner₁ with
          | none => none
          | some (inner₂, v) =>
            if condOpt c v then
              match hasCurF f inner₂ with
              | none => none
              | some (inner₃, b₃) => some (.whereIt inner₃ (some c), b₃)
            else
              nextF f (.whereIt inner₂ (some c))
        else
          match hasCurF f inner₁ with
          | none => none
          | some (inner₂, b₂) => some (.whereIt inner₂ (some c), b₂)
    | .skipIt inner toSkip skipped =>
      -- skipValues(); return super.next()
      match skipValsF f toSkip skipped inner with
      | none => none
      | some (inner₁, sk) =>
        match nextF f inner₁ with
        | none => none
        | some (inner₂, b) => some (.skipIt inner₂ toSkip sk, b)
    | .takeIt inner toTake taken =>
      -- if (canTakeValue()) { ++taken; super.next(); } return this.hasCurrent()
      if canTake toTake taken then
        match nextF f inner with
        | none => none
        | some (inner₁, _) =>
          match hasCurF f inner₁ with
          | none => none
          | some (inner₂, b) =>
            some (.takeIt inner₂ toTake (taken + 1), b && canTake toTake (taken + 1))
      else
        match hasCurF f inner with
        | none => none
        | some (inner₁, b) => some (.takeIt inner₁ toTake taken, b && canTake toTake taken)
    | .mapIt inner none _ =>
      -- started := true; return isDefined(mapFunction) && inner.next()  (short-circuit)
      some (.mapIt inner none true, false)
    | .mapIt inner (some g) _ =>
      match nextF f inner with
      | none => none
      | some (inner₁, b) => some (.mapIt inner₁ (some g) true, b)
    | .concatIt a b =>
      -- return first.next() || second.next()  (short-circuit)
      match nextF f a with
      | none => none
      | some (a₁, ba) =>
        if ba then some (.concatIt a₁ b, true)
        else
          match nextF f b with
          | none => none
          | some (b₁, bb) => some (.concatIt a₁ b₁, bb)

/-- `hasCurrent()` of each class; stateful because `SkipIterator.hasCurrent`
runs `skipValues` when the inner iterator has a current value. -/
def hasCurF {T : Type} : Nat → Iter T → Option (Iter T × Bool)
  | 0, _ => none
  | f+1, it =>
    match it with
    | .arrFwd data idx =>
      some (.arrFwd data idx,
        match idx with
        | none => false
        | some i => ! decide (i = (data.length : Int)))
    | .arrRev data idx =>
      some (.arrRev data idx,
        match idx with
        | none => false
        | some i => ! decide (i < 0))
    | .whereIt inner c =>
      match hasCurF f inner with
      | none => none
      | some (inner₁, b) => some (.whereIt inner₁ c, b)
    | .skipIt inner toSkip skipped =>
      -- if (super.hasCurrent()) skipValues(); return super.hasCurrent()
      match hasCurF f inner with
      | none => none
      | some (inner₁, b) =>
        if b then
          match skipValsF f toSkip skipped inner₁ with
          | none => none
          | some (inner₂, sk) =>
            match hasCurF f inner₂ with
            | none => none
            | some (inner₃, b₃) => some (.skipIt inner₃ toSkip sk, b₃)
        else some (.skipIt inner₁ toSkip skipped, false)
    | .takeIt inner toTake taken =>
      -- super.hasCurrent() && canTakeValue()
      match hasCurF f inner with
      | none => none
      | some (inner₁, b) => some (.takeIt inner₁ toTake taken, b && canTake toTake taken)
    | .mapIt inner none st => some (.mapIt inner none st, false)
    | .mapIt inner (some g) st =>
      match hasCurF f inner with
      | none => none
      | some (inner₁, b) => some (.mapIt inner₁ (some g) st, b)
    | .concatIt a b =>
      -- first.hasCurrent() || second.hasCurrent()  (short-circuit)
      match hasCurF f a with
      | none => none
      | some (a₁, ba) =>
        if ba then some (.concatIt a₁ b, true)
        else
          match hasCurF f b with
          | none => none
          | some (b₁, bb) => some (.concatIt a₁ b₁, bb)

/-- `getCurrent()` of each class (undefined = `none`); stateful for the same
reason as `hasCurF`. -/
def getCurF {T : Type} : Nat → Iter T → Option (Iter T × Option T)
  | 0, _ => none
  | f+1, it =>
    match it with
    | .arrFwd data idx => some (.arrFwd data idx, listGet data idx)
    | .arrRev data idx => some (.arrRev data idx, listGet data idx)
    | .whereIt inner c =>
      match getCurF f inner with
      | none => none
      | some (inner₁, v) => some (.whereIt inner₁ c, v)
    | .skipIt inner toSkip skipped =>
      -- if (super.hasCurrent()) skipValues(); return super.getCurrent()
      match hasCurF f inner with
      | none => none
      | some (inner₁, b) =>
        if b then
          match skipValsF f toSkip skipped inner₁ with
          | none => none
          | some (inner₂, sk) =>
            match getCurF f inner₂ with
            | none => none
            | some (inner₃, v) => some (.skipIt inner₃ toSkip sk, v)
        else
          match getCurF f inner₁ with
          | none => none
          | some (inner₂, v) => some (.skipIt inner₂ toSkip skipped, v)
    | .takeIt inner toTake taken =>
      -- this.hasCurrent() ? super.getCurrent() : undefined
      match hasCurF f inner with
      | none => none
      | some (inner₁, b) =>
        if b && canTake toTake taken then
          match getCurF f inner₁ with
          | none => none
          | some (inner₂, v) => some (.takeIt inner₂ toTake taken, v)
        else some (.takeIt inner₁ toTake taken, none)
    | .mapIt inner none st => some (.mapIt inner none st, none)
    | .mapIt inner (some g) st =>
      -- this.hasCurrent() ? mapFunction(inner.getCurrent()) : undefined
      match hasCurF f inner with
      | none => none
      | some (inner₁, b) =>
        if b then
          match getCurF f inner₁ with
          | none => none
          | some (inner₂, v) => some (.mapIt inner₂ (some g) st, v.map g)
        else some (.mapIt inner₁ (some g) st, none)
    | .concatIt a b =>
      -- first.hasCurrent() ? first.getCurrent() : second.getCurrent()
      match hasCurF f a with
      | none => none
      | some (a₁, ba) =>
        if ba then
          match getCurF f a₁ with
          | none => none
          | some (a₂, v) => some (.concatIt a₂ b, v)
        else
          match getCurF f b with
          | none => none
          | some (b₁, v) => some (.concatIt a₁ b₁, v)

/-- `SkipIterator.skipValues()`:
`while (skipped < toSkip) { if (!super.next()) skipped = toSkip; else ++skipped; }`.
Returns the advanced inner iterator and the new `_skipped`. -/
def skipValsF {T : Type} : Nat → Option Int → Int → Iter T → Option (Iter T × Int)
  | 0, _, _, _ => none
  | f+1, toSkip, skipped, inner =>
    if ltU skipped toSkip then
      match nextF f inner with
      | none => none
      | some (inner₁, b) =>
        if b then skipValsF f toSkip (skipped + 1) inner₁
        else skipValsF f toSkip (toSkip.getD skipped) inner₁
    else some (inner, skipped)

end

/-- Loop body of `IteratorBase.foreach` with a push visitor
(`while (next()) { result.push(getCurrent()); }`), accumulating `toArray`'s
result.  A defined current value contributes itself; the source would push
`undefined` for an undefined one, which never happens on reachable states. -/
def toArrayLoopF {T : Type} : Nat → Iter T → List T → Option (List T)
  | 0, _, _ => none
  | f+1, it, acc =>
    match nextF f it with
    | none => none
    | some (it₁, b) =>
      if b then
        match getCurF f it₁ with
        | none => none
        | some (it₂, v) => toArrayLoopF f it₂ (acc ++ v.toList)
      else some acc

/-- `IteratorBase.toArray()`: `foreach(value => result.push(value))`, where
`foreach` first visits the current value if `hasCurrent()`. -/
def toArrayF {T : Type} : Nat → Iter T → Option (List T)
  | 0, _ => none
  | f+1, it =>
    match hasCurF f it with
    | none => none
    | some (it₁, hc) =>
      if hc then
        match getCurF f it₁ with
        | none => none
        | some (it₂, v) => toArrayLoopF f it₂ v.toList
      else toArrayLoopF f it₁ []

/-- Loop of `IteratorBase.getCount()`: `while (next()) ++result`. -/
def getCountLoopF {T : Type} : Nat → Iter T → Int → Option Int
  | 0, _, _ => none
  | f+1, it, acc =>
    match nextF f it with
    | none => none
    | some (it₁, b) => if b then getCountLoopF f it₁ (acc + 1) else some acc

/-- `IteratorBase.getCount()`: `if (hasCurrent()) ++result; while (next()) ++result`. -/
def getCountF {T : Type} : Nat → Iter T → Option Int
  | 0, _ => none
  | f+1, it =>
    match hasCurF f it with
    | none => none
    | some (it₁, hc) => getCountLoopF f it₁ (if hc then 1 else 0)

/-- `SkipIterator` constructor (`_skipped = 0`), as built by `IteratorBase.skip`. -/
def mkSkip {T : Type} (inner : Iter T) (toSkip : Option Int) : Iter T :=
  .skipIt inner toSkip 0

/-- `TakeIterator` constructor: `_taken = super.hasCurrent() ? 1 : 0`, as built
by `IteratorBase.take`. -/
def mkTakeF {T : Type} (f : Nat) (inner : Iter T) (toTake : Option Int) : Option (Iter T) :=
  match hasCurF f inner with
  | none => none
  | some (inner₁, b) => some (.takeIt inner₁ toTake (if b then 1 else 0))

/-- `MapIterator` constructor: `_started = innerIterator.hasStarted()`, as
built by `IteratorBase.map`. -/
def mkMap {T : Type} (inner : Iter T) (fn : Option (T → T)) : Iter T :=
  .mapIt inner fn (hasStartedB inner)

/-- `WhereIterator` constructor: when a condition is given it fast-forwards
the inner iterator past a failing current element:
`while (hasCurrent() && !condition(getCurrent())) super.next()`. -/
def mkWhereF {T : Type} : Nat → Iter T → Option (T → Bool) → Option (Iter T)
  | 0, _, _ => none
  | _+1, it, none => some (.whereIt it none)
  | f+1, it, some c =>
    match hasCurF f it with
    | none => none
    | some (it₁, b) =>
      if b then
        match getCurF f it₁ with
        | none => none
        | some (it₂, v) =>
          if condOpt c v then some (.whereIt it₂ (some c))
          else
            match nextF f it₂ with
            | none => none
            | some (it₃, _) => mkWhereF f it₃ (some c)
      else some (.whereIt it₁ (some c))

end Iter

open Iter in
/-- The iterable family: `arr` = `ArrayList` (backing data at indices
`[0, count)`), the rest are the lazy view classes `WhereIterable`,
`SkipIterable`, `TakeIterable`, `MapIterable`, `ConcatenateIterable`.
`ConcatenateIterable`'s constructor copies its second operand into a fresh
`ArrayList` (`this._second = new ArrayList<T>(second)`), so `concatI` stores
that copy's data. -/
inductive Ible (T : Type) where
  | arr (data : List T)
  | whereI (inner : Ible T) (cond : T → Bool)
  | skipI (inner : Ible T) (toSkip : Int)
  | takeI (inner : Ible T) (toTake : Int)
  | mapI (inner : Ible T) (fn : T → T)
  | concatI (a : Ible T) (bData : List T)

namespace Ible

open Iter

/-- `iterate()` of each iterable class: `ArrayList` makes a fresh forward
array iterator, each view class wraps `inner.iterate()` in the matching
iterator decorator (running that decorator's constructor). -/
def iterateF {T : Type} : Nat → Ible T → Option (Iter T)
  | _, .arr data => some (.arrFwd data none)
  | f, .whereI x c =>
    match iterateF f x with
    | none => none
    | some it => mkWhereF f it (some c)
  | f, .skipI x t =>
    match iterateF f x with
    | none => none
    | some it => some (mkSkip it (some t))
  | f, .takeI x t =>
    match iterateF f x with
    | none => none
    | some it => mkTakeF f it (some t)
  | f, .mapI x g =>
    match iterateF f x with
    | none => none
    | some it => some (mkMap it (some g))
  | f, .concatI x l =>
    -- first.iterate().concatenate(second.iterate())
    match iterateF f x with
    | none => none
    | some it => some (.concatIt it (.arrFwd l none))

/-- `Iterable.getCount()`: `ArrayList` returns its stored count,
`SkipIterable`/`TakeIterable`/`MapIterable` override it arithmetically over
the inner count, `WhereIterable`/`ConcatenateIterable` inherit
`IterableBase.getCount() = iterate().getCount()`. -/
def ibleGetCountF {T : Type} : Nat → Ible T → Option Int
  | _, .arr data => some (data.length : Int)
  | f, .whereI x c =>
    match iterateF f (.whereI x c) with
    | none => none
    | some it => getCountF f it
  | f, .skipI x t =>
    -- result = inner.getCount(); if (result <= toSkip) result = 0 else result -= toSkip
    match ibleGetCountF f x with
    | none => none
    | some c => some (if c ≤ t then 0 else c - t)
  | f, .takeI x t =>
    -- result = inner.getCount(); if (toTake < result) result = toTake
    match ibleGetCountF f x with
    | none => none
    | some c => some (if t < c then t else c)
  | f, .mapI x _ => ibleGetCountF f x
  | f, .concatI x l =>
    match iterateF f (.concatI x l) with
    | none => none
    | some it => getCountF f it

/-- `iterateReverse()` of each iterable class.  `SkipIterable` reverses the
inner iterable and takes its own count; `TakeIterable` reverses the inner
iterable and skips `inner.getCount() - toTake`. -/
def iterateReverseF {T : Type} : Nat → Ible T → Option (Iter T)
  | _, .arr data => some (.arrRev data none)
  | f, .whereI x c =>
    match iterateReverseF f x with
    | none => none
    | some it => mkWhereF f it (some c)
  | f, .skipI x t =>
    -- innerIterable.iterateReverse().take(this.getCount())
    match ibleGetCountF f (.skipI x t) with
    | none => none
    | some c =>
      match iterateReverseF f x with
      | none => none
      | some it => mkTakeF f it (some c)
  | f, .takeI x t =>
    -- innerIterable.iterateReverse().skip(innerIterable.getCount() - toTake)
    match ibleGetCountF f x with
    | none => none
    | some c =>
      match iterateReverseF f x with
      | none => none
      | some it => some (mkSkip it (some (c - t)))
  | f, .mapI x g =>
    match iterateReverseF f x with
    | none => none
    | some it => some (mkMap it (some g))
  | f, .concatI x l =>
    -- second.iterateReverse().concatenate(first.iterateReverse())
    match iterateReverseF f x with
    | none => none
    | some it => some (.concatIt (.arrRev l none) it)

/-- `IterableBase.where(condition)`:
`condition ? new WhereIterable(this, condition) : this`. -/
def whereM {T : Type} (x : Ible T) (c : Option (T → Bool)) : Ible T :=
  match c with
  | none => x
  | some c => .whereI x c

/-- `IterableBase.skip(toSkip)`:
`toSkip && 0 < toSkip ? new SkipIterable(this, toSkip) : this`
(`undefined` and `0` are falsy). -/
def skipM {T : Type} (x : Ible T) (t : Option Int) : Ible T :=
  match t with
  | none => x
  | some t => if 0 < t then .skipI x t else x

/-- `IterableBase.take(toTake)`:
`toTake && 0 < toTake ? new TakeIterable(this, toTake) : new ArrayList()`. -/
def takeM {T : Type} (x : Ible T) (t : Option Int) : Ible T :=
  match t with
  | none => .arr []
  | some t => if 0 < t then .takeI x t else .arr []

/-- `IterableBase.map(mapFunction)`:
`mapFunction ? new MapIterable(this, mapFunction) : new ArrayList()`. -/
def mapM {T : Type} (x : Ible T) (g : Option (T → T)) : Ible T :=
  match g with
  | none => .arr []
  | some g => .mapI x g

/-- `Iterable.toArray() = iterate().toArray()`. -/
def ibleToArrayF {T : Type} (f : Nat) (x : Ible T) : Option (List T) :=
  match iterateF f x with
  | none => none
  | some it => toArrayF f it

/-- `IterableBase.concatenate(toConcatenate)`: identity on an absent
argument, otherwise a `ConcatenateIterable`, whose constructor copies the
second iterable into an `ArrayList`. -/
def concatenateF {T : Type} (f : Nat) (x : Ible T) (y : Option (Ible T)) : Option (Ible T) :=
  match y with
  | none => some x
  | some y =>
    match ibleToArrayF f y with
    | none => none
    | some l => some (.concatI x l)

/-- `IterableBase.takeLast(toTake)`: empty for falsy/negative `toTake`,
the whole iterable when `count ≤ toTake`, otherwise `skip(count - toTake)`. -/
def takeLastF {T : Type} (f : Nat) (x : Ible T) (t : Int) : Option (Ible T) :=
  if t = 0 ∨ t < 0 then some (.arr [])
  else
    match ibleGetCountF f x with
    | none => none
    | some c => if c ≤ t then some x else some (skipM x (some (c - t)))

/-- Loop of `IterableBase.endsWith`:
`while (thisIter.next() === valuesIter.next() && thisIter.hasCurrent()) {
   if (thisIter.getCurrent() !== valuesIter.getCurrent()) { result = false; break; } }`
with `result` initially `true`. -/
def endsWithLoopF {T : Type} [DecidableEq T] : Nat → Iter T → Iter T → Option Bool
  | 0, _, _ => none
  | f+1, aIt, bIt =>
    match nextF f aIt with
    | none => none
    | some (a₁, ba) =>
      match nextF f bIt with
      | none => none
      | some (b₁, bb) =>
        if ba = bb then
          match hasCurF f a₁ with
          | none => none
          | some (a₂, hc) =>
            if hc then
              match getCurF f a₂ with
              | none => none
              | some (a₃, va) =>
                match getCurF f b₁ with
                | none => none
                | some (b₂, vb) =>
                  if va ≠ vb then some false
                  else endsWithLoopF f a₃ b₂
            else some true
        else some true

/-- `IterableBase.endsWith(values)`: false for an absent or empty `values`
or when this iterable is shorter; otherwise walks `takeLast(values.getCount())`
in lock-step with `values`. -/
def endsWithF {T : Type} [DecidableEq T] (f : Nat) (x : Ible T) (values : Option (Ible T)) :
    Option Bool :=
  match values with
  | none => some false
  | some y =>
    match ibleGetCountF f y with
    | none => none
    | some vc =>
      if vc = 0 then some false
      else
        match ibleGetCountF f x with
        | none => none
        | some xc =>
          if xc < vc then some false
          else
            match takeLastF f x vc with
            | none => none
            | some tl =>
              match iterateF f tl with
              | none => none
              | some aIt =>
                match iterateF f y with
                | none => none
                | some bIt => endsWithLoopF f aIt bIt

/-- The list of elements an iterable logically holds; the specification's
denotation of each view. -/
def den {T : Type} : Ible T → List T
  | .arr l => l
  | .whereI x c => (den x).filter c
  | .skipI x t => (den x).drop t.toNat
  | .takeI x t => (den x).take t.toNat
  | .mapI x g => (den x).map g
  | .concatI x l => den x ++ l

/-- Well-formed iterable trees: exactly those reachable through the public
construction methods, which only ever build `SkipIterable`/`TakeIterable`
with a strictly positive count (the classes themselves are module-private). -/
def wfB {T : Type} : Ible T → Bool
  | .arr _ => true
  | .whereI x _ => wfB x
  | .skipI x t => wfB x && decide (0 < t)
  | .takeI x t => wfB x && decide (0 < t)
  | .mapI x _ => wfB x
  | .concatI x _ => wfB x

end Ible

/-- Abstract observable state of a well-behaved iterator: not yet started
with future elements `l`, positioned on `v` with future `l`, or exhausted. -/
inductive AbsSt (T : Type) where
  | fresh (l : List T)
  | run (v : T) (l : List T)
  | done

namespace AbsSt

/-- The abstract effect of one `next()` call. -/
def stepA {T : Type} : AbsSt T → AbsSt T
  | .fresh [] => .done
  | .fresh (v :: l) => .run v l
  | .run _ [] => .done
  | .run _ (w :: l) => .run w l
  | .done => .done

/-- Abstract `hasCurrent()`. -/
def hasA {T : Type} : AbsSt T → Bool
  | .run _ _ => true
  | _ => false

/-- Abstract `getCurrent()`. -/
def curA {T : Type} : AbsSt T → Option T
  | .run v _ => some v
  | _ => none

/-- Elements still to be delivered by future `next()` calls. -/
def futureOf {T : Type} : AbsSt T → List T
  | .fresh l => l
  | .run _ l => l
  | .done => []

/-- Termination measure: strictly decreases along `stepA` except at `done`. -/
def mu {T : Type} : AbsSt T → Nat
  | .fresh l => l.length + 2
  | .run _ l => l.length + 1
  | .done => 0

end AbsSt

namespace Iter

/-- How many inner elements `skipValues` still wants to consume. -/
def remSkips (toSkip : Option Int) (skipped : Int) : Nat :=
  match toSkip with
  | none => 0
  | some t => (t - skipped).toNat

/-- The simulation invariant: `Inv it s` relates each reachable concrete
iterator state to its abstract observable state.  Base iterators are related
through their index; each decorator is related through its inner iterator's
abstract state and its own counters. -/
def Inv {T : Type} : Iter T → AbsSt T → Prop
  | .arrFwd data idx, s =>
    match idx with
    | none => s = .fresh data
    | some i =>
      (∃ v, 0 ≤ i ∧ data[i.toNat]? = some v ∧ s = .run v (data.drop (i.toNat + 1)))
      ∨ (i = (data.length : Int) ∧ s = .done)
  | .arrRev data idx, s =>
    match idx with
    | none => s = .fresh data.reverse
    | some i =>
      (∃ v, 0 ≤ i ∧ data[i.toNat]? = some v ∧ s = .run v (data.take i.toNat).reverse)
      ∨ (i = -1 ∧ s = .done)
  | .whereIt inner c, s =>
    match c with
    | none => Inv inner s
    | some cond =>
      (∃ l, Inv inner (.fresh l) ∧ s = .fresh (l.filter cond))
      ∨ (∃ v l, Inv inner (.run v l) ∧ cond v = true ∧ s = .run v (l.filter cond))
      ∨ (Inv inner .done ∧ s = .done)
  | .skipIt inner toSkip skipped, s =>
    (∃ l, Inv inner (.fresh l) ∧ s = .fresh (l.drop (remSkips toSkip skipped)))
    ∨ (∃ v l, Inv inner (.run v l) ∧ ltU skipped toSkip = false ∧ s = .run v l)
    ∨ (Inv inner .done ∧ s = .done)
  | .takeIt inner toTake taken, s =>
    (∃ t l, toTake = some t ∧ Inv inner (.fresh l) ∧ s = .fresh (l.take (t - taken).toNat))
    ∨ (∃ t v l, toTake = some t ∧ taken ≤ t ∧ Inv inner (.run v l) ∧
        s = .run v (l.take (t - taken).toNat))
    ∨ (canTake toTake taken = false ∧ (∃ sIn, Inv inner sIn) ∧ s = .done)
    ∨ (Inv inner .done ∧ s = .done)
  | .mapIt inner fn _, s =>
    match fn with
    | none => s = .done
    | some g =>
      (∃ l, Inv inner (.fresh l) ∧ s = .fresh (l.map g))
      ∨ (∃ v l, Inv inner (.run v l) ∧ s = .run (g v) (l.map g))
      ∨ (Inv inner .done ∧ s = .done)
  | .concatIt a b, s =>
    (∃ la lb, Inv a (.fresh la) ∧ Inv b (.fresh lb) ∧ s = .fresh (la ++ lb))
    ∨ (∃ v ra lb, Inv a (.run v ra) ∧ Inv b (.fresh lb) ∧ s = .run v (ra ++ lb))
    ∨ (Inv a .done ∧ Inv b s)

/-- Structural depth; preserved by every operation, used to drive the main
simulation induction. -/
def rank {T : Type} : Iter T → Nat
  | .arrFwd _ _ => 0
  | .arrRev _ _ => 0
  | .whereIt inner _ => rank inner + 1
  | .skipIt inner _ _ => rank inner + 1
  | .takeIt inner _ _ => rank inner + 1
  | .mapIt inner _ _ => rank inner + 1
  | .concatIt a b => rank a + rank b + 1

/-- Conclusion of the simulation step theorem for one iterator state:
for every sufficiently large fuel, `next` / `hasCurrent` / `getCurrent`
converge to fuel-independent result states and return the values dictated
by the abstract state, preserving the invariant and the rank. -/
def StepConcl {T : Type} (it : Iter T) (s : AbsSt T) : Prop :=
  ∃ itN itH itG F,
    rank itN = rank it ∧ Inv itN s.stepA ∧
    rank itH = rank it ∧ Inv itH s ∧
    rank itG = rank it ∧ Inv itG s ∧
    ∀ f, F ≤ f →
      nextF f it = some (itN, s.stepA.hasA) ∧
      hasCurF f it = some (itH, s.hasA) ∧
      getCurF f it = some (itG, s.curA)

end Iter

namespace AbsSt

theorem stepA_done_iff {T : Type} (s : AbsSt T) : s.stepA = .done ↔ s.futureOf = [] := by
  cases s with
  | fresh l => cases l <;> simp [stepA, futureOf]
  | run v l => cases l <;> simp [stepA, futureOf]
  | done => simp [stepA, futureOf]

theorem stepA_run_iff {T : Type} (s : AbsSt T) (w : T) (rest : List T) :
    s.stepA = .run w rest ↔ s.futureOf = w :: rest := by
  cases s with
  | fresh l => cases l <;> simp [stepA, futureOf]
  | run v l => cases l <;> simp [stepA, futureOf]
  | done => simp [stepA, futureOf]

theorem stepA_eq_stepA_fresh_futureOf {T : Type} (s : AbsSt T) :
    s.stepA = AbsSt.stepA (.fresh s.futureOf) := by
  cases s with
  | fresh l => cases l <;> simp [stepA, futureOf]
  | run v l => cases l <;> simp [stepA, futureOf]
  | done => simp [stepA, futureOf]

theorem futureOf_stepA {T : Type} (s : AbsSt T) : s.stepA.futureOf = s.futureOf.tail := by
  cases s with
  | fresh l => cases l <;> simp [stepA, futureOf]
  | run v l => cases l <;> simp [stepA, futureOf]
  | done => simp [stepA, futureOf]

theorem hasA_stepA_false {T : Type} {s : AbsSt T} (h : s.stepA.hasA = false) :
    s.stepA = .done := by
  cases hs : s.stepA with
  | fresh l =>
    exfalso
    cases s with
    | fresh l' => cases l' <;> simp [stepA] at hs
    | run v l' => cases l' <;> simp [stepA] at hs
    | done => simp [stepA] at hs
  | run v l => rw [hs] at h; simp [hasA] at h
  | done => rfl

theorem hasA_stepA_true {T : Type} {s : AbsSt T} (h : s.stepA.hasA = true) :
    ∃ w rest, s.stepA = .run w rest ∧ s.futureOf = w :: rest := by
  cases hs : s.stepA with
  | fresh l =>
    exfalso
    cases s with
    | fresh l' => cases l' <;> simp [stepA] at hs
    | run v l' => cases l' <;> simp [stepA] at hs
    | done => simp [stepA] at hs
  | run w rest => exact ⟨w, rest, rfl, (stepA_run_iff s w rest).1 hs⟩
  | done => rw [hs] at h; simp [hasA] at h

theorem mu_stepA_lt {T : Type} {s : AbsSt T} (h : s.stepA.hasA = true) :
    s.stepA.mu < s.mu := by
  obtain ⟨w, rest, hrun, hfut⟩ := hasA_stepA_true h
  rw [hrun]
  cases s with
  | fresh l => simp [futureOf] at hfut; subst hfut; simp [mu]
  | run v l => simp [futureOf] at hfut; subst hfut; simp [mu]
  | done => simp [futureOf] at hfut

theorem iterate_stepA_done {T : Type} (k : Nat) :
    (AbsSt.stepA)^[k] (AbsSt.done : AbsSt T) = .done := by
  induction k with
  | zero => rfl
  | succ k ih => rw [Function.iterate_succ_apply, show (AbsSt.done : AbsSt T).stepA = .done from rfl, ih]

theorem stepA_iterate {T : Type} (k : Nat) (s : AbsSt T) :
    ((AbsSt.stepA)^[k] s).stepA = AbsSt.stepA (.fresh (s.futureOf.drop k)) := by
  induction k generalizing s with
  | zero => simpa using stepA_eq_stepA_fresh_futureOf s
  | succ k ih =>
    rw [Function.iterate_succ_apply, ih s.stepA, futureOf_stepA, List.drop_tail]

end AbsSt

namespace Iter

/-- Abstract effect of the `WhereIterator.next` loop on the inner iterator:
advance to the first element passing the condition, or exhaust. -/
def firstPass {T : Type} (c : T → Bool) : List T → AbsSt T
  | [] => .done
  | v :: l => if c v then .run v l else firstPass c l

theorem firstPass_done {T : Type} {c : T → Bool} :
    ∀ {l : List T}, firstPass c l = .done → l.filter c = []
  | [], _ => rfl
  | v :: l, h => by
    by_cases hv : c v
    · simp [firstPass, hv] at h
    · simp only [firstPass, hv, if_false] at h
      simpa [List.filter_cons, hv] using firstPass_done h

theorem firstPass_run {T : Type} {c : T → Bool} :
    ∀ {l : List T} {w rest}, firstPass c l = .run w rest →
      c w = true ∧ l.filter c = w :: rest.filter c
  | [], _, _, h => by simp [firstPass] at h
  | v :: l, w, rest, h => by
    by_cases hv : c v
    · simp only [firstPass, hv, if_true, AbsSt.run.injEq] at h
      obtain ⟨rfl, rfl⟩ := h
      simp [List.filter_cons, hv]
    · simp only [firstPass, hv, if_false] at h
      have := firstPass_run h
      simpa [List.filter_cons, hv] using this

theorem firstPass_cases {T : Type} (c : T → Bool) (l : List T) :
    firstPass c l = .done ∨ ∃ w rest, firstPass c l = .run w rest := by
  induction l with
  | nil => exact Or.inl rfl
  | cons v l ih =>
    by_cases hv : c v
    · exact Or.inr ⟨v, l, by simp [firstPass, hv]⟩
    · simpa [firstPass, hv] using ih

theorem remSkips_zero_iff (toSkip : Option Int) (skipped : Int) :
    remSkips toSkip skipped = 0 ↔ ltU skipped toSkip = false := by
  cases toSkip with
  | none => simp [remSkips, ltU]
  | some t =>
    simp only [remSkips, ltU, decide_eq_false_iff_not, not_lt]
    omega

/-- The step theorem restricted to iterators of rank at most `R`; used as the
induction hypothesis by the per-decorator lemmas. -/
def Oracle (T : Type) (R : Nat) : Prop :=
  ∀ (it : Iter T) (s : AbsSt T), rank it ≤ R → Inv it s → StepConcl it s

/-- Behaviour of `SkipIterator.skipValues()`: starting from any invariant
state it advances the inner iterator by the number of outstanding skips
(stopping early on exhaustion, in which case `_skipped` is forced to
`_toSkip`), and afterwards `_skipped < _toSkip` is false. -/
theorem skipVals_step {T : Type} {R : Nat} (HO : Oracle T R) :
    ∀ (n : Nat) (toSkip : Option Int) (skipped : Int) (inner : Iter T) (s : AbsSt T),
      remSkips toSkip skipped = n → rank inner ≤ R → Inv inner s →
      ∃ inner' sk F, rank inner' = rank inner ∧ ltU sk toSkip = false ∧
        Inv inner' ((AbsSt.stepA)^[n] s) ∧
        ∀ f, F ≤ f → skipValsF f toSkip skipped inner = some (inner', sk) := by
  intro n
  induction n with
  | zero =>
    intro toSkip skipped inner s hn hr hI
    have hltu : ltU skipped toSkip = false := (remSkips_zero_iff _ _).1 hn
    refine ⟨inner, skipped, 1, rfl, hltu, by simpa using hI, ?_⟩
    intro f hf
    obtain ⟨f, rfl⟩ : ∃ f', f = f' + 1 := ⟨f - 1, by omega⟩
    simp [skipValsF, hltu]
  | succ n ih =>
    intro toSkip skipped inner s hn hr hI
    obtain ⟨t, rfl⟩ : ∃ t, toSkip = some t := by
      cases toSkip with
      | none => simp [remSkips] at hn
      | some t => exact ⟨t, rfl⟩
    have hlt : skipped < t := by simp only [remSkips] at hn; omega
    have hltu : ltU skipped (some t) = true := by simp [ltU, hlt]
    obtain ⟨itN, itH, itG, F₁, hrN, hIN, _, _, _, _, hops⟩ := HO inner s hr hI
    cases hb : s.stepA.hasA with
    | true =>
      have hrem : remSkips (some t) (skipped + 1) = n := by
        simp only [remSkips] at hn ⊢; omega
      obtain ⟨inner', sk, F₂, hr', hltu', hI', hrun⟩ :=
        ih (some t) (skipped + 1) itN s.stepA hrem (hrN ▸ hr) hIN
      refine ⟨inner', sk, max F₁ F₂ + 1, hrN ▸ hr', hltu', ?_, ?_⟩
      · rw [Function.iterate_succ_apply]; exact hI'
      · intro f hf
        obtain ⟨f, rfl⟩ : ∃ f', f = f' + 1 := ⟨f - 1, by omega⟩
        have h₁ := (hops f (by omega)).1
        rw [hb] at h₁
        simp only [skipValsF, hltu, if_true, h₁]
        exact hrun f (by omega)
    | false =>
      have hdone : s.stepA = .done := AbsSt.hasA_stepA_false hb
      refine ⟨itN, t, F₁ + 2, hrN, by simp [ltU], ?_, ?_⟩
      · rw [Function.iterate_succ_apply, hdone, AbsSt.iterate_stepA_done]
        rw [hdone] at hIN; exact hIN
      · intro f hf
        obtain ⟨f, rfl⟩ : ∃ f', f = f' + 1 := ⟨f - 1, by omega⟩
        have h₁ := (hops f (by omega)).1
        rw [hb] at h₁
        simp only [skipValsF, hltu, if_true, h₁]
        obtain ⟨f, rfl⟩ : ∃ f', f = f' + 1 := ⟨f - 1, by omega⟩
        simp [skipValsF, ltU]

/-- Behaviour of `WhereIterator.next()` with a condition: the
`while (super.next() && !condition(getCurrent()))` loop advances the inner
iterator to its first passing element (or exhausts it) and the method
returns whether a current element remains. -/
theorem whereNext_step {T : Type} {R : Nat} (HO : Oracle T R) (c : T → Bool) :
    ∀ (n : Nat) (inner : Iter T) (s : AbsSt T), s.mu = n → rank inner ≤ R → Inv inner s →
      ∃ inner' F, rank inner' = rank inner ∧
        Inv inner' (firstPass c s.futureOf) ∧
        ∀ f, F ≤ f → nextF f (.whereIt inner (some c)) =
          some (.whereIt inner' (some c), (firstPass c s.futureOf).hasA) := by
  intro n
  induction n using Nat.strong_induction_on with
  | _ n ih =>
  intro inner s hn hr hI
  obtain ⟨itN, itH, itG, F₁, hrN, hIN, _, _, _, _, hops⟩ := HO inner s hr hI
  cases hb : s.stepA.hasA with
  | false =>
    have hdone : s.stepA = .done := AbsSt.hasA_stepA_false hb
    have hfut : s.futureOf = [] := (AbsSt.stepA_done_iff s).1 hdone
    rw [hdone] at hIN
    obtain ⟨_, itH₂, _, F₂, _, _, hrH₂, hIH₂, _, _, hops₂⟩ :=
      HO itN .done (by rw [hrN]; exact hr) hIN
    refine ⟨itH₂, max F₁ F₂ + 1, by rw [hrH₂, hrN], ?_, ?_⟩
    · rw [hfut]; exact hIH₂
    · intro f hf
      obtain ⟨f, rfl⟩ : ∃ f', f = f' + 1 := ⟨f - 1, by omega⟩
      have h₁ := (hops f (by omega)).1
      rw [hb] at h₁
      have h₂ := (hops₂ f (by omega)).2.1
      simp only [nextF, h₁, h₂, hfut]
      rfl
  | true =>
    obtain ⟨w, rest, hrun, hfut⟩ := AbsSt.hasA_stepA_true hb
    rw [hrun] at hIN
    obtain ⟨_, _, itG₂, F₂, _, _, _, _, hrG₂, hIG₂, hops₂⟩ :=
      HO itN (.run w rest) (by rw [hrN]; exact hr) hIN
    cases hcw : c w with
    | true =>
      obtain ⟨_, itH₃, _, F₃, _, _, hrH₃, hIH₃, _, _, hops₃⟩ :=
        HO itG₂ (.run w rest) (by rw [hrG₂, hrN]; exact hr) hIG₂
      refine ⟨itH₃, max F₁ (max F₂ F₃) + 1, by rw [hrH₃, hrG₂, hrN], ?_, ?_⟩
      · rw [hfut]; simpa [firstPass, hcw] using hIH₃
      · intro f hf
        obtain ⟨f, rfl⟩ : ∃ f', f = f' + 1 := ⟨f - 1, by omega⟩
        have h₁ := (hops f (by omega)).1
        rw [hb] at h₁
        have h₂ := (hops₂ f (by omega)).2.2
        have h₃ := (hops₃ f (by omega)).2.1
        simp only [nextF, h₁, h₂, h₃, hfut, AbsSt.curA, condOpt, hcw]
        simp [firstPass, hcw, AbsSt.hasA]
    | false =>
      have hmu : (AbsSt.run w rest).mu < n := by
        rw [← hn, ← hrun]; exact AbsSt.mu_stepA_lt hb
      obtain ⟨inner', F₃, hr', hI', hrun'⟩ :=
        ih _ hmu itG₂ (.run w rest) rfl (by rw [hrG₂, hrN]; exact hr) hIG₂
      refine ⟨inner', max F₁ (max F₂ F₃) + 1, by rw [hr', hrG₂, hrN], ?_, ?_⟩
      · rw [hfut]
        simpa [firstPass, hcw, AbsSt.futureOf] using hI'
      · intro f hf
        obtain ⟨f, rfl⟩ : ∃ f', f = f' + 1 := ⟨f - 1, by omega⟩
        have h₁ := (hops f (by omega)).1
        rw [hb] at h₁
        have h₂ := (hops₂ f (by omega)).2.2
        simp only [nextF, h₁, h₂, AbsSt.curA, condOpt, hcw]
        have := hrun' f (by omega)
        simp only [AbsSt.futureOf] at this
        rw [hfut]
        simpa [firstPass, hcw] using this

theorem drop_cons_parts {T : Type} {data : List T} {k : Nat} {w : T} {tl : List T}
    (h : data.drop k = w :: tl) : data[k]? = some w ∧ data.drop (k+1) = tl := by
  constructor
  · rw [← List.head?_drop, h]; rfl
  · rw [← List.tail_drop, h]; rfl

theorem getElem?_lt {T : Type} {l : List T} {n : Nat} {a : T} (h : l[n]? = some a) :
    n < l.length :=
  (List.getElem?_eq_some.1 h).1

theorem take_rev_cons {T : Type} {l : List T} {n : Nat} {a : T} (h : l[n]? = some a) :
    (l.take (n+1)).reverse = a :: (l.take n).reverse := by
  rw [List.take_succ, h]; simp

/-- Step behaviour of `ArrayListForwardIterator`. -/
theorem step_arrFwd {T : Type} (data : List T) (idx : Option Int) (s : AbsSt T)
    (hI : Inv (.arrFwd data idx) s) : StepConcl (.arrFwd data idx) s := by
  cases idx with
  | none =>
    simp only [Inv] at hI
    subst hI
    refine ⟨.arrFwd data (some 0), .arrFwd data none, .arrFwd data none, 1,
      rfl, ?_, rfl, by simp [Inv], rfl, by simp [Inv], ?_⟩
    · cases data with
      | nil => simp [Inv, AbsSt.stepA]
      | cons v l => simp [Inv, AbsSt.stepA]
    · intro f hf
      obtain ⟨f, rfl⟩ : ∃ f', f = f' + 1 := ⟨f - 1, by omega⟩
      refine ⟨?_, ?_, ?_⟩
      · cases data with
        | nil => simp [nextF, AbsSt.stepA, AbsSt.hasA]
        | cons v l =>
          simp [nextF, AbsSt.stepA, AbsSt.hasA]
          omega
      · simp [hasCurF, AbsSt.hasA]
      · simp [getCurF, AbsSt.curA, listGet]
  | some i =>
    simp only [Inv] at hI
    rcases hI with ⟨v, h0, hget, rfl⟩ | ⟨rfl, rfl⟩
    · have hlt : i.toNat < data.length := getElem?_lt hget
      have hne : ¬ (i = (data.length : Int)) := by omega
      cases hdrop : data.drop (i.toNat + 1) with
      | nil =>
        have hlen : data.length ≤ i.toNat + 1 := by
          rw [← List.drop_eq_nil_iff]; exact hdrop
        have heq : i + 1 = (data.length : Int) := by omega
        refine ⟨.arrFwd data (some (i+1)), .arrFwd data (some i), .arrFwd data (some i), 1,
          rfl, ?_, rfl, ?_, rfl, ?_, ?_⟩
        · simp only [AbsSt.stepA, Inv]
          exact Or.inr ⟨heq, by trivial⟩
        · simp only [Inv]; exact Or.inl ⟨v, h0, hget, by rw [hdrop]⟩
        · simp only [Inv]; exact Or.inl ⟨v, h0, hget, by rw [hdrop]⟩
        · intro f hf
          obtain ⟨f, rfl⟩ : ∃ f', f = f' + 1 := ⟨f - 1, by omega⟩
          have hilen : i < (data.length : Int) := by omega
          refine ⟨?_, ?_, ?_⟩
          · simp [nextF, hne, heq, AbsSt.stepA, AbsSt.hasA]
          · simp [hasCurF, hne, AbsSt.hasA]
          · simp [getCurF, listGet, AbsSt.curA, hget, h0, hilen]
      | cons w tl =>
        obtain ⟨hget', hdrop'⟩ := drop_cons_parts hdrop
        have hlt' : i.toNat + 1 < data.length := getElem?_lt hget'
        have hne' : ¬ (i + 1 = (data.length : Int)) := by omega
        refine ⟨.arrFwd data (some (i+1)), .arrFwd data (some i), .arrFwd data (some i), 1,
          rfl, ?_, rfl, ?_, rfl, ?_, ?_⟩
        · simp only [AbsSt.stepA, Inv]
          refine Or.inl ⟨w, by omega, ?_, ?_⟩
          · have h2 : (i+1).toNat = i.toNat + 1 := by omega
            rw [h2]; exact hget'
          · have h2 : (i+1).toNat + 1 = i.toNat + 1 + 1 := by omega
            rw [h2, hdrop']
        · simp only [Inv]; exact Or.inl ⟨v, h0, hget, by rw [hdrop]⟩
        · simp only [Inv]; exact Or.inl ⟨v, h0, hget, by rw [hdrop]⟩
        · intro f hf
          obtain ⟨f, rfl⟩ : ∃ f', f = f' + 1 := ⟨f - 1, by omega⟩
          have hilen : i < (data.length : Int) := by omega
          refine ⟨?_, ?_, ?_⟩
          · simp [nextF, hne, hne', AbsSt.stepA, AbsSt.hasA]
          · simp [hasCurF, hne, AbsSt.hasA]
          · simp [getCurF, listGet, AbsSt.curA, hget, h0, hilen]
    · refine ⟨.arrFwd data (some (data.length : Int)), .arrFwd data (some (data.length : Int)),
        .arrFwd data (some (data.length : Int)), 1,
        rfl, by simp [Inv, AbsSt.stepA], rfl, by simp [Inv], rfl, by simp [Inv], ?_⟩
      intro f hf
      obtain ⟨f, rfl⟩ : ∃ f', f = f' + 1 := ⟨f - 1, by omega⟩
      refine ⟨?_, ?_, ?_⟩
      · simp [nextF, AbsSt.stepA, AbsSt.hasA]
      · simp [hasCurF, AbsSt.hasA]
      · simp [getCurF, listGet, AbsSt.curA]

theorem rev_eq_last_cons {T : Type} {data : List T} {k : Nat} (hlen : data.length = k + 1) :
    ∃ w, data[k]? = some w ∧ data.reverse = w :: (data.take k).reverse := by
  have hk : k < data.length := by omega
  refine ⟨data.get ⟨k, hk⟩, ?_, ?_⟩
  · rw [List.getElem?_eq_some]; exact ⟨hk, rfl⟩
  · have h1 := take_rev_cons (List.getElem?_eq_some.2 ⟨hk, rfl⟩ :
      data[k]? = some (data.get ⟨k, hk⟩))
    rwa [show k + 1 = data.length from hlen.symm, List.take_length] at h1

/-- Step behaviour of `ArrayListReverseIterator`. -/
theorem step_arrRev {T : Type} (data : List T) (idx : Option Int) (s : AbsSt T)
    (hI : Inv (.arrRev data idx) s) : StepConcl (.arrRev data idx) s := by
  cases idx with
  | none =>
    simp only [Inv] at hI
    subst hI
    refine ⟨.arrRev data (some ((data.length : Int) - 1)), .arrRev data none, .arrRev data none, 1,
      rfl, ?_, rfl, by simp [Inv], rfl, by simp [Inv], ?_⟩
    · cases hlen : data.length with
      | zero =>
        have hnil : data = [] := List.length_eq_zero.1 hlen
        subst hnil
        simp [Inv, AbsSt.stepA]
      | succ k =>
        obtain ⟨w, hk, hrev⟩ := rev_eq_last_cons hlen
        rw [hrev]
        simp only [AbsSt.stepA, Inv, hlen]
        refine Or.inl ⟨w, by push_cast; omega, ?_, ?_⟩
        · have : (((k:Int) + 1 - 1)).toNat = k := by omega
          push_cast
          rw [this]
          exact hk
        · have : (((k:Int) + 1 - 1)).toNat = k := by omega
          push_cast
          rw [this]
    · intro f hf
      obtain ⟨f, rfl⟩ : ∃ f', f = f' + 1 := ⟨f - 1, by omega⟩
      refine ⟨?_, ?_, ?_⟩
      · cases hlen : data.length with
        | zero =>
          have hnil : data = [] := List.length_eq_zero.1 hlen
          subst hnil
          simp [nextF, AbsSt.stepA, AbsSt.hasA]
        | succ k =>
          obtain ⟨w, hk, hrev⟩ := rev_eq_last_cons hlen
          rw [hrev]
          have h1 : ¬ ((data.length : Int) - 1 < 0) := by omega
          simp [nextF, AbsSt.stepA, AbsSt.hasA, h1]
          omega
      · simp [hasCurF, AbsSt.hasA]
      · simp [getCurF, AbsSt.curA, listGet]
  | some i =>
    simp only [Inv] at hI
    rcases hI with ⟨v, h0, hget, rfl⟩ | ⟨rfl, rfl⟩
    · have hlt : i.toNat < data.length := getElem?_lt hget
      have hneg : ¬ (i < 0) := by omega
      by_cases hi0 : i = 0
      · subst hi0
        refine ⟨.arrRev data (some (0 - 1)), .arrRev data (some 0), .arrRev data (some 0), 1,
          rfl, ?_, rfl, ?_, rfl, ?_, ?_⟩
        · simp [AbsSt.stepA, Inv]
        · simp only [Inv]; exact Or.inl ⟨v, h0, hget, rfl⟩
        · simp only [Inv]; exact Or.inl ⟨v, h0, hget, rfl⟩
        · intro f hf
          obtain ⟨f, rfl⟩ : ∃ f', f = f' + 1 := ⟨f - 1, by omega⟩
          refine ⟨?_, ?_, ?_⟩
          · simp [nextF, AbsSt.stepA, AbsSt.hasA]
          · simp [hasCurF, AbsSt.hasA]
          · have h1 : (0:Int) < (data.length : Int) := by omega
            simp only [Int.toNat_zero] at hget
            simp [getCurF, listGet, AbsSt.curA, hget, h1]
      · have hi1 : 1 ≤ i := by omega
        have hkk : i.toNat = (i.toNat - 1) + 1 := by omega
        have hk1 : i.toNat - 1 < data.length := by omega
        have hw : data[i.toNat - 1]? = some (data.get ⟨i.toNat - 1, hk1⟩) :=
          List.getElem?_eq_some.2 ⟨hk1, rfl⟩
        have hrev : (data.take i.toNat).reverse =
            data.get ⟨i.toNat - 1, hk1⟩ :: (data.take (i.toNat - 1)).reverse := by
          have h2 := take_rev_cons hw
          rwa [← hkk] at h2
        refine ⟨.arrRev data (some (i - 1)), .arrRev data (some i), .arrRev data (some i), 1,
          rfl, ?_, rfl, ?_, rfl, ?_, ?_⟩
        · rw [hrev]
          simp only [AbsSt.stepA, Inv]
          refine Or.inl ⟨data.get ⟨i.toNat - 1, hk1⟩, by omega, ?_, ?_⟩
          · have : (i - 1).toNat = i.toNat - 1 := by omega
            rw [this]; exact hw
          · have : (i - 1).toNat = i.toNat - 1 := by omega
            rw [this]
        · simp only [Inv]; exact Or.inl ⟨v, h0, hget, rfl⟩
        · simp only [Inv]; exact Or.inl ⟨v, h0, hget, rfl⟩
        · intro f hf
          obtain ⟨f, rfl⟩ : ∃ f', f = f' + 1 := ⟨f - 1, by omega⟩
          refine ⟨?_, ?_, ?_⟩
          · rw [hrev]
            have h1 : ¬ (i - 1 < 0) := by omega
            simp [nextF, AbsSt.stepA, AbsSt.hasA, hneg, h1]
          · simp [hasCurF, AbsSt.hasA, hneg]
          · simp [getCurF, listGet, AbsSt.curA, hget]; omega
    · refine ⟨.arrRev data (some (-1)), .arrRev data (some (-1)), .arrRev data (some (-1)), 1,
        rfl, by simp [Inv, AbsSt.stepA], rfl, by simp [Inv], rfl, by simp [Inv], ?_⟩
      intro f hf
      obtain ⟨f, rfl⟩ : ∃ f', f = f' + 1 := ⟨f - 1, by omega⟩
      refine ⟨?_, ?_, ?_⟩
      · simp [nextF, AbsSt.stepA, AbsSt.hasA]
      · simp [hasCurF, AbsSt.hasA]
      · simp [getCurF, listGet, AbsSt.curA]

/-- Step behaviour of `MapIterator`. -/
theorem step_mapIt {T : Type} {R : Nat} (HO : Oracle T R)
    (inner : Iter T) (fn : Option (T → T)) (st : Bool) (s : AbsSt T)
    (hr : rank inner ≤ R) (hI : Inv (.mapIt inner fn st) s) :
    StepConcl (.mapIt inner fn st) s := by
  cases fn with
  | none =>
    simp only [Inv] at hI
    subst hI
    refine ⟨.mapIt inner none true, .mapIt inner none st, .mapIt inner none st, 1,
      rfl, by simp [Inv, AbsSt.stepA], rfl, by simp [Inv], rfl, by simp [Inv], ?_⟩
    intro f hf
    obtain ⟨f, rfl⟩ : ∃ f', f = f' + 1 := ⟨f - 1, by omega⟩
    exact ⟨rfl, rfl, rfl⟩
  | some g =>
    simp only [Inv] at hI
    rcases hI with ⟨l, hIi, rfl⟩ | ⟨v, l, hIi, rfl⟩ | ⟨hIi, rfl⟩
    · obtain ⟨itN, itH, itG, F₁, hrN, hIN, hrH, hIH, hrG, hIG, hops⟩ := HO inner _ hr hIi
      refine ⟨.mapIt itN (some g) true, .mapIt itH (some g) st, .mapIt itH (some g) st,
        F₁ + 1, by simp [rank, hrN], ?_, by simp [rank, hrH], ?_, by simp [rank, hrH], ?_, ?_⟩
      · cases l with
        | nil => simp only [List.map_nil, AbsSt.stepA, Inv]; exact Or.inr (Or.inr ⟨hIN, by trivial⟩)
        | cons v l =>
          simp only [List.map_cons, AbsSt.stepA, Inv]
          exact Or.inr (Or.inl ⟨v, l, hIN, by trivial⟩)
      · simp only [Inv]; exact Or.inl ⟨l, hIH, by trivial⟩
      · simp only [Inv]; exact Or.inl ⟨l, hIH, by trivial⟩
      · intro f hf
        obtain ⟨f, rfl⟩ : ∃ f', f = f' + 1 := ⟨f - 1, by omega⟩
        obtain ⟨h1, h2, h3⟩ := hops f (by omega)
        refine ⟨?_, ?_, ?_⟩
        · simp only [nextF, h1]
          cases l with
          | nil => simp [AbsSt.stepA, AbsSt.hasA]
          | cons v l => simp [AbsSt.stepA, AbsSt.hasA]
        · simp only [hasCurF, h2, AbsSt.hasA]
        · simp only [getCurF, h2, AbsSt.hasA, Bool.false_eq_true, if_false, AbsSt.curA]
    · obtain ⟨itN, itH, itG, F₁, hrN, hIN, hrH, hIH, hrG, hIG, hops⟩ := HO inner _ hr hIi
      obtain ⟨itN2, itH2, itG2, F₂, hrN2, hIN2, hrH2, hIH2, hrG2, hIG2, hops2⟩ :=
        HO itH _ (by rw [hrH]; exact hr) hIH
      refine ⟨.mapIt itN (some g) true, .mapIt itH (some g) st, .mapIt itG2 (some g) st,
        max F₁ F₂ + 1, by simp [rank, hrN], ?_, by simp [rank, hrH], ?_,
        by simp [rank, hrG2, hrH], ?_, ?_⟩
      · cases l with
        | nil => simp only [List.map_nil, AbsSt.stepA, Inv]; exact Or.inr (Or.inr ⟨hIN, by trivial⟩)
        | cons w l =>
          simp only [List.map_cons, AbsSt.stepA, Inv]
          exact Or.inr (Or.inl ⟨w, l, hIN, by trivial⟩)
      · simp only [Inv]; exact Or.inr (Or.inl ⟨v, l, hIH, by trivial⟩)
      · simp only [Inv]; exact Or.inr (Or.inl ⟨v, l, hIG2, by trivial⟩)
      · intro f hf
        obtain ⟨f, rfl⟩ : ∃ f', f = f' + 1 := ⟨f - 1, by omega⟩
        obtain ⟨h1, h2, h3⟩ := hops f (by omega)
        obtain ⟨g1, g2, g3⟩ := hops2 f (by omega)
        refine ⟨?_, ?_, ?_⟩
        · simp only [nextF, h1]
          cases l with
          | nil => simp [AbsSt.stepA, AbsSt.hasA]
          | cons w l => simp [AbsSt.stepA, AbsSt.hasA]
        · simp only [hasCurF, h2, AbsSt.hasA]
        · simp [getCurF, h2, AbsSt.hasA, g3, AbsSt.curA]
    · obtain ⟨itN, itH, itG, F₁, hrN, hIN, hrH, hIH, hrG, hIG, hops⟩ := HO inner _ hr hIi
      refine ⟨.mapIt itN (some g) true, .mapIt itH (some g) st, .mapIt itH (some g) st,
        F₁ + 1, by simp [rank, hrN], ?_, by simp [rank, hrH], ?_, by simp [rank, hrH], ?_, ?_⟩
      · simp only [AbsSt.stepA, Inv]; exact Or.inr (Or.inr ⟨hIN, by trivial⟩)
      · simp only [Inv]; exact Or.inr (Or.inr ⟨hIH, by trivial⟩)
      · simp only [Inv]; exact Or.inr (Or.inr ⟨hIH, by trivial⟩)
      · intro f hf
        obtain ⟨f, rfl⟩ : ∃ f', f = f' + 1 := ⟨f - 1, by omega⟩
        obtain ⟨h1, h2, h3⟩ := hops f (by omega)
        refine ⟨?_, ?_, ?_⟩
        · simp only [nextF, h1, AbsSt.stepA, AbsSt.hasA]
        · simp only [hasCurF, h2, AbsSt.hasA]
        · simp only [getCurF, h2, AbsSt.hasA, Bool.false_eq_true, if_false, AbsSt.curA]

/-- Step behaviour of `WhereIterator`. -/
theorem step_whereIt {T : Type} {R : Nat} (HO : Oracle T R)
    (inner : Iter T) (c : Option (T → Bool)) (s : AbsSt T)
    (hr : rank inner ≤ R) (hI : Inv (.whereIt inner c) s) :
    StepConcl (.whereIt inner c) s := by
  cases c with
  | none =>
    simp only [Inv] at hI
    obtain ⟨itN, itH, itG, F₁, hrN, hIN, hrH, hIH, hrG, hIG, hops⟩ := HO inner s hr hI
    obtain ⟨itN2, itH2, itG2, F₂, hrN2, hIN2, hrH2, hIH2, hrG2, hIG2, hops2⟩ :=
      HO itN _ (by rw [hrN]; exact hr) hIN
    refine ⟨.whereIt itH2 none, .whereIt itH none, .whereIt itG none,
      max F₁ F₂ + 1, by simp [rank, hrH2, hrN], ?_, by simp [rank, hrH], ?_,
      by simp [rank, hrG], ?_, ?_⟩
    · simp only [Inv]; exact hIH2
    · simp only [Inv]; exact hIH
    · simp only [Inv]; exact hIG
    · intro f hf
      obtain ⟨f, rfl⟩ : ∃ f', f = f' + 1 := ⟨f - 1, by omega⟩
      obtain ⟨h1, h2, h3⟩ := hops f (by omega)
      obtain ⟨g1, g2, g3⟩ := hops2 f (by omega)
      exact ⟨by simp only [nextF, h1, g2], by simp only [hasCurF, h2], by simp only [getCurF, h3]⟩
  | some c =>
    have hInv : ∃ sIn, Inv inner sIn ∧ sIn.futureOf.filter c = s.futureOf ∧
        sIn.hasA = s.hasA ∧ sIn.curA = s.curA ∧
        (∀ it₂, Inv it₂ sIn → Inv (.whereIt it₂ (some c)) s) := by
      simp only [Inv] at hI
      rcases hI with ⟨l, hIi, rfl⟩ | ⟨v, l, hIi, hcv, rfl⟩ | ⟨hIi, rfl⟩
      · exact ⟨.fresh l, hIi, rfl, rfl, rfl, fun it₂ h => by
          simp only [Inv]; exact Or.inl ⟨l, h, by trivial⟩⟩
      · exact ⟨.run v l, hIi, rfl, rfl, rfl, fun it₂ h => by
          simp only [Inv]; exact Or.inr (Or.inl ⟨v, l, h, hcv, by trivial⟩)⟩
      · exact ⟨.done, hIi, rfl, rfl, rfl, fun it₂ h => by
          simp only [Inv]; exact Or.inr (Or.inr ⟨h, by trivial⟩)⟩
    obtain ⟨sIn, hIi, hfut, hhas, hcur, hwrap⟩ := hInv
    obtain ⟨inner', F₂, hr', hI', hrun⟩ := whereNext_step HO c sIn.mu inner sIn rfl hr hIi
    obtain ⟨itN, itH, itG, F₁, hrN, hIN, hrH, hIH, hrG, hIG, hops⟩ := HO inner sIn hr hIi
    have hstep : Inv (.whereIt inner' (some c)) s.stepA ∧
        (firstPass c sIn.futureOf).hasA = s.stepA.hasA := by
      rcases firstPass_cases c sIn.futureOf with hfp | ⟨w, rest, hfp⟩
      · have hnil : sIn.futureOf.filter c = [] := firstPass_done hfp
        have hdone : s.stepA = .done := by
          rw [AbsSt.stepA_eq_stepA_fresh_futureOf, ← hfut, hnil]; rfl
        rw [hfp] at hI' ⊢
        rw [hdone]
        refine ⟨?_, rfl⟩
        simp only [Inv]
        exact Or.inr (Or.inr ⟨hI', by trivial⟩)
      · obtain ⟨hcw, hfilter⟩ := firstPass_run hfp
        have hrunA : s.stepA = .run w (rest.filter c) := by
          rw [AbsSt.stepA_eq_stepA_fresh_futureOf, ← hfut, hfilter]; rfl
        rw [hfp] at hI' ⊢
        rw [hrunA]
        refine ⟨?_, rfl⟩
        simp only [Inv]
        exact Or.inr (Or.inl ⟨w, rest, hI', hcw, by trivial⟩)
    refine ⟨.whereIt inner' (some c), .whereIt itH (some c), .whereIt itG (some c),
      max F₁ F₂ + 1, by simp [rank, hr'], hstep.1, by simp [rank, hrH], hwrap itH hIH,
      by simp [rank, hrG], hwrap itG hIG, ?_⟩
    intro f hf
    obtain ⟨h1, h2, h3⟩ := hops f (by omega)
    refine ⟨?_, ?_, ?_⟩
    · rw [hrun f (by omega), hstep.2]
    · obtain ⟨f, rfl⟩ : ∃ f', f = f' + 1 := ⟨f - 1, by omega⟩
      obtain ⟨h1, h2, h3⟩ := hops f (by omega)
      rw [← hhas]
      simp only [hasCurF, h2]
    · obtain ⟨f, rfl⟩ : ∃ f', f = f' + 1 := ⟨f - 1, by omega⟩
      obtain ⟨h1, h2, h3⟩ := hops f (by omega)
      rw [← hcur]
      simp only [getCurF, h3]

/-- Step behaviour of `SkipIterator`. -/
theorem step_skipIt {T : Type} {R : Nat} (HO : Oracle T R)
    (inner : Iter T) (toSkip : Option Int) (skipped : Int) (s : AbsSt T)
    (hr : rank inner ≤ R) (hI : Inv (.skipIt inner toSkip skipped) s) :
    StepConcl (.skipIt inner toSkip skipped) s := by
  simp only [Inv] at hI
  rcases hI with ⟨l, hIi, rfl⟩ | ⟨v, l, hIi, hltu, rfl⟩ | ⟨hIi, rfl⟩
  · -- inner not started: the view is `fresh (l.drop (remSkips toSkip skipped))`
    obtain ⟨inner₁, sk, F₁, hr₁, hsk, hI₁, hrun₁⟩ :=
      skipVals_step HO (remSkips toSkip skipped) toSkip skipped inner (.fresh l) rfl hr hIi
    have hstA : ((AbsSt.stepA)^[remSkips toSkip skipped] (AbsSt.fresh l)).stepA
        = (AbsSt.fresh (l.drop (remSkips toSkip skipped))).stepA := by
      rw [AbsSt.stepA_iterate]; rfl
    obtain ⟨itN, _, _, F₂, hrN, hIN, _, _, _, _, hops₂⟩ :=
      HO inner₁ _ (by rw [hr₁]; exact hr) hI₁
    rw [hstA] at hIN
    obtain ⟨_, itH, itG0, F₀, _, _, hrH, hIH, _, _, hops₀⟩ := HO inner _ hr hIi
    obtain ⟨_, _, itG, F₃, _, _, _, _, hrG, hIG, hops₃⟩ :=
      HO itH _ (by rw [hrH]; exact hr) hIH
    refine ⟨.skipIt itN toSkip sk, .skipIt itH toSkip skipped, .skipIt itG toSkip skipped,
      max (max F₀ F₁) (max F₂ F₃) + 1,
      by simp [rank, hrN, hr₁], ?_, by simp [rank, hrH], ?_, by simp [rank, hrG, hrH], ?_, ?_⟩
    · cases hdl : l.drop (remSkips toSkip skipped) with
      | nil =>
        rw [hdl] at hIN
        simp only [AbsSt.stepA, Inv]
        exact Or.inr (Or.inr ⟨hIN, by trivial⟩)
      | cons w tl =>
        rw [hdl] at hIN
        simp only [AbsSt.stepA, Inv]
        exact Or.inr (Or.inl ⟨w, tl, hIN, hsk, by trivial⟩)
    · simp only [Inv]; exact Or.inl ⟨l, hIH, by trivial⟩
    · simp only [Inv]; exact Or.inl ⟨l, hIG, by trivial⟩
    · intro f hf
      obtain ⟨f, rfl⟩ : ∃ f', f = f' + 1 := ⟨f - 1, by omega⟩
      have e₁ := hrun₁ f (by omega)
      have e₂ := (hops₂ f (by omega)).1
      have e₀ := (hops₀ f (by omega)).2.1
      have e₃ := (hops₃ f (by omega)).2.2
      refine ⟨?_, ?_, ?_⟩
      · simp only [nextF, e₁, e₂, hstA]
      · simp only [hasCurF, e₀, AbsSt.hasA, Bool.false_eq_true, if_false]
      · simp only [getCurF, e₀, AbsSt.hasA, Bool.false_eq_true, if_false, e₃, AbsSt.curA]
  · -- inner positioned, skipping satisfied: transparent view
    have hk : remSkips toSkip skipped = 0 := (remSkips_zero_iff _ _).2 hltu
    obtain ⟨inner₁, sk, F₁, hr₁, hsk, hI₁, hrun₁⟩ :=
      skipVals_step HO 0 toSkip skipped inner (.run v l) hk hr hIi
    simp only [Function.iterate_zero_apply] at hI₁
    obtain ⟨itN, _, _, F₂, hrN, hIN, _, _, _, _, hops₂⟩ :=
      HO inner₁ _ (by rw [hr₁]; exact hr) hI₁
    obtain ⟨_, itH, _, F₀, _, _, hrH, hIH, _, _, hops₀⟩ := HO inner _ hr hIi
    obtain ⟨itH₁, sk₁, F₃, hr₃, hsk₁, hI₃, hrun₃⟩ :=
      skipVals_step HO 0 toSkip skipped itH (.run v l) hk (by rw [hrH]; exact hr) hIH
    simp only [Function.iterate_zero_apply] at hI₃
    obtain ⟨_, itH₂, itG₂, F₄, _, _, hrH₂, hIH₂, hrG₂, hIG₂, hops₄⟩ :=
      HO itH₁ _ (by rw [hr₃, hrH]; exact hr) hI₃
    refine ⟨.skipIt itN toSkip sk, .skipIt itH₂ toSkip sk₁, .skipIt itG₂ toSkip sk₁,
      max (max F₀ F₁) (max F₂ (max F₃ F₄)) + 1,
      by simp [rank, hrN, hr₁], ?_, by simp [rank, hrH₂, hr₃, hrH], ?_,
      by simp [rank, hrG₂, hr₃, hrH], ?_, ?_⟩
    · cases l with
      | nil =>
        simp only [AbsSt.stepA, Inv]
        simp only [AbsSt.stepA] at hIN
        exact Or.inr (Or.inr ⟨hIN, by trivial⟩)
      | cons w tl =>
        simp only [AbsSt.stepA, Inv]
        simp only [AbsSt.stepA] at hIN
        exact Or.inr (Or.inl ⟨w, tl, hIN, hsk, by trivial⟩)
    · simp only [Inv]; exact Or.inr (Or.inl ⟨v, l, hIH₂, hsk₁, by trivial⟩)
    · simp only [Inv]; exact Or.inr (Or.inl ⟨v, l, hIG₂, hsk₁, by trivial⟩)
    · intro f hf
      obtain ⟨f, rfl⟩ : ∃ f', f = f' + 1 := ⟨f - 1, by omega⟩
      have e₁ := hrun₁ f (by omega)
      have e₂ := (hops₂ f (by omega)).1
      have e₀ := (hops₀ f (by omega)).2.1
      have e₃ := hrun₃ f (by omega)
      have e₄h := (hops₄ f (by omega)).2.1
      have e₄g := (hops₄ f (by omega)).2.2
      refine ⟨?_, ?_, ?_⟩
      · simp only [nextF, e₁, e₂]
      · simp only [hasCurF, e₀, AbsSt.hasA, if_true, e₃, e₄h]
      · simp only [getCurF, e₀, AbsSt.hasA, if_true, e₃, e₄g, AbsSt.curA]
  · -- inner exhausted
    obtain ⟨inner₁, sk, F₁, hr₁, hsk, hI₁, hrun₁⟩ :=
      skipVals_step HO (remSkips toSkip skipped) toSkip skipped inner .done rfl hr hIi
    rw [AbsSt.iterate_stepA_done] at hI₁
    obtain ⟨itN, _, _, F₂, hrN, hIN, _, _, _, _, hops₂⟩ :=
      HO inner₁ _ (by rw [hr₁]; exact hr) hI₁
    obtain ⟨_, itH, _, F₀, _, _, hrH, hIH, _, _, hops₀⟩ := HO inner _ hr hIi
    obtain ⟨_, _, itG, F₃, _, _, _, _, hrG, hIG, hops₃⟩ :=
      HO itH _ (by rw [hrH]; exact hr) hIH
    refine ⟨.skipIt itN toSkip sk, .skipIt itH toSkip skipped, .skipIt itG toSkip skipped,
      max (max F₀ F₁) (max F₂ F₃) + 1,
      by simp [rank, hrN, hr₁], ?_, by simp [rank, hrH], ?_, by simp [rank, hrG, hrH], ?_, ?_⟩
    · simp only [AbsSt.stepA, Inv]
      simp only [AbsSt.stepA] at hIN
      exact Or.inr (Or.inr ⟨hIN, by trivial⟩)
    · simp only [Inv]; exact Or.inr (Or.inr ⟨hIH, by trivial⟩)
    · simp only [Inv]; exact Or.inr (Or.inr ⟨hIG, by trivial⟩)
    · intro f hf
      obtain ⟨f, rfl⟩ : ∃ f', f = f' + 1 := ⟨f - 1, by omega⟩
      have e₁ := hrun₁ f (by omega)
      have e₂ := (hops₂ f (by omega)).1
      have e₀ := (hops₀ f (by omega)).2.1
      have e₃ := (hops₃ f (by omega)).2.2
      refine ⟨?_, ?_, ?_⟩
      · simp only [nextF, e₁, e₂, AbsSt.stepA]
      · simp only [hasCurF, e₀, AbsSt.hasA, Bool.false_eq_true, if_false]
      · simp only [getCurF, e₀, AbsSt.hasA, Bool.false_eq_true, if_false, e₃, AbsSt.curA]

/-- Step behaviour of `TakeIterator`. -/
theorem step_takeIt {T : Type} {R : Nat} (HO : Oracle T R)
    (inner : Iter T) (toTake : Option Int) (taken : Int) (s : AbsSt T)
    (hr : rank inner ≤ R) (hI : Inv (.takeIt inner toTake taken) s) :
    StepConcl (.takeIt inner toTake taken) s := by
  simp only [Inv] at hI
  rcases hI with ⟨t, l, rfl, hIi, rfl⟩ | ⟨t, v, l, rfl, hle, hIi, rfl⟩ |
    ⟨hct, ⟨sIn, hIs⟩, rfl⟩ | ⟨hIi, rfl⟩
  · -- inner not started
    obtain ⟨_, itH, _, F₀, _, _, hrH, hIH, _, _, hops₀⟩ := HO inner _ hr hIi
    by_cases hcle : taken ≤ t
    · have hctb : canTake (some t) taken = true := by simp [canTake, hcle]
      obtain ⟨itN, _, _, F₁, hrN, hIN, _, _, _, _, hops₁⟩ := HO inner _ hr hIi
      obtain ⟨_, itH₂, _, F₂, _, _, hrH₂, hIH₂, _, _, hops₂⟩ :=
        HO itN _ (by rw [hrN]; exact hr) hIN
      refine ⟨.takeIt itH₂ (some t) (taken + 1), .takeIt itH (some t) taken,
        .takeIt itH (some t) taken, max F₀ (max F₁ F₂) + 1,
        by simp [rank, hrH₂, hrN], ?_, by simp [rank, hrH], ?_, by simp [rank, hrH], ?_, ?_⟩
      · cases l with
        | nil =>
          simp only [AbsSt.stepA] at hIH₂
          simp only [List.take_nil, AbsSt.stepA, Inv]
          exact Or.inr (Or.inr (Or.inr ⟨hIH₂, by trivial⟩))
        | cons v l' =>
          simp only [AbsSt.stepA] at hIH₂
          by_cases hteq : taken = t
          · have h0 : (t - taken).toNat = 0 := by omega
            have hc2 : canTake (some t) (taken + 1) = false := by
              simp only [canTake, decide_eq_false_iff_not]; omega
            simp only [h0, List.take_zero, AbsSt.stepA, Inv]
            exact Or.inr (Or.inr (Or.inl ⟨hc2, ⟨_, hIH₂⟩, by trivial⟩))
          · have harith : (t - taken).toNat = (t - (taken + 1)).toNat + 1 := by omega
            simp only [harith, List.take_succ_cons, AbsSt.stepA, Inv]
            exact Or.inr (Or.inl ⟨t, v, l', rfl, by omega, hIH₂, by trivial⟩)
      · simp only [Inv]; exact Or.inl ⟨t, l, rfl, hIH, by trivial⟩
      · simp only [Inv]; exact Or.inl ⟨t, l, rfl, hIH, by trivial⟩
      · intro f hf
        obtain ⟨f, rfl⟩ : ∃ f', f = f' + 1 := ⟨f - 1, by omega⟩
        have e₀ := (hops₀ f (by omega)).2.1
        have e₁ := (hops₁ f (by omega)).1
        have e₂ := (hops₂ f (by omega)).2.1
        refine ⟨?_, ?_, ?_⟩
        · simp only [nextF, hctb, if_true, e₁, e₂]
          cases l with
          | nil => simp [AbsSt.stepA, AbsSt.hasA]
          | cons v l' =>
            by_cases hteq : taken = t
            · have h0 : (t - taken).toNat = 0 := by omega
              have hc2 : canTake (some t) (taken + 1) = false := by
                simp only [canTake, decide_eq_false_iff_not]; omega
              simp [h0, AbsSt.stepA, AbsSt.hasA, hc2]
            · have harith : (t - taken).toNat = (t - (taken + 1)).toNat + 1 := by omega
              have hc2 : canTake (some t) (taken + 1) = true := by
                simp only [canTake, decide_eq_true_eq]; omega
              simp [harith, AbsSt.stepA, AbsSt.hasA, hc2]
        · simp [hasCurF, e₀, AbsSt.hasA]
        · simp [getCurF, e₀, AbsSt.hasA, AbsSt.curA]
    · have hctb : canTake (some t) taken = false := by
        simp only [canTake, decide_eq_false_iff_not]; omega
      have htk : (t - taken).toNat = 0 := by omega
      refine ⟨.takeIt itH (some t) taken, .takeIt itH (some t) taken,
        .takeIt itH (some t) taken, F₀ + 1,
        by simp [rank, hrH], ?_, by simp [rank, hrH], ?_, by simp [rank, hrH], ?_, ?_⟩
      · simp only [htk, List.take_zero, AbsSt.stepA, Inv]
        exact Or.inr (Or.inr (Or.inl ⟨hctb, ⟨_, hIH⟩, by trivial⟩))
      · simp only [Inv]; exact Or.inl ⟨t, l, rfl, hIH, by trivial⟩
      · simp only [Inv]; exact Or.inl ⟨t, l, rfl, hIH, by trivial⟩
      · intro f hf
        obtain ⟨f, rfl⟩ : ∃ f', f = f' + 1 := ⟨f - 1, by omega⟩
        have e₀ := (hops₀ f (by omega)).2.1
        refine ⟨?_, ?_, ?_⟩
        · simp [nextF, hctb, e₀, htk, AbsSt.stepA, AbsSt.hasA]
        · simp [hasCurF, e₀, hctb, htk, AbsSt.hasA]
        · simp [getCurF, e₀, hctb, htk, AbsSt.curA]
  · -- inner positioned inside the quota
    have hctb : canTake (some t) taken = true := by simp [canTake, hle]
    obtain ⟨itN, itH, _, F₀, hrN, hIN, hrH, hIH, _, _, hops₀⟩ := HO inner _ hr hIi
    obtain ⟨_, itH₂, _, F₂, _, _, hrH₂, hIH₂, _, _, hops₂⟩ :=
      HO itN _ (by rw [hrN]; exact hr) hIN
    obtain ⟨_, _, itG₂, F₃, _, _, _, _, hrG₂, hIG₂, hops₃⟩ :=
      HO itH _ (by rw [hrH]; exact hr) hIH
    refine ⟨.takeIt itH₂ (some t) (taken + 1), .takeIt itH (some t) taken,
      .takeIt itG₂ (some t) taken, max F₀ (max F₂ F₃) + 1,
      by simp [rank, hrH₂, hrN], ?_, by simp [rank, hrH], ?_, by simp [rank, hrG₂, hrH], ?_, ?_⟩
    · cases l with
      | nil =>
        simp only [AbsSt.stepA] at hIH₂
        simp only [List.take_nil, AbsSt.stepA, Inv]
        exact Or.inr (Or.inr (Or.inr ⟨hIH₂, by trivial⟩))
      | cons w l' =>
        simp only [AbsSt.stepA] at hIH₂
        by_cases hteq : taken = t
        · have h0 : (t - taken).toNat = 0 := by omega
          have hc2 : canTake (some t) (taken + 1) = false := by
            simp only [canTake, decide_eq_false_iff_not]; omega
          simp only [h0, List.take_zero, AbsSt.stepA, Inv]
          exact Or.inr (Or.inr (Or.inl ⟨hc2, ⟨_, hIH₂⟩, by trivial⟩))
        · have harith : (t - taken).toNat = (t - (taken + 1)).toNat + 1 := by omega
          simp only [harith, List.take_succ_cons, AbsSt.stepA, Inv]
          exact Or.inr (Or.inl ⟨t, w, l', rfl, by omega, hIH₂, by trivial⟩)
    · simp only [Inv]; exact Or.inr (Or.inl ⟨t, v, l, rfl, hle, hIH, by trivial⟩)
    · simp only [Inv]; exact Or.inr (Or.inl ⟨t, v, l, rfl, hle, hIG₂, by trivial⟩)
    · intro f hf
      obtain ⟨f, rfl⟩ : ∃ f', f = f' + 1 := ⟨f - 1, by omega⟩
      have e₀n := (hops₀ f (by omega)).1
      have e₀h := (hops₀ f (by omega)).2.1
      have e₂ := (hops₂ f (by omega)).2.1
      have e₃ := (hops₃ f (by omega)).2.2
      refine ⟨?_, ?_, ?_⟩
      · simp only [nextF, hctb, if_true, e₀n, e₂]
        cases l with
        | nil => simp [AbsSt.stepA, AbsSt.hasA]
        | cons w l' =>
          by_cases hteq : taken = t
          · have h0 : (t - taken).toNat = 0 := by omega
            have hc2 : canTake (some t) (taken + 1) = false := by
              simp only [canTake, decide_eq_false_iff_not]; omega
            simp [h0, AbsSt.stepA, AbsSt.hasA, hc2]
          · have harith : (t - taken).toNat = (t - (taken + 1)).toNat + 1 := by omega
            have hc2 : canTake (some t) (taken + 1) = true := by
              simp only [canTake, decide_eq_true_eq]; omega
            simp [harith, AbsSt.stepA, AbsSt.hasA, hc2]
      · simp [hasCurF, e₀h, AbsSt.hasA, hctb]
      · simp [getCurF, e₀h, AbsSt.hasA, hctb, e₃, AbsSt.curA]
  · -- quota exceeded: permanently exhausted regardless of the inner iterator
    obtain ⟨_, itH, _, F₀, _, _, hrH, hIH, _, _, hops₀⟩ := HO inner _ hr hIs
    refine ⟨.takeIt itH toTake taken, .takeIt itH toTake taken, .takeIt itH toTake taken,
      F₀ + 1, by simp [rank, hrH], ?_, by simp [rank, hrH], ?_, by simp [rank, hrH], ?_, ?_⟩
    · simp only [AbsSt.stepA, Inv]
      exact Or.inr (Or.inr (Or.inl ⟨hct, ⟨_, hIH⟩, by trivial⟩))
    · simp only [Inv]; exact Or.inr (Or.inr (Or.inl ⟨hct, ⟨_, hIH⟩, by trivial⟩))
    · simp only [Inv]; exact Or.inr (Or.inr (Or.inl ⟨hct, ⟨_, hIH⟩, by trivial⟩))
    · intro f hf
      obtain ⟨f, rfl⟩ : ∃ f', f = f' + 1 := ⟨f - 1, by omega⟩
      have e₀ := (hops₀ f (by omega)).2.1
      refine ⟨?_, ?_, ?_⟩
      · simp [nextF, hct, e₀, AbsSt.stepA, AbsSt.hasA]
      · simp [hasCurF, e₀, hct, AbsSt.hasA]
      · simp [getCurF, e₀, hct, AbsSt.curA]
  · -- inner exhausted
    obtain ⟨itN, itH, _, F₀, hrN, hIN, hrH, hIH, _, _, hops₀⟩ := HO inner _ hr hIi
    simp only [AbsSt.stepA] at hIN
    obtain ⟨_, itH₂, _, F₂, _, _, hrH₂, hIH₂, _, _, hops₂⟩ :=
      HO itN _ (by rw [hrN]; exact hr) hIN
    cases hcc : canTake toTake taken with
    | true =>
      refine ⟨.takeIt itH₂ toTake (taken + 1), .takeIt itH toTake taken,
        .takeIt itH toTake taken, max F₀ F₂ + 1,
        by simp [rank, hrH₂, hrN], ?_, by simp [rank, hrH], ?_, by simp [rank, hrH], ?_, ?_⟩
      · simp only [AbsSt.stepA, Inv]
        exact Or.inr (Or.inr (Or.inr ⟨hIH₂, by trivial⟩))
      · simp only [Inv]; exact Or.inr (Or.inr (Or.inr ⟨hIH, by trivial⟩))
      · simp only [Inv]; exact Or.inr (Or.inr (Or.inr ⟨hIH, by trivial⟩))
      · intro f hf
        obtain ⟨f, rfl⟩ : ∃ f', f = f' + 1 := ⟨f - 1, by omega⟩
        have e₀n := (hops₀ f (by omega)).1
        have e₀h := (hops₀ f (by omega)).2.1
        have e₂ := (hops₂ f (by omega)).2.1
        refine ⟨?_, ?_, ?_⟩
        · simp [nextF, hcc, e₀n, e₂, AbsSt.stepA, AbsSt.hasA]
        · simp [hasCurF, e₀h, AbsSt.hasA]
        · simp [getCurF, e₀h, AbsSt.hasA, AbsSt.curA]
    | false =>
      refine ⟨.takeIt itH toTake taken, .takeIt itH toTake taken, .takeIt itH toTake taken,
        F₀ + 1, by simp [rank, hrH], ?_, by simp [rank, hrH], ?_, by simp [rank, hrH], ?_, ?_⟩
      · simp only [AbsSt.stepA, Inv]
        exact Or.inr (Or.inr (Or.inr ⟨hIH, by trivial⟩))
      · simp only [Inv]; exact Or.inr (Or.inr (Or.inr ⟨hIH, by trivial⟩))
      · simp only [Inv]; exact Or.inr (Or.inr (Or.inr ⟨hIH, by trivial⟩))
      · intro f hf
        obtain ⟨f, rfl⟩ : ∃ f', f = f' + 1 := ⟨f - 1, by omega⟩
        have e₀ := (hops₀ f (by omega)).2.1
        refine ⟨?_, ?_, ?_⟩
        · simp [nextF, hcc, e₀, AbsSt.stepA, AbsSt.hasA]
        · simp [hasCurF, e₀, hcc, AbsSt.hasA]
        · simp [getCurF, e₀, hcc, AbsSt.curA]

/-- Step behaviour of `ConcatenateIterator`. -/
theorem step_concatIt {T : Type} {R : Nat} (HO : Oracle T R)
    (a b : Iter T) (s : AbsSt T)
    (hra : rank a ≤ R) (hrb : rank b ≤ R) (hI : Inv (.concatIt a b) s) :
    StepConcl (.concatIt a b) s := by
  simp only [Inv] at hI
  rcases hI with ⟨la, lb, hIa, hIb, rfl⟩ | ⟨v, ra, lb, hIa, hIb, rfl⟩ | ⟨hIa, hIb⟩
  · -- both sides not started
    obtain ⟨aN, aH, aG, Fa, hraN, hIaN, hraH, hIaH, hraG, hIaG, hopsa⟩ := HO a _ hra hIa
    obtain ⟨bN, bH, bG, Fb, hrbN, hIbN, hrbH, hIbH, hrbG, hIbG, hopsb⟩ := HO b _ hrb hIb
    cases la with
    | cons v ra =>
      refine ⟨.concatIt aN b, .concatIt aH bH, .concatIt aH bG, max Fa Fb + 1,
        by simp [rank, hraN], ?_, by simp [rank, hraH, hrbH], ?_,
        by simp [rank, hraH, hrbG], ?_, ?_⟩
      · simp only [AbsSt.stepA] at hIaN
        simp only [List.cons_append, AbsSt.stepA, Inv]
        exact Or.inr (Or.inl ⟨v, ra, lb, hIaN, hIb, by trivial⟩)
      · simp only [Inv]; exact Or.inl ⟨v :: ra, lb, hIaH, hIbH, by trivial⟩
      · simp only [Inv]; exact Or.inl ⟨v :: ra, lb, hIaH, hIbG, by trivial⟩
      · intro f hf
        obtain ⟨f, rfl⟩ : ∃ f', f = f' + 1 := ⟨f - 1, by omega⟩
        have ea := (hopsa f (by omega)).1
        have eah := (hopsa f (by omega)).2.1
        have ebh := (hopsb f (by omega)).2.1
        have ebg := (hopsb f (by omega)).2.2
        refine ⟨?_, ?_, ?_⟩
        · simp [nextF, ea, AbsSt.stepA, AbsSt.hasA]
        · simp [hasCurF, eah, ebh, AbsSt.hasA]
        · simp [getCurF, eah, ebg, AbsSt.hasA, AbsSt.curA]
    | nil =>
      simp only [AbsSt.stepA] at hIaN
      refine ⟨.concatIt aN bN, .concatIt aH bH, .concatIt aH bG, max Fa Fb + 1,
        by simp [rank, hraN, hrbN], ?_, by simp [rank, hraH, hrbH], ?_,
        by simp [rank, hraH, hrbG], ?_, ?_⟩
      · simp only [List.nil_append, Inv]
        exact Or.inr (Or.inr ⟨hIaN, hIbN⟩)
      · simp only [Inv]; exact Or.inl ⟨[], lb, hIaH, hIbH, by trivial⟩
      · simp only [Inv]; exact Or.inl ⟨[], lb, hIaH, hIbG, by trivial⟩
      · intro f hf
        obtain ⟨f, rfl⟩ : ∃ f', f = f' + 1 := ⟨f - 1, by omega⟩
        have ea := (hopsa f (by omega)).1
        have eb := (hopsb f (by omega)).1
        have eah := (hopsa f (by omega)).2.1
        have ebh := (hopsb f (by omega)).2.1
        have ebg := (hopsb f (by omega)).2.2
        refine ⟨?_, ?_, ?_⟩
        · simp [nextF, ea, eb, AbsSt.stepA, AbsSt.hasA]
        · simp [hasCurF, eah, ebh, AbsSt.hasA]
        · simp [getCurF, eah, ebg, AbsSt.hasA, AbsSt.curA]
  · -- first side positioned, second untouched
    obtain ⟨aN, aH, aG, Fa, hraN, hIaN, hraH, hIaH, hraG, hIaG, hopsa⟩ := HO a _ hra hIa
    obtain ⟨_, _, aG2, Fa2, _, _, _, _, hraG2, hIaG2, hopsa2⟩ :=
      HO aH _ (by rw [hraH]; exact hra) hIaH
    cases ra with
    | cons w ra' =>
      refine ⟨.concatIt aN b, .concatIt aH b, .concatIt aG2 b, max Fa Fa2 + 1,
        by simp [rank, hraN], ?_, by simp [rank, hraH], ?_,
        by simp [rank, hraG2, hraH], ?_, ?_⟩
      · simp only [AbsSt.stepA] at hIaN
        simp only [List.cons_append, AbsSt.stepA, Inv]
        exact Or.inr (Or.inl ⟨w, ra', lb, hIaN, hIb, by trivial⟩)
      · simp only [Inv]; exact Or.inr (Or.inl ⟨v, w :: ra', lb, hIaH, hIb, by trivial⟩)
      · simp only [Inv]; exact Or.inr (Or.inl ⟨v, w :: ra', lb, hIaG2, hIb, by trivial⟩)
      · intro f hf
        obtain ⟨f, rfl⟩ : ∃ f', f = f' + 1 := ⟨f - 1, by omega⟩
        have ea := (hopsa f (by omega)).1
        have eah := (hopsa f (by omega)).2.1
        have eag := (hopsa2 f (by omega)).2.2
        refine ⟨?_, ?_, ?_⟩
        · simp [nextF, ea, AbsSt.stepA, AbsSt.hasA]
        · simp [hasCurF, eah, AbsSt.hasA]
        · simp [getCurF, eah, eag, AbsSt.hasA, AbsSt.curA]
    | nil =>
      obtain ⟨bN, bH, bG, Fb, hrbN, hIbN, hrbH, hIbH, hrbG, hIbG, hopsb⟩ := HO b _ hrb hIb
      simp only [AbsSt.stepA] at hIaN
      have hst : (AbsSt.run v ([] ++ lb)).stepA = (AbsSt.fresh lb).stepA := by
        simp only [List.nil_append]
        exact AbsSt.stepA_eq_stepA_fresh_futureOf _
      refine ⟨.concatIt aN bN, .concatIt aH b, .concatIt aG2 b, max (max Fa Fa2) Fb + 1,
        by simp [rank, hraN, hrbN], ?_, by simp [rank, hraH], ?_,
        by simp [rank, hraG2, hraH], ?_, ?_⟩
      · rw [hst]
        simp only [Inv]
        exact Or.inr (Or.inr ⟨hIaN, hIbN⟩)
      · simp only [Inv]; exact Or.inr (Or.inl ⟨v, [], lb, hIaH, hIb, by trivial⟩)
      · simp only [Inv]; exact Or.inr (Or.inl ⟨v, [], lb, hIaG2, hIb, by trivial⟩)
      · intro f hf
        obtain ⟨f, rfl⟩ : ∃ f', f = f' + 1 := ⟨f - 1, by omega⟩
        have ea := (hopsa f (by omega)).1
        have eb := (hopsb f (by omega)).1
        have eah := (hopsa f (by omega)).2.1
        have eag := (hopsa2 f (by omega)).2.2
        refine ⟨?_, ?_, ?_⟩
        · rw [hst]
          simp only [nextF, ea, AbsSt.stepA, AbsSt.hasA, Bool.false_eq_true, if_false, eb]
        · simp [hasCurF, eah, AbsSt.hasA]
        · simp [getCurF, eah, eag, AbsSt.hasA, AbsSt.curA]
  · -- first side exhausted: transparent view of the second side
    obtain ⟨aN, aH, aG, Fa, hraN, hIaN, hraH, hIaH, hraG, hIaG, hopsa⟩ := HO a _ hra hIa
    obtain ⟨bN, bH, bG, Fb, hrbN, hIbN, hrbH, hIbH, hrbG, hIbG, hopsb⟩ := HO b _ hrb hIb
    simp only [AbsSt.stepA] at hIaN
    refine ⟨.concatIt aN bN, .concatIt aH bH, .concatIt aH bG, max Fa Fb + 1,
      by simp [rank, hraN, hrbN], ?_, by simp [rank, hraH, hrbH], ?_,
      by simp [rank, hraH, hrbG], ?_, ?_⟩
    · simp only [Inv]; exact Or.inr (Or.inr ⟨hIaN, hIbN⟩)
    · simp only [Inv]; exact Or.inr (Or.inr ⟨hIaH, hIbH⟩)
    · simp only [Inv]; exact Or.inr (Or.inr ⟨hIaH, hIbG⟩)
    · intro f hf
      obtain ⟨f, rfl⟩ : ∃ f', f = f' + 1 := ⟨f - 1, by omega⟩
      have ea := (hopsa f (by omega)).1
      have eb := (hopsb f (by omega)).1
      have eah := (hopsa f (by omega)).2.1
      have ebh := (hopsb f (by omega)).2.1
      have ebg := (hopsb f (by omega)).2.2
      refine ⟨?_, ?_, ?_⟩
      · simp [nextF, ea, eb, AbsSt.stepA, AbsSt.hasA]
      · simp [hasCurF, eah, ebh, AbsSt.hasA]
      · simp [getCurF, eah, ebg, AbsSt.hasA, AbsSt.curA]

/-- The simulation step theorem: every invariant-satisfying iterator state
steps as its abstract state dictates. -/
theorem step_all {T : Type} : ∀ R : Nat, Oracle T R := by
  intro R
  induction R with
  | zero =>
    intro it s hrk hI
    cases it with
    | arrFwd data idx => exact step_arrFwd data idx s hI
    | arrRev data idx => exact step_arrRev data idx s hI
    | whereIt inner c => simp [rank] at hrk
    | skipIt inner a k => simp [rank] at hrk
    | takeIt inner a k => simp [rank] at hrk
    | mapIt inner a k => simp [rank] at hrk
    | concatIt a b => simp [rank] at hrk
  | succ R ihR =>
    intro it s hrk hI
    cases it with
    | arrFwd data idx => exact step_arrFwd data idx s hI
    | arrRev data idx => exact step_arrRev data idx s hI
    | whereIt inner c => exact step_whereIt ihR inner c s (by simp [rank] at hrk; omega) hI
    | skipIt inner a k => exact step_skipIt ihR inner a k s (by simp [rank] at hrk; omega) hI
    | takeIt inner a k => exact step_takeIt ihR inner a k s (by simp [rank] at hrk; omega) hI
    | mapIt inner a k => exact step_mapIt ihR inner a k s (by simp [rank] at hrk; omega) hI
    | concatIt a b =>
      exact step_concatIt ihR a b s (by simp [rank] at hrk; omega)
        (by simp [rank] at hrk; omega) hI

/-- The step theorem at the natural rank bound. -/
theorem step {T : Type} (it : Iter T) (s : AbsSt T) (hI : Inv it s) : StepConcl it s :=
  step_all (rank it) it s le_rfl hI

/-- The `foreach` push loop collects exactly the future elements. -/
theorem toArrayLoop_inv {T : Type} :
    ∀ (n : Nat) (it : Iter T) (s : AbsSt T) (acc : List T), s.mu = n → Inv it s →
      ∃ F, ∀ f, F ≤ f → toArrayLoopF f it acc = some (acc ++ s.futureOf) := by
  intro n
  induction n using Nat.strong_induction_on with
  | _ n ih =>
  intro it s acc hn hI
  obtain ⟨itN, itH, itG, F₁, hrN, hIN, _, _, _, _, hops⟩ := step it s hI
  cases hb : s.stepA.hasA with
  | false =>
    have hfut : s.futureOf = [] := (AbsSt.stepA_done_iff s).1 (AbsSt.hasA_stepA_false hb)
    refine ⟨F₁ + 1, ?_⟩
    intro f hf
    obtain ⟨f, rfl⟩ : ∃ f', f = f' + 1 := ⟨f - 1, by omega⟩
    have h1 := (hops f (by omega)).1
    rw [hb] at h1
    simp [toArrayLoopF, h1, hfut]
  | true =>
    obtain ⟨w, rest, hrun, hfut⟩ := AbsSt.hasA_stepA_true hb
    rw [hrun] at hIN
    obtain ⟨_, _, itG2, F₂, _, _, _, _, hrG2, hIG2, hops2⟩ := step itN _ hIN
    have hmu : (AbsSt.run w rest).mu < n := by rw [← hn, ← hrun]; exact AbsSt.mu_stepA_lt hb
    obtain ⟨F₃, hrec⟩ := ih _ hmu itG2 (.run w rest) (acc ++ [w]) rfl hIG2
    refine ⟨max F₁ (max F₂ F₃) + 1, ?_⟩
    intro f hf
    obtain ⟨f, rfl⟩ : ∃ f', f = f' + 1 := ⟨f - 1, by omega⟩
    have h1 := (hops f (by omega)).1
    rw [hb] at h1
    have h2 := (hops2 f (by omega)).2.2
    simp only [toArrayLoopF, h1, if_true, h2, AbsSt.curA, Option.toList_some]
    rw [hrec f (by omega), hfut]
    simp [AbsSt.futureOf]

/-- `toArray()` of a freshly created iterator returns exactly its elements. -/
theorem toArray_fresh {T : Type} (it : Iter T) (l : List T) (hI : Inv it (.fresh l)) :
    ∃ F, ∀ f, F ≤ f → toArrayF f it = some l := by
  obtain ⟨_, itH, _, F₁, _, _, hrH, hIH, _, _, hops⟩ := step it _ hI
  obtain ⟨F₂, hloop⟩ := toArrayLoop_inv (AbsSt.fresh l).mu itH (.fresh l) [] rfl hIH
  refine ⟨max F₁ F₂ + 1, ?_⟩
  intro f hf
  obtain ⟨f, rfl⟩ : ∃ f', f = f' + 1 := ⟨f - 1, by omega⟩
  have h1 := (hops f (by omega)).2.1
  simp only [toArrayF, h1, AbsSt.hasA, Bool.false_eq_true, if_false]
  simpa using hloop f (by omega)

/-- The `getCount` loop counts exactly the future elements. -/
theorem getCountLoop_inv {T : Type} :
    ∀ (n : Nat) (it : Iter T) (s : AbsSt T) (acc : Int), s.mu = n → Inv it s →
      ∃ F, ∀ f, F ≤ f → getCountLoopF f it acc = some (acc + s.futureOf.length) := by
  intro n
  induction n using Nat.strong_induction_on with
  | _ n ih =>
  intro it s acc hn hI
  obtain ⟨itN, _, _, F₁, hrN, hIN, _, _, _, _, hops⟩ := step it s hI
  cases hb : s.stepA.hasA with
  | false =>
    have hfut : s.futureOf = [] := (AbsSt.stepA_done_iff s).1 (AbsSt.hasA_stepA_false hb)
    refine ⟨F₁ + 1, ?_⟩
    intro f hf
    obtain ⟨f, rfl⟩ : ∃ f', f = f' + 1 := ⟨f - 1, by omega⟩
    have h1 := (hops f (by omega)).1
    rw [hb] at h1
    simp [getCountLoopF, h1, hfut]
  | true =>
    obtain ⟨w, rest, hrun, hfut⟩ := AbsSt.hasA_stepA_true hb
    rw [hrun] at hIN
    have hmu : (AbsSt.run w rest).mu < n := by rw [← hn, ← hrun]; exact AbsSt.mu_stepA_lt hb
    obtain ⟨F₃, hrec⟩ := ih _ hmu itN (.run w rest) (acc + 1) rfl hIN
    refine ⟨max F₁ F₃ + 1, ?_⟩
    intro f hf
    obtain ⟨f, rfl⟩ : ∃ f', f = f' + 1 := ⟨f - 1, by omega⟩
    have h1 := (hops f (by omega)).1
    rw [hb] at h1
    simp only [getCountLoopF, h1, if_true]
    rw [hrec f (by omega), hfut]
    congr 1
    simp [AbsSt.futureOf]
    omega

/-- `getCount()` of a freshly created iterator returns its length. -/
theorem getCount_fresh {T : Type} (it : Iter T) (l : List T) (hI : Inv it (.fresh l)) :
    ∃ F, ∀ f, F ≤ f → getCountF f it = some (l.length : Int) := by
  obtain ⟨_, itH, _, F₁, _, _, hrH, hIH, _, _, hops⟩ := step it _ hI
  obtain ⟨F₂, hloop⟩ := getCountLoop_inv (AbsSt.fresh l).mu itH (.fresh l) 0 rfl hIH
  refine ⟨max F₁ F₂ + 1, ?_⟩
  intro f hf
  obtain ⟨f, rfl⟩ : ∃ f', f = f' + 1 := ⟨f - 1, by omega⟩
  have h1 := (hops f (by omega)).2.1
  simp only [getCountF, h1, AbsSt.hasA, Bool.false_eq_true, if_false]
  simpa using hloop f (by omega)

/-- The lock-step loop of `endsWith` over two equally long streams decides
elementwise equality of the remaining elements. -/
theorem endsWithLoop_inv {T : Type} [DecidableEq T] :
    ∀ (n : Nat) (aIt bIt : Qub.Iter T) (sa sb : AbsSt T),
      sa.futureOf.length = n → sb.futureOf.length = n → Inv aIt sa → Inv bIt sb →
      ∃ F, ∀ f, F ≤ f →
        Ible.endsWithLoopF f aIt bIt = some (decide (sa.futureOf = sb.futureOf)) := by
  intro n
  induction n with
  | zero =>
    intro aIt bIt sa sb hla hlb hIa hIb
    have hfa : sa.futureOf = [] := List.length_eq_zero.1 hla
    have hfb : sb.futureOf = [] := List.length_eq_zero.1 hlb
    have hda : sa.stepA = .done := (AbsSt.stepA_done_iff sa).2 hfa
    have hdb : sb.stepA = .done := (AbsSt.stepA_done_iff sb).2 hfb
    obtain ⟨aN, _, _, Fa, _, hIaN, _, _, _, _, hopsa⟩ := step aIt sa hIa
    obtain ⟨bN, _, _, Fb, _, hIbN, _, _, _, _, hopsb⟩ := step bIt sb hIb
    rw [hda] at hIaN
    obtain ⟨_, aH₂, _, Fa2, _, _, _, hIaH₂, _, _, hopsa2⟩ := step aN _ hIaN
    refine ⟨max (max Fa Fb) Fa2 + 1, ?_⟩
    intro f hf
    obtain ⟨f, rfl⟩ : ∃ f', f = f' + 1 := ⟨f - 1, by omega⟩
    have e1 := (hopsa f (by omega)).1
    have e2 := (hopsb f (by omega)).1
    have e3 := (hopsa2 f (by omega)).2.1
    rw [hda] at e1
    rw [hdb] at e2
    simp [Ible.endsWithLoopF, e1, e2, e3, AbsSt.hasA, hfa, hfb]
  | succ n ih =>
    intro aIt bIt sa sb hla hlb hIa hIb
    obtain ⟨w, resta, hfa⟩ : ∃ w resta, sa.futureOf = w :: resta := by
      cases h : sa.futureOf with
      | nil => rw [h] at hla; simp at hla
      | cons x xs => exact ⟨x, xs, rfl⟩
    obtain ⟨u, restb, hfb⟩ : ∃ u restb, sb.futureOf = u :: restb := by
      cases h : sb.futureOf with
      | nil => rw [h] at hlb; simp at hlb
      | cons x xs => exact ⟨x, xs, rfl⟩
    have hsa : sa.stepA = .run w resta := (AbsSt.stepA_run_iff _ _ _).2 hfa
    have hsb : sb.stepA = .run u restb := (AbsSt.stepA_run_iff _ _ _).2 hfb
    obtain ⟨aN, _, _, Fa, _, hIaN, _, _, _, _, hopsa⟩ := step aIt sa hIa
    obtain ⟨bN, _, _, Fb, _, hIbN, _, _, _, _, hopsb⟩ := step bIt sb hIb
    rw [hsa] at hIaN
    rw [hsb] at hIbN
    obtain ⟨_, aH₂, _, Fa2, _, _, _, hIaH₂, _, _, hopsa2⟩ := step aN _ hIaN
    obtain ⟨_, _, aG₃, Fa3, _, _, _, _, _, hIaG₃, hopsa3⟩ := step aH₂ _ hIaH₂
    obtain ⟨_, _, bG₂, Fb2, _, _, _, _, _, hIbG₂, hopsb2⟩ := step bN _ hIbN
    have hna : (AbsSt.run w resta).futureOf.length = n := by
      rw [hfa] at hla; simpa [AbsSt.futureOf] using hla
    have hnb : (AbsSt.run u restb).futureOf.length = n := by
      rw [hfb] at hlb; simpa [AbsSt.futureOf] using hlb
    obtain ⟨Fr, hrec⟩ := ih aG₃ bG₂ (.run w resta) (.run u restb) hna hnb hIaG₃ hIbG₂
    refine ⟨max (max (max Fa Fb) (max Fa2 Fa3)) (max Fb2 Fr) + 1, ?_⟩
    intro f hf
    obtain ⟨f, rfl⟩ : ∃ f', f = f' + 1 := ⟨f - 1, by omega⟩
    have e1 := (hopsa f (by omega)).1
    have e2 := (hopsb f (by omega)).1
    have e3 := (hopsa2 f (by omega)).2.1
    have e4 := (hopsa3 f (by omega)).2.2
    have e5 := (hopsb2 f (by omega)).2.2
    rw [hsa] at e1
    rw [hsb] at e2
    simp only [AbsSt.hasA] at e1 e2
    simp only [AbsSt.hasA, AbsSt.curA] at e3 e4 e5
    by_cases hwu : w = u
    · subst hwu
      simp only [Ible.endsWithLoopF, e1, e2, if_true, e3, e4, e5, ne_eq, not_true_eq_false,
        if_false]
      rw [hrec f (by omega), hfa, hfb]
      simp [AbsSt.futureOf]
    · have hne : (some w ≠ some u) := by simp [hwu]
      simp only [Ible.endsWithLoopF, e1, e2, if_true, e3, e4, e5]
      rw [hfa, hfb]
      simp [hwu, hne]

end Iter

namespace Ible

open Iter

/-- `iterate()` produces a not-yet-started iterator over exactly `den x`. -/
theorem iterate_den {T : Type} (x : Ible T) :
    ∃ it F, Inv it (AbsSt.fresh (den x)) ∧ ∀ f, F ≤ f → iterateF f x = some it := by
  induction x with
  | arr data => exact ⟨.arrFwd data none, 0, by simp [Iter.Inv, den], fun f _ => rfl⟩
  | whereI x c ihx =>
    obtain ⟨it₀, F₀, hI₀, hrun₀⟩ := ihx
    obtain ⟨_, itH, _, F₁, _, _, _, hIH, _, _, hops⟩ := step it₀ _ hI₀
    refine ⟨.whereIt itH (some c), max F₀ F₁ + 1, ?_, ?_⟩
    · simp only [Iter.Inv]
      exact Or.inl ⟨den x, hIH, by simp [den]⟩
    · intro f hf
      obtain ⟨f, rfl⟩ : ∃ f', f = f' + 1 := ⟨f - 1, by omega⟩
      have h0 := hrun₀ (f + 1) (by omega)
      have h1 := (hops f (by omega)).2.1
      simp only [iterateF, h0, mkWhereF, h1, AbsSt.hasA, Bool.false_eq_true, if_false]
  | skipI x t ihx =>
    obtain ⟨it₀, F₀, hI₀, hrun₀⟩ := ihx
    refine ⟨mkSkip it₀ (some t), F₀, ?_, ?_⟩
    · simp only [mkSkip, Iter.Inv]
      refine Or.inl ⟨den x, hI₀, ?_⟩
      simp [den, remSkips]
    · intro f hf
      simp only [iterateF, hrun₀ f hf]
  | takeI x t ihx =>
    obtain ⟨it₀, F₀, hI₀, hrun₀⟩ := ihx
    obtain ⟨_, itH, _, F₁, _, _, _, hIH, _, _, hops⟩ := step it₀ _ hI₀
    refine ⟨.takeIt itH (some t) 0, max F₀ F₁ + 1, ?_, ?_⟩
    · simp only [Iter.Inv]
      refine Or.inl ⟨t, den x, rfl, hIH, ?_⟩
      simp [den]
    · intro f hf
      have h0 := hrun₀ f (by omega)
      have h1 := (hops f (by omega)).2.1
      simp only [iterateF, h0, mkTakeF, h1, AbsSt.hasA, Bool.false_eq_true, if_false]
  | mapI x g ihx =>
    obtain ⟨it₀, F₀, hI₀, hrun₀⟩ := ihx
    refine ⟨mkMap it₀ (some g), F₀, ?_, ?_⟩
    · simp only [mkMap, Iter.Inv]
      exact Or.inl ⟨den x, hI₀, by simp [den]⟩
    · intro f hf
      simp only [iterateF, hrun₀ f hf]
  | concatI x l ihx =>
    obtain ⟨it₀, F₀, hI₀, hrun₀⟩ := ihx
    refine ⟨.concatIt it₀ (.arrFwd l none), F₀, ?_, ?_⟩
    · simp only [Iter.Inv]
      exact Or.inl ⟨den x, l, hI₀, by simp [Iter.Inv], by simp [den]⟩
    · intro f hf
      simp only [iterateF, hrun₀ f hf]

/-- `getCount()` of every well-formed iterable equals the length of its
denotation. -/
theorem ibleGetCount_den {T : Type} (x : Ible T) (hwf : wfB x = true) :
    ∃ F, ∀ f, F ≤ f → ibleGetCountF f x = some ((den x).length : Int) := by
  induction x with
  | arr data => exact ⟨0, fun f _ => by simp [ibleGetCountF, den]⟩
  | whereI x c ihx =>
    obtain ⟨it, F₀, hI, hrun⟩ := iterate_den (Ible.whereI x c)
    obtain ⟨F₁, hcount⟩ := getCount_fresh it _ hI
    refine ⟨max F₀ F₁, fun f hf => ?_⟩
    simp only [ibleGetCountF, hrun f (by omega), hcount f (by omega)]
  | skipI x t ihx =>
    have hwx : wfB x = true ∧ 0 < t := by simpa [wfB] using hwf
    obtain ⟨F₀, hc⟩ := ihx hwx.1
    refine ⟨F₀, fun f hf => ?_⟩
    simp only [ibleGetCountF, hc f hf, den, List.length_drop, Option.some.injEq]
    split <;> omega
  | takeI x t ihx =>
    have hwx : wfB x = true ∧ 0 < t := by simpa [wfB] using hwf
    obtain ⟨F₀, hc⟩ := ihx hwx.1
    refine ⟨F₀, fun f hf => ?_⟩
    simp only [ibleGetCountF, hc f hf, den, List.length_take, Option.some.injEq]
    rcases hwx with ⟨_, ht⟩
    split <;> push_cast <;> omega
  | mapI x g ihx =>
    have hwx : wfB x = true := by simpa [wfB] using hwf
    obtain ⟨F₀, hc⟩ := ihx hwx
    refine ⟨F₀, fun f hf => ?_⟩
    simp only [ibleGetCountF, hc f hf, den, List.length_map]
  | concatI x l ihx =>
    obtain ⟨it, F₀, hI, hrun⟩ := iterate_den (Ible.concatI x l)
    obtain ⟨F₁, hcount⟩ := getCount_fresh it _ hI
    refine ⟨max F₀ F₁, fun f hf => ?_⟩
    simp only [ibleGetCountF, hrun f (by omega), hcount f (by omega)]

/-- `iterateReverse()` of every well-formed iterable produces a not-yet-started
iterator over the reversed denotation. -/
theorem iterateRev_den {T : Type} (x : Ible T) (hwf : wfB x = true) :
    ∃ it F, Inv it (AbsSt.fresh (den x).reverse) ∧
      ∀ f, F ≤ f → iterateReverseF f x = some it := by
  induction x with
  | arr data => exact ⟨.arrRev data none, 0, by simp [Iter.Inv, den], fun f _ => rfl⟩
  | whereI x c ihx =>
    have hwx : wfB x = true := by simpa [wfB] using hwf
    obtain ⟨it₀, F₀, hI₀, hrun₀⟩ := ihx hwx
    obtain ⟨_, itH, _, F₁, _, _, _, hIH, _, _, hops⟩ := step it₀ _ hI₀
    refine ⟨.whereIt itH (some c), max F₀ F₁ + 1, ?_, ?_⟩
    · simp only [Iter.Inv]
      exact Or.inl ⟨(den x).reverse, hIH, by simp [den, List.filter_reverse]⟩
    · intro f hf
      obtain ⟨f, rfl⟩ : ∃ f', f = f' + 1 := ⟨f - 1, by omega⟩
      have h0 := hrun₀ (f + 1) (by omega)
      have h1 := (hops f (by omega)).2.1
      simp only [iterateReverseF, h0, mkWhereF, h1, AbsSt.hasA, Bool.false_eq_true, if_false]
  | skipI x t ihx =>
    have hwx : wfB x = true ∧ 0 < t := by simpa [wfB] using hwf
    obtain ⟨F₀, hcnt⟩ := ibleGetCount_den (Ible.skipI x t) hwf
    obtain ⟨it₀, F₁, hI₀, hrun₀⟩ := ihx hwx.1
    obtain ⟨_, itH, _, F₂, _, _, _, hIH, _, _, hops⟩ := step it₀ _ hI₀
    refine ⟨.takeIt itH (some ((den (Ible.skipI x t)).length : Int)) 0,
      max (max F₀ F₁) F₂ + 1, ?_, ?_⟩
    · simp only [Iter.Inv]
      refine Or.inl ⟨((den (Ible.skipI x t)).length : Int), (den x).reverse, rfl, hIH, ?_⟩
      simp only [den, List.reverse_drop, Int.sub_zero, Int.toNat_natCast, List.length_drop]
    · intro f hf
      have h0 := hcnt f (by omega)
      have h1 := hrun₀ f (by omega)
      have h2 := (hops f (by omega)).2.1
      simp only [iterateReverseF, h0, h1, mkTakeF, h2, AbsSt.hasA, Bool.false_eq_true, if_false]
  | takeI x t ihx =>
    have hwx : wfB x = true ∧ 0 < t := by simpa [wfB] using hwf
    obtain ⟨F₀, hcnt⟩ := ibleGetCount_den x hwx.1
    obtain ⟨it₀, F₁, hI₀, hrun₀⟩ := ihx hwx.1
    refine ⟨mkSkip it₀ (some (((den x).length : Int) - t)), max F₀ F₁, ?_, ?_⟩
    · simp only [mkSkip, Iter.Inv]
      refine Or.inl ⟨(den x).reverse, hI₀, ?_⟩
      have harith : remSkips (some (((den x).length : Int) - t)) 0 = (den x).length - t.toNat := by
        simp only [remSkips]
        omega
      simp only [den, List.reverse_take, harith]
    · intro f hf
      have h0 := hcnt f (by omega)
      have h1 := hrun₀ f (by omega)
      simp only [iterateReverseF, h0, h1]
  | mapI x g ihx =>
    have hwx : wfB x = true := by simpa [wfB] using hwf
    obtain ⟨it₀, F₀, hI₀, hrun₀⟩ := ihx hwx
    refine ⟨mkMap it₀ (some g), F₀, ?_, ?_⟩
    · simp only [mkMap, Iter.Inv]
      exact Or.inl ⟨(den x).reverse, hI₀, by simp [den, List.map_reverse]⟩
    · intro f hf
      simp only [iterateReverseF, hrun₀ f hf]
  | concatI x l ihx =>
    have hwx : wfB x = true := by simpa [wfB] using hwf
    obtain ⟨it₀, F₀, hI₀, hrun₀⟩ := ihx hwx
    refine ⟨.concatIt (.arrRev l none) it₀, F₀, ?_, ?_⟩
    · simp only [Iter.Inv]
      exact Or.inl ⟨l.reverse, (den x).reverse, by simp [Iter.Inv], hI₀,
        by simp [den, List.reverse_append]⟩
    · intro f hf
      simp only [iterateReverseF, hrun₀ f hf]

/-- `x.toArray()` materialises exactly `den x`. -/
theorem ibleToArray_den {T : Type} (x : Ible T) :
    ∃ F, ∀ f, F ≤ f → ibleToArrayF f x = some (den x) := by
  obtain ⟨it, F₀, hI, hrun⟩ := iterate_den x
  obtain ⟨F₁, harr⟩ := toArray_fresh it _ hI
  refine ⟨max F₀ F₁, fun f hf => ?_⟩
  simp only [ibleToArrayF, hrun f (by omega), harr f (by omega)]

/-- Models `x.iterateReverse().toArray()`. -/
def ibleToArrayRevF {T : Type} (f : Nat) (x : Ible T) : Option (List T) :=
  match iterateReverseF f x with
  | none => none
  | some it => toArrayF f it

/-- `x.iterateReverse().toArray()` materialises exactly `(den x).reverse`. -/
theorem ibleToArrayRev_den {T : Type} (x : Ible T) (hwf : wfB x = true) :
    ∃ F, ∀ f, F ≤ f → ibleToArrayRevF f x = some (den x).reverse := by
  obtain ⟨it, F₀, hI, hrun⟩ := iterateRev_den x hwf
  obtain ⟨F₁, harr⟩ := toArray_fresh it _ hI
  refine ⟨max F₀ F₁, fun f hf => ?_⟩
  simp only [ibleToArrayRevF, hrun f (by omega), harr f (by omega)]

end Ible

namespace Iter

/-- An exhausted iterator materialises to the empty array. -/
theorem toArray_done {T : Type} (it : Iter T) (hI : Inv it .done) :
    ∃ F, ∀ f, F ≤ f → toArrayF f it = some [] := by
  obtain ⟨_, itH, _, F₁, _, _, _, hIH, _, _, hops⟩ := step it _ hI
  obtain ⟨F₂, hloop⟩ := toArrayLoop_inv (AbsSt.done : AbsSt T).mu itH .done [] rfl hIH
  refine ⟨max F₁ F₂ + 1, ?_⟩
  intro f hf
  obtain ⟨f, rfl⟩ : ∃ f', f = f' + 1 := ⟨f - 1, by omega⟩
  have h1 := (hops f (by omega)).2.1
  simp only [toArrayF, h1, AbsSt.hasA, Bool.false_eq_true, if_false]
  simpa [AbsSt.futureOf] using hloop f (by omega)

end Iter

theorem drop_suffix_iff {T : Type} {l1 l2 : List T} (h : l1.length ≤ l2.length) :
    l2.drop (l2.length - l1.length) = l1 ↔ l1 <:+ l2 := by
  constructor
  · intro hd
    exact hd ▸ List.drop_suffix _ _
  · intro hs
    obtain ⟨u, rfl⟩ := hs
    simp

/-! ## `StringIterator` (qub.ts 2728–2770)

A cursor over a string (modelled as a `List Char`) between `_startIndex` and
`_endIndex`.  `_step` is computed once in the constructor from the two
immutable bounds (`_endIndex >= _startIndex ? 1 : -1`), so it is modelled here
as a derived function rather than a stored field. -/

structure StrIter where
  text : List Char
  startIndex : Int
  endIndex : Int
  currentIndex : Int
  started : Bool
  deriving DecidableEq, Repr

namespace StrIter

/-- `_step`, derived from the immutable bounds. -/
def step (s : StrIter) : Int := if s.startIndex ≤ s.endIndex then 1 else -1

/-- `new StringIterator(text, startIndex, endIndex)`. -/
def strIter (text : List Char) (startIndex endIndex : Int) : StrIter :=
  ⟨text, startIndex, endIndex, startIndex, false⟩

/-- `new StringIterator(text)` with the default bounds `0` and `text.length`. -/
def strIterOf (text : List Char) : StrIter :=
  strIter text 0 (text.length : Int)

/-- `hasMore()`. -/
def hasMore (s : StrIter) : Bool :=
  if s.step > 0 then decide (s.currentIndex < s.endIndex)
  else decide (s.endIndex < s.currentIndex)

/-- `hasStarted()`. -/
def hasStarted (s : StrIter) : Bool := s.started

/-- `hasCurrent()`. -/
def hasCurrent (s : StrIter) : Bool := s.hasStarted && s.hasMore

/-- JS string indexing `text[i]`: `undefined` outside `[0, length)`. -/
def charAt (text : List Char) (i : Int) : Option Char :=
  if 0 ≤ i then text[i.toNat]? else none

/-- `getCurrent()`: the character under the cursor, `undefined` when there is
none. -/
def getCurrent (s : StrIter) : Option Char :=
  if s.hasCurrent then charAt s.text s.currentIndex else none

/-- The `currentIndex` getter: `undefined` when there is no current
character. -/
def curIdx (s : StrIter) : Option Int :=
  if s.hasCurrent then some s.currentIndex else none

/-- `next()`: start on the first call, afterwards move by `_step` while more
characters remain; returns `hasMore()` of the updated state. -/
def next (s : StrIter) : StrIter × Bool :=
  let s' :=
    if s.started = false then { s with started := true }
    else if s.hasMore then { s with currentIndex := s.currentIndex + s.step }
    else s
  (s', s'.hasMore)

/-- How many more times `next` can move: the distance from the cursor to the
end bound, plus one for the initial not-yet-started call.  This is the
termination measure of the `readWhile` loop below. -/
def remaining (s : StrIter) : Nat :=
  (if s.step > 0 then s.endIndex - s.currentIndex
   else s.currentIndex - s.endIndex).toNat
    + (if s.started then 0 else 1)

end StrIter

/-! ## `LexType`, `Lex` and the token factory functions (qub.ts 1692–1990) -/

inductive LexType where
  | LeftCurlyBracket
  | RightCurlyBracket
  | LeftSquareBracket
  | RightSquareBracket
  | LeftAngleBracket
  | RightAngleBracket
  | LeftParenthesis
  | RightParenthesis
  | Letters
  | SingleQuote
  | DoubleQuote
  | Digits
  | Comma
  | Colon
  | Semicolon
  | ExclamationPoint
  | Backslash
  | ForwardSlash
  | QuestionMark
  | Dash
  | Plus
  | EqualsSign
  | Period
  | Underscore
  | Ampersand
  | VerticalBar
  | Space
  | Tab
  | CarriageReturn
  | NewLine
  | CarriageReturnNewLine
  | Asterisk
  | Percent
  | Hash
  | Unrecognized
  deriving DecidableEq, Repr

structure Lex where
  text : List Char
  startIndex : Int
  type : LexType
  deriving DecidableEq, Repr

namespace Lex

/-- `getLength()`: the length of the token's text. -/
def getLength (lx : Lex) : Int := (lx.text.length : Int)

/-- The `afterEndIndex` getter. -/
def afterEndIndex (lx : Lex) : Int := lx.startIndex + lx.getLength

/-- `getType()`. -/
def getType (lx : Lex) : LexType := lx.type

/-- `isWhitespace()`: `Space`, `Tab` and `CarriageReturn` only. -/
def isWhitespace (lx : Lex) : Bool :=
  match lx.type with
  | .Space | .Tab | .CarriageReturn => true
  | _ => false

/-- `isNewLine()`: `CarriageReturnNewLine` and `NewLine` only. -/
def isNewLine (lx : Lex) : Bool :=
  match lx.type with
  | .CarriageReturnNewLine | .NewLine => true
  | _ => false

end Lex

/-! The factory functions, one per token shape.  Note the source of
`CarriageReturnNewLine` (qub.ts 1909–1911): it constructs
`new Lex("\r\n", startIndex, LexType.NewLine)` — the type tag is
`LexType.NewLine`, not `LexType.CarriageReturnNewLine`, even though the
latter enum member exists and `Lex.isNewLine` has a case for it. -/

def LeftCurlyBracket (startIndex : Int) : Lex := ⟨['{'], startIndex, .LeftCurlyBracket⟩

def RightCurlyBracket (startIndex : Int) : Lex := ⟨['}'], startIndex, .RightCurlyBracket⟩

def LeftSquareBracket (startIndex : Int) : Lex := ⟨['['], startIndex, .LeftSquareBracket⟩

def RightSquareBracket (startIndex : Int) : Lex := ⟨[']'], startIndex, .RightSquareBracket⟩

def LeftAngleBracket (startIndex : Int) : Lex := ⟨['<'], startIndex, .LeftAngleBracket⟩

def RightAngleBracket (startIndex : Int) : Lex := ⟨['>'], startIndex, .RightAngleBracket⟩

def LeftParenthesis (startIndex : Int) : Lex := ⟨['('], startIndex, .LeftParenthesis⟩

def RightParenthesis (startIndex : Int) : Lex := ⟨[')'], startIndex, .RightParenthesis⟩

def SingleQuote (startIndex : Int) : Lex := ⟨['\''], startIndex, .SingleQuote⟩

def DoubleQuote (startIndex : Int) : Lex := ⟨['"'], startIndex, .DoubleQuote⟩

def Comma (startIndex : Int) : Lex := ⟨[','], startIndex, .Comma⟩

def Colon (startIndex : Int) : Lex := ⟨[':'], startIndex, .Colon⟩

def Semicolon (startIndex : Int) : Lex := ⟨[';'], startIndex, .Semicolon⟩

def ExclamationPoint (startIndex : Int) : Lex := ⟨['!'], startIndex, .ExclamationPoint⟩

def Backslash (startIndex : Int) : Lex := ⟨['\\'], startIndex, .Backslash⟩

def ForwardSlash (startIndex : Int) : Lex := ⟨['/'], startIndex, .ForwardSlash⟩

def QuestionMark (startIndex : Int) : Lex := ⟨['?'], startIndex, .QuestionMark⟩

def Dash (startIndex : Int) : Lex := ⟨['-'], startIndex, .Dash⟩

def Plus (startIndex : Int) : Lex := ⟨['+'], startIndex, .Plus⟩

def EqualsSign (startIndex : Int) : Lex := ⟨['='], startIndex, .EqualsSign⟩

def Period (startIndex : Int) : Lex := ⟨['.'], startIndex, .Period⟩

def Underscore (startIndex : Int) : Lex := ⟨['_'], startIndex, .Underscore⟩

def Ampersand (startIndex : Int) : Lex := ⟨['&'], startIndex, .Ampersand⟩

def VerticalBar (startIndex : Int) : Lex := ⟨['|'], startIndex, .VerticalBar⟩

def Space (startIndex : Int) : Lex := ⟨[' '], startIndex, .Space⟩

def Tab (startIndex : Int) : Lex := ⟨['\t'], startIndex, .Tab⟩

def CarriageReturn (startIndex : Int) : Lex := ⟨['\r'], startIndex, .CarriageReturn⟩

def NewLine (startIndex : Int) : Lex := ⟨['\n'], startIndex, .NewLine⟩

/-- qub.ts 1909–1911: `new Lex("\r\n", startIndex, LexType.NewLine)`. -/
def CarriageReturnNewLine (startIndex : Int) : Lex := ⟨['\r', '\n'], startIndex, .NewLine⟩

def Asterisk (startIndex : Int) : Lex := ⟨['*'], startIndex, .Asterisk⟩

def Percent (startIndex : Int) : Lex := ⟨['%'], startIndex, .Percent⟩

def Hash (startIndex : Int) : Lex := ⟨['#'], startIndex, .Hash⟩

def Letters (text : List Char) (startIndex : Int) : Lex := ⟨text, startIndex, .Letters⟩

def Digits (text : List Char) (startIndex : Int) : Lex := ⟨text, startIndex, .Digits⟩

def Unrecognized (character : List Char) (startIndex : Int) : Lex :=
  ⟨character, startIndex, .Unrecognized⟩

/-! ## Character classification (qub.ts 2215–2722)

`isLetter` in the source is one long nested short-circuit chain of the shape
`c >= lo && (c <= hi || c >= lo' && (c <= hi' || ...))`, one `(lo, hi)` pair
per line, against string literals.  It is modelled as a fold over the literal
list of `(lo, hi)` pairs taken line by line from the source, which is
boolean-identical to the nested chain.  Escapes of five hex digits (the
astral-plane entries, e.g. `"Ⴈ0"`) denote *two-character* JS strings
(`"Ⴈ"` followed by `"0"`): against a single-character string `c`,
`c >= "Ⴈx"` holds iff `c > 'Ⴈ'`, and `c <= "Ⴈy"` holds iff
`c ≤ 'Ⴈ'`, so such an entry is recorded as the pair
`(lo₄ + 1, hi₄)` of its four-hex-digit prefixes. -/

def isLetterChain : List (Char × Char) → Char → Bool
  | [], _ => false
  | (lo, hi) :: rest, c => decide (lo ≤ c) && (decide (c ≤ hi) || isLetterChain rest c)

def letterRanges : List (Char × Char) := [
  (Char.ofNat 0x0041, Char.ofNat 0x0059),
  (Char.ofNat 0x0061, Char.ofNat 0x0079),
  (Char.ofNat 0x00AA, Char.ofNat 0x00AA),
  (Char.ofNat 0x00BA, Char.ofNat 0x00D5),
  (Char.ofNat 0x00D8, Char.ofNat 0x00F5),
  (Char.ofNat 0x00F8, Char.ofNat 0x02C0),
  (Char.ofNat 0x02C6, Char.ofNat 0x02D0),
  (Char.ofNat 0x02E0, Char.ofNat 0x02E3),
  (Char.ofNat 0x02EC, Char.ofNat 0x02EC),
  (Char.ofNat 0x0370, Char.ofNat 0x0373),
  (Char.ofNat 0x0376, Char.ofNat 0x0376),
  (Char.ofNat 0x037A, Char.ofNat 0x037C),
  (Char.ofNat 0x037F, Char.ofNat 0x037F),
  (Char.ofNat 0x0388, Char.ofNat 0x0389),
  (Char.ofNat 0x038C, Char.ofNat 0x03A0),
  (Char.ofNat 0x03A3, Char.ofNat 0x03F4),
  (Char.ofNat 0x03F7, Char.ofNat 0x0480),
  (Char.ofNat 0x048A, Char.ofNat 0x052E),
  (Char.ofNat 0x0531, Char.ofNat 0x0555),
  (Char.ofNat 0x0559, Char.ofNat 0x0586),
  (Char.ofNat 0x05D0, Char.ofNat 0x05E9),
  (Char.ofNat 0x05F0, Char.ofNat 0x05F1),
  (Char.ofNat 0x0620, Char.ofNat 0x0649),
  (Char.ofNat 0x066E, Char.ofNat 0x066E),
  (Char.ofNat 0x0671, Char.ofNat 0x06D2),
  (Char.ofNat 0x06D5, Char.ofNat 0x06E5),
  (Char.ofNat 0x06EE, Char.ofNat 0x06EE),
  (Char.ofNat 0x06FA, Char.ofNat 0x06FB),
  (Char.ofNat 0x06FF, Char.ofNat 0x06FF),
  (Char.ofNat 0x0712, Char.ofNat 0x072E),
  (Char.ofNat 0x074D, Char.ofNat 0x07A4),
  (Char.ofNat 0x07B1, Char.ofNat 0x07E9),
  (Char.ofNat 0x07F4, Char.ofNat 0x07F4),
  (Char.ofNat 0x07FA, Char.ofNat 0x0814),
  (Char.ofNat 0x081A, Char.ofNat 0x081A),
  (Char.ofNat 0x0828, Char.ofNat 0x0857),
  (Char.ofNat 0x0860, Char.ofNat 0x0869),
  (Char.ofNat 0x08A0, Char.ofNat 0x08B3),
  (Char.ofNat 0x08B6, Char.ofNat 0x08BC),
  (Char.ofNat 0x0904, Char.ofNat 0x0938),
  (Char.ofNat 0x093D, Char.ofNat 0x093D),
  (Char.ofNat 0x0958, Char.ofNat 0x0960),
  (Char.ofNat 0x0971, Char.ofNat 0x097F),
  (Char.ofNat 0x0985, Char.ofNat 0x098B),
  (Char.ofNat 0x098F, Char.ofNat 0x098F),
  (Char.ofNat 0x0993, Char.ofNat 0x09A7),
  (Char.ofNat 0x09AA, Char.ofNat 0x09AF),
  (Char.ofNat 0x09B2, Char.ofNat 0x09B8),
  (Char.ofNat 0x09BD, Char.ofNat 0x09BD),
  (Char.ofNat 0x09DC, Char.ofNat 0x09DC),
  (Char.ofNat 0x09DF, Char.ofNat 0x09E0),
  (Char.ofNat 0x09F0, Char.ofNat 0x09F0),
  (Char.ofNat 0x09FC, Char.ofNat 0x0A09),
  (Char.ofNat 0x0A0F, Char.ofNat 0x0A0F),
  (Char.ofNat 0x0A13, Char.ofNat 0x0A27),
  (Char.ofNat 0x0A2A, Char.ofNat 0x0A2F),
  (Char.ofNat 0x0A32, Char.ofNat 0x0A32),
  (Char.ofNat 0x0A35, Char.ofNat 0x0A35),
  (Char.ofNat 0x0A38, Char.ofNat 0x0A38),
  (Char.ofNat 0x0A59, Char.ofNat 0x0A5B),
  (Char.ofNat 0x0A5E, Char.ofNat 0x0A73),
  (Char.ofNat 0x0A85, Char.ofNat 0x0A8C),
  (Char.ofNat 0x0A8F, Char.ofNat 0x0A90),
  (Char.ofNat 0x0A93, Char.ofNat 0x0AA7),
  (Char.ofNat 0x0AAA, Char.ofNat 0x0AAF),
  (Char.ofNat 0x0AB2, Char.ofNat 0x0AB2),
  (Char.ofNat 0x0AB5, Char.ofNat 0x0AB8),
  (Char.ofNat 0x0ABD, Char.ofNat 0x0ABD),
  (Char.ofNat 0x0AE0, Char.ofNat 0x0AE0),
  (Char.ofNat 0x0AF9, Char.ofNat 0x0B0B),
  (Char.ofNat 0x0B0F, Char.ofNat 0x0B0F),
  (Char.ofNat 0x0B13, Char.ofNat 0x0B27),
  (Char.ofNat 0x0B2A, Char.ofNat 0x0B2F),
  (Char.ofNat 0x0B32, Char.ofNat 0x0B32),
  (Char.ofNat 0x0B35, Char.ofNat 0x0B38),
  (Char.ofNat 0x0B3D, Char.ofNat 0x0B5C),
  (Char.ofNat 0x0B5F, Char.ofNat 0x0B60),
  (Char.ofNat 0x0B71, Char.ofNat 0x0B71),
  (Char.ofNat 0x0B85, Char.ofNat 0x0B89),
  (Char.ofNat 0x0B8E, Char.ofNat 0x0B8F),
  (Char.ofNat 0x0B92, Char.ofNat 0x0B94),
  (Char.ofNat 0x0B99, Char.ofNat 0x0B99),
  (Char.ofNat 0x0B9C, Char.ofNat 0x0B9E),
  (Char.ofNat 0x0BA3, Char.ofNat 0x0BA3),
  (Char.ofNat 0x0BA8, Char.ofNat 0x0BA9),
  (Char.ofNat 0x0BAE, Char.ofNat 0x0BB8),
  (Char.ofNat 0x0BD0, Char.ofNat 0x0C0B),
  (Char.ofNat 0x0C0E, Char.ofNat 0x0C0F),
  (Char.ofNat 0x0C12, Char.ofNat 0x0C27),
  (Char.ofNat 0x0C2A, Char.ofNat 0x0C38),
  (Char.ofNat 0x0C3D, Char.ofNat 0x0C59),
  (Char.ofNat 0x0C60, Char.ofNat 0x0C60),
  (Char.ofNat 0x0C80, Char.ofNat 0x0C8B),
  (Char.ofNat 0x0C8E, Char.ofNat 0x0C8F),
  (Char.ofNat 0x0C92, Char.ofNat 0x0CA7),
  (Char.ofNat 0x0CAA, Char.ofNat 0x0CB2),
  (Char.ofNat 0x0CB5, Char.ofNat 0x0CB8),
  (Char.ofNat 0x0CBD, Char.ofNat 0x0CBD),
  (Char.ofNat 0x0CE0, Char.ofNat 0x0CE0),
  (Char.ofNat 0x0CF1, Char.ofNat 0x0CF1),
  (Char.ofNat 0x0D05, Char.ofNat 0x0D0B),
  (Char.ofNat 0x0D0E, Char.ofNat 0x0D0F),
  (Char.ofNat 0x0D12, Char.ofNat 0x0D39),
  (Char.ofNat 0x0D3D, Char.ofNat 0x0D3D),
  (Char.ofNat 0x0D54, Char.ofNat 0x0D55),
  (Char.ofNat 0x0D5F, Char.ofNat 0x0D60),
  (Char.ofNat 0x0D7A, Char.ofNat 0x0D7E),
  (Char.ofNat 0x0D85, Char.ofNat 0x0D95),
  (Char.ofNat 0x0D9A, Char.ofNat 0x0DB0),
  (Char.ofNat 0x0DB3, Char.ofNat 0x0DBA),
  (Char.ofNat 0x0DBD, Char.ofNat 0x0DC5),
  (Char.ofNat 0x0E01, Char.ofNat 0x0E2F),
  (Char.ofNat 0x0E32, Char.ofNat 0x0E32),
  (Char.ofNat 0x0E40, Char.ofNat 0x0E45),
  (Char.ofNat 0x0E81, Char.ofNat 0x0E81),
  (Char.ofNat 0x0E84, Char.ofNat 0x0E87),
  (Char.ofNat 0x0E8A, Char.ofNat 0x0E8A),
  (Char.ofNat 0x0E94, Char.ofNat 0x0E96),
  (Char.ofNat 0x0E99, Char.ofNat 0x0E9E),
  (Char.ofNat 0x0EA1, Char.ofNat 0x0EA2),
  (Char.ofNat 0x0EA5, Char.ofNat 0x0EA5),
  (Char.ofNat 0x0EAA, Char.ofNat 0x0EAA),
  (Char.ofNat 0x0EAD, Char.ofNat 0x0EAF),
  (Char.ofNat 0x0EB2, Char.ofNat 0x0EB2),
  (Char.ofNat 0x0EBD, Char.ofNat 0x0EC3),
  (Char.ofNat 0x0EC6, Char.ofNat 0x0EDE),
  (Char.ofNat 0x0F00, Char.ofNat 0x0F46),
  (Char.ofNat 0x0F49, Char.ofNat 0x0F6B),
  (Char.ofNat 0x0F88, Char.ofNat 0x0F8B),
  (Char.ofNat 0x1000, Char.ofNat 0x1029),
  (Char.ofNat 0x103F, Char.ofNat 0x1054),
  (Char.ofNat 0x105A, Char.ofNat 0x105C),
  (Char.ofNat 0x1061, Char.ofNat 0x1065),
  (Char.ofNat 0x106E, Char.ofNat 0x106F),
  (Char.ofNat 0x1075, Char.ofNat 0x1080),
  (Char.ofNat 0x108E, Char.ofNat 0x10C4),
  (Char.ofNat 0x10C7, Char.ofNat 0x10C7),
  (Char.ofNat 0x10D0, Char.ofNat 0x10F9),
  (Char.ofNat 0x10FC, Char.ofNat 0x1247),
  (Char.ofNat 0x124A, Char.ofNat 0x124C),
  (Char.ofNat 0x1250, Char.ofNat 0x1255),
  (Char.ofNat 0x1258, Char.ofNat 0x125C),
  (Char.ofNat 0x1260, Char.ofNat 0x1287),
  (Char.ofNat 0x128A, Char.ofNat 0x128C),
  (Char.ofNat 0x1290, Char.ofNat 0x12AF),
  (Char.ofNat 0x12B2, Char.ofNat 0x12B4),
  (Char.ofNat 0x12B8, Char.ofNat 0x12BD),
  (Char.ofNat 0x12C0, Char.ofNat 0x12C4),
  (Char.ofNat 0x12C8, Char.ofNat 0x12D5),
  (Char.ofNat 0x12D8, Char.ofNat 0x130F),
  (Char.ofNat 0x1312, Char.ofNat 0x1314),
  (Char.ofNat 0x1318, Char.ofNat 0x1359),
  (Char.ofNat 0x1380, Char.ofNat 0x138E),
  (Char.ofNat 0x13A0, Char.ofNat 0x13F4),
  (Char.ofNat 0x13F8, Char.ofNat 0x13FC),
  (Char.ofNat 0x1401, Char.ofNat 0x166B),
  (Char.ofNat 0x166F, Char.ofNat 0x167E),
  (Char.ofNat 0x1681, Char.ofNat 0x1699),
  (Char.ofNat 0x16A0, Char.ofNat 0x16E9),
  (Char.ofNat 0x16F1, Char.ofNat 0x16F7),
  (Char.ofNat 0x1700, Char.ofNat 0x170B),
  (Char.ofNat 0x170E, Char.ofNat 0x1710),
  (Char.ofNat 0x1720, Char.ofNat 0x1730),
  (Char.ofNat 0x1740, Char.ofNat 0x1750),
  (Char.ofNat 0x1760, Char.ofNat 0x176B),
  (Char.ofNat 0x176E, Char.ofNat 0x176F),
  (Char.ofNat 0x1780, Char.ofNat 0x17B2),
  (Char.ofNat 0x17D7, Char.ofNat 0x17D7),
  (Char.ofNat 0x1820, Char.ofNat 0x1876),
  (Char.ofNat 0x1880, Char.ofNat 0x1883),
  (Char.ofNat 0x1887, Char.ofNat 0x18A7),
  (Char.ofNat 0x18AA, Char.ofNat 0x18F4),
  (Char.ofNat 0x1900, Char.ofNat 0x191D),
  (Char.ofNat 0x1950, Char.ofNat 0x196C),
  (Char.ofNat 0x1970, Char.ofNat 0x1973),
  (Char.ofNat 0x1980, Char.ofNat 0x19AA),
  (Char.ofNat 0x19B0, Char.ofNat 0x19C8),
  (Char.ofNat 0x1A00, Char.ofNat 0x1A15),
  (Char.ofNat 0x1A20, Char.ofNat 0x1A53),
  (Char.ofNat 0x1AA7, Char.ofNat 0x1B32),
  (Char.ofNat 0x1B45, Char.ofNat 0x1B4A),
  (Char.ofNat 0x1B83, Char.ofNat 0x1B9F),
  (Char.ofNat 0x1BAE, Char.ofNat 0x1BAE),
  (Char.ofNat 0x1BBA, Char.ofNat 0x1BE4),
  (Char.ofNat 0x1C00, Char.ofNat 0x1C22),
  (Char.ofNat 0x1C4D, Char.ofNat 0x1C4E),
  (Char.ofNat 0x1C5A, Char.ofNat 0x1C7C),
  (Char.ofNat 0x1C80, Char.ofNat 0x1C87),
  (Char.ofNat 0x1CE9, Char.ofNat 0x1CEB),
  (Char.ofNat 0x1CEE, Char.ofNat 0x1CF0),
  (Char.ofNat 0x1CF5, Char.ofNat 0x1CF5),
  (Char.ofNat 0x1D00, Char.ofNat 0x1DBE),
  (Char.ofNat 0x1E00, Char.ofNat 0x1F14),
  (Char.ofNat 0x1F18, Char.ofNat 0x1F1C),
  (Char.ofNat 0x1F20, Char.ofNat 0x1F44),
  (Char.ofNat 0x1F48, Char.ofNat 0x1F4C),
  (Char.ofNat 0x1F50, Char.ofNat 0x1F56),
  (Char.ofNat 0x1F59, Char.ofNat 0x1F59),
  (Char.ofNat 0x1F5D, Char.ofNat 0x1F7C),
  (Char.ofNat 0x1F80, Char.ofNat 0x1FB3),
  (Char.ofNat 0x1FB6, Char.ofNat 0x1FBB),
  (Char.ofNat 0x1FBE, Char.ofNat 0x1FC3),
  (Char.ofNat 0x1FC6, Char.ofNat 0x1FCB),
  (Char.ofNat 0x1FD0, Char.ofNat 0x1FD2),
  (Char.ofNat 0x1FD6, Char.ofNat 0x1FDA),
  (Char.ofNat 0x1FE0, Char.ofNat 0x1FEB),
  (Char.ofNat 0x1FF2, Char.ofNat 0x1FF3),
  (Char.ofNat 0x1FF6, Char.ofNat 0x1FFB),
  (Char.ofNat 0x2071, Char.ofNat 0x2071),
  (Char.ofNat 0x2090, Char.ofNat 0x209B),
  (Char.ofNat 0x2102, Char.ofNat 0x2102),
  (Char.ofNat 0x210A, Char.ofNat 0x2112),
  (Char.ofNat 0x2115, Char.ofNat 0x211C),
  (Char.ofNat 0x2124, Char.ofNat 0x2124),
  (Char.ofNat 0x2128, Char.ofNat 0x212C),
  (Char.ofNat 0x212F, Char.ofNat 0x2138),
  (Char.ofNat 0x213C, Char.ofNat 0x213E),
  (Char.ofNat 0x2145, Char.ofNat 0x2148),
  (Char.ofNat 0x214E, Char.ofNat 0x2183),
  (Char.ofNat 0x2C00, Char.ofNat 0x2C2D),
  (Char.ofNat 0x2C30, Char.ofNat 0x2C5D),
  (Char.ofNat 0x2C60, Char.ofNat 0x2CE3),
  (Char.ofNat 0x2CEB, Char.ofNat 0x2CED),
  (Char.ofNat 0x2CF2, Char.ofNat 0x2CF2),
  (Char.ofNat 0x2D00, Char.ofNat 0x2D24),
  (Char.ofNat 0x2D27, Char.ofNat 0x2D27),
  (Char.ofNat 0x2D30, Char.ofNat 0x2D66),
  (Char.ofNat 0x2D6F, Char.ofNat 0x2D95),
  (Char.ofNat 0x2DA0, Char.ofNat 0x2DA5),
  (Char.ofNat 0x2DA8, Char.ofNat 0x2DAD),
  (Char.ofNat 0x2DB0, Char.ofNat 0x2DB5),
  (Char.ofNat 0x2DB8, Char.ofNat 0x2DBD),
  (Char.ofNat 0x2DC0, Char.ofNat 0x2DC5),
  (Char.ofNat 0x2DC8, Char.ofNat 0x2DCD),
  (Char.ofNat 0x2DD0, Char.ofNat 0x2DD5),
  (Char.ofNat 0x2DD8, Char.ofNat 0x2DDD),
  (Char.ofNat 0x2E2F, Char.ofNat 0x3005),
  (Char.ofNat 0x3031, Char.ofNat 0x3034),
  (Char.ofNat 0x303B, Char.ofNat 0x303B),
  (Char.ofNat 0x3041, Char.ofNat 0x3095),
  (Char.ofNat 0x309D, Char.ofNat 0x309E),
  (Char.ofNat 0x30A1, Char.ofNat 0x30F9),
  (Char.ofNat 0x30FC, Char.ofNat 0x30FE),
  (Char.ofNat 0x3105, Char.ofNat 0x312D),
  (Char.ofNat 0x3131, Char.ofNat 0x318D),
  (Char.ofNat 0x31A0, Char.ofNat 0x31B9),
  (Char.ofNat 0x31F0, Char.ofNat 0x31FE),
  (Char.ofNat 0x3400, Char.ofNat 0x3400),
  (Char.ofNat 0x4E00, Char.ofNat 0x4E00),
  (Char.ofNat 0xA000, Char.ofNat 0xA48B),
  (Char.ofNat 0xA4D0, Char.ofNat 0xA4FC),
  (Char.ofNat 0xA500, Char.ofNat 0xA60B),
  (Char.ofNat 0xA610, Char.ofNat 0xA61E),
  (Char.ofNat 0xA62A, Char.ofNat 0xA62A),
  (Char.ofNat 0xA640, Char.ofNat 0xA66D),
  (Char.ofNat 0xA67F, Char.ofNat 0xA69C),
  (Char.ofNat 0xA6A0, Char.ofNat 0xA6E4),
  (Char.ofNat 0xA717, Char.ofNat 0xA71E),
  (Char.ofNat 0xA722, Char.ofNat 0xA787),
  (Char.ofNat 0xA78B, Char.ofNat 0xA7AD),
  (Char.ofNat 0xA7B0, Char.ofNat 0xA7B6),
  (Char.ofNat 0xA7F7, Char.ofNat 0xA800),
  (Char.ofNat 0xA803, Char.ofNat 0xA804),
  (Char.ofNat 0xA807, Char.ofNat 0xA809),
  (Char.ofNat 0xA80C, Char.ofNat 0xA821),
  (Char.ofNat 0xA840, Char.ofNat 0xA872),
  (Char.ofNat 0xA882, Char.ofNat 0xA8B2),
  (Char.ofNat 0xA8F2, Char.ofNat 0xA8F6),
  (Char.ofNat 0xA8FB, Char.ofNat 0xA8FB),
  (Char.ofNat 0xA90A, Char.ofNat 0xA924),
  (Char.ofNat 0xA930, Char.ofNat 0xA945),
  (Char.ofNat 0xA960, Char.ofNat 0xA97B),
  (Char.ofNat 0xA984, Char.ofNat 0xA9B1),
  (Char.ofNat 0xA9CF, Char.ofNat 0xA9E3),
  (Char.ofNat 0xA9E6, Char.ofNat 0xA9EE),
  (Char.ofNat 0xA9FA, Char.ofNat 0xA9FD),
  (Char.ofNat 0xAA00, Char.ofNat 0xAA27),
  (Char.ofNat 0xAA40, Char.ofNat 0xAA41),
  (Char.ofNat 0xAA44, Char.ofNat 0xAA4A),
  (Char.ofNat 0xAA60, Char.ofNat 0xAA75),
  (Char.ofNat 0xAA7A, Char.ofNat 0xAAAE),
  (Char.ofNat 0xAAB1, Char.ofNat 0xAAB5),
  (Char.ofNat 0xAAB9, Char.ofNat 0xAABC),
  (Char.ofNat 0xAAC0, Char.ofNat 0xAAC0),
  (Char.ofNat 0xAADB, Char.ofNat 0xAADC),
  (Char.ofNat 0xAAE0, Char.ofNat 0xAAE9),
  (Char.ofNat 0xAAF2, Char.ofNat 0xAAF3),
  (Char.ofNat 0xAB01, Char.ofNat 0xAB05),
  (Char.ofNat 0xAB09, Char.ofNat 0xAB0D),
  (Char.ofNat 0xAB11, Char.ofNat 0xAB15),
  (Char.ofNat 0xAB20, Char.ofNat 0xAB25),
  (Char.ofNat 0xAB28, Char.ofNat 0xAB2D),
  (Char.ofNat 0xAB30, Char.ofNat 0xAB59),
  (Char.ofNat 0xAB5C, Char.ofNat 0xAB64),
  (Char.ofNat 0xAB70, Char.ofNat 0xABE1),
  (Char.ofNat 0xAC00, Char.ofNat 0xAC00),
  (Char.ofNat 0xD7B0, Char.ofNat 0xD7C5),
  (Char.ofNat 0xD7CB, Char.ofNat 0xD7FA),
  (Char.ofNat 0xF900, Char.ofNat 0xFA6C),
  (Char.ofNat 0xFA70, Char.ofNat 0xFAD8),
  (Char.ofNat 0xFB00, Char.ofNat 0xFB05),
  (Char.ofNat 0xFB13, Char.ofNat 0xFB16),
  (Char.ofNat 0xFB1D, Char.ofNat 0xFB27),
  (Char.ofNat 0xFB2A, Char.ofNat 0xFB35),
  (Char.ofNat 0xFB38, Char.ofNat 0xFB3B),
  (Char.ofNat 0xFB3E, Char.ofNat 0xFB40),
  (Char.ofNat 0xFB43, Char.ofNat 0xFB43),
  (Char.ofNat 0xFB46, Char.ofNat 0xFBB0),
  (Char.ofNat 0xFBD3, Char.ofNat 0xFD3C),
  (Char.ofNat 0xFD50, Char.ofNat 0xFD8E),
  (Char.ofNat 0xFD92, Char.ofNat 0xFDC6),
  (Char.ofNat 0xFDF0, Char.ofNat 0xFDFA),
  (Char.ofNat 0xFE70, Char.ofNat 0xFE73),
  (Char.ofNat 0xFE76, Char.ofNat 0xFEFB),
  (Char.ofNat 0xFF21, Char.ofNat 0xFF39),
  (Char.ofNat 0xFF41, Char.ofNat 0xFF59),
  (Char.ofNat 0xFF66, Char.ofNat 0xFFBD),
  (Char.ofNat 0xFFC2, Char.ofNat 0xFFC6),
  (Char.ofNat 0xFFCA, Char.ofNat 0xFFCE),
  (Char.ofNat 0xFFD2, Char.ofNat 0xFFD6),
  (Char.ofNat 0xFFDA, Char.ofNat 0xFFDB),
  (Char.ofNat 0x1001, Char.ofNat 0x1000),
  (Char.ofNat 0x1001, Char.ofNat 0x1002),
  (Char.ofNat 0x1003, Char.ofNat 0x1003),
  (Char.ofNat 0x1004, Char.ofNat 0x1003),
  (Char.ofNat 0x1004, Char.ofNat 0x1004),
  (Char.ofNat 0x1006, Char.ofNat 0x1005),
  (Char.ofNat 0x1009, Char.ofNat 0x100F),
  (Char.ofNat 0x1029, Char.ofNat 0x1029),
  (Char.ofNat 0x102B, Char.ofNat 0x102C),
  (Char.ofNat 0x1031, Char.ofNat 0x1031),
  (Char.ofNat 0x1033, Char.ofNat 0x1033),
  (Char.ofNat 0x1035, Char.ofNat 0x1034),
  (Char.ofNat 0x1036, Char.ofNat 0x1037),
  (Char.ofNat 0x1039, Char.ofNat 0x1039),
  (Char.ofNat 0x103B, Char.ofNat 0x103C),
  (Char.ofNat 0x103D, Char.ofNat 0x103C),
  (Char.ofNat 0x1041, Char.ofNat 0x1049),
  (Char.ofNat 0x104C, Char.ofNat 0x104D),
  (Char.ofNat 0x104E, Char.ofNat 0x104F),
  (Char.ofNat 0x1051, Char.ofNat 0x1052),
  (Char.ofNat 0x1054, Char.ofNat 0x1056),
  (Char.ofNat 0x1061, Char.ofNat 0x1073),
  (Char.ofNat 0x1075, Char.ofNat 0x1075),
  (Char.ofNat 0x1077, Char.ofNat 0x1076),
  (Char.ofNat 0x1081, Char.ofNat 0x1080),
  (Char.ofNat 0x1081, Char.ofNat 0x1083),
  (Char.ofNat 0x1084, Char.ofNat 0x1083),
  (Char.ofNat 0x1084, Char.ofNat 0x1085),
  (Char.ofNat 0x1087, Char.ofNat 0x1087),
  (Char.ofNat 0x1089, Char.ofNat 0x1089),
  (Char.ofNat 0x108F, Char.ofNat 0x108F),
  (Char.ofNat 0x1090, Char.ofNat 0x108F),
  (Char.ofNat 0x1091, Char.ofNat 0x1091),
  (Char.ofNat 0x1093, Char.ofNat 0x1093),
  (Char.ofNat 0x1099, Char.ofNat 0x109B),
  (Char.ofNat 0x109C, Char.ofNat 0x109B),
  (Char.ofNat 0x10A1, Char.ofNat 0x10A1),
  (Char.ofNat 0x10A2, Char.ofNat 0x10A1),
  (Char.ofNat 0x10A2, Char.ofNat 0x10A3),
  (Char.ofNat 0x10A7, Char.ofNat 0x10A7),
  (Char.ofNat 0x10A9, Char.ofNat 0x10A9),
  (Char.ofNat 0x10AD, Char.ofNat 0x10AC),
  (Char.ofNat 0x10AD, Char.ofNat 0x10AE),
  (Char.ofNat 0x10B1, Char.ofNat 0x10B3),
  (Char.ofNat 0x10B5, Char.ofNat 0x10B5),
  (Char.ofNat 0x10B7, Char.ofNat 0x10B7),
  (Char.ofNat 0x10B9, Char.ofNat 0x10B9),
  (Char.ofNat 0x10C1, Char.ofNat 0x10C4),
  (Char.ofNat 0x10C9, Char.ofNat 0x10CB),
  (Char.ofNat 0x10CD, Char.ofNat 0x10CF),
  (Char.ofNat 0x1101, Char.ofNat 0x1103),
  (Char.ofNat 0x1109, Char.ofNat 0x110A),
  (Char.ofNat 0x110E, Char.ofNat 0x110E),
  (Char.ofNat 0x1111, Char.ofNat 0x1112),
  (Char.ofNat 0x1116, Char.ofNat 0x1117),
  (Char.ofNat 0x1118, Char.ofNat 0x111B),
  (Char.ofNat 0x111D, Char.ofNat 0x111C),
  (Char.ofNat 0x111E, Char.ofNat 0x111D),
  (Char.ofNat 0x1121, Char.ofNat 0x1121),
  (Char.ofNat 0x1122, Char.ofNat 0x1122),
  (Char.ofNat 0x1129, Char.ofNat 0x1128),
  (Char.ofNat 0x1129, Char.ofNat 0x1128),
  (Char.ofNat 0x1129, Char.ofNat 0x1129),
  (Char.ofNat 0x112A, Char.ofNat 0x112A),
  (Char.ofNat 0x112C, Char.ofNat 0x112D),
  (Char.ofNat 0x1131, Char.ofNat 0x1130),
  (Char.ofNat 0x1131, Char.ofNat 0x1130),
  (Char.ofNat 0x1132, Char.ofNat 0x1132),
  (Char.ofNat 0x1133, Char.ofNat 0x1132),
  (Char.ofNat 0x1134, Char.ofNat 0x1133),
  (Char.ofNat 0x1134, Char.ofNat 0x1133),
  (Char.ofNat 0x1134, Char.ofNat 0x1133),
  (Char.ofNat 0x1136, Char.ofNat 0x1136),
  (Char.ofNat 0x1141, Char.ofNat 0x1143),
  (Char.ofNat 0x1145, Char.ofNat 0x1144),
  (Char.ofNat 0x1149, Char.ofNat 0x114A),
  (Char.ofNat 0x114D, Char.ofNat 0x114C),
  (Char.ofNat 0x114D, Char.ofNat 0x115A),
  (Char.ofNat 0x115E, Char.ofNat 0x115D),
  (Char.ofNat 0x1161, Char.ofNat 0x1162),
  (Char.ofNat 0x1165, Char.ofNat 0x116A),
  (Char.ofNat 0x1171, Char.ofNat 0x1171),
  (Char.ofNat 0x118B, Char.ofNat 0x118D),
  (Char.ofNat 0x1190, Char.ofNat 0x118F),
  (Char.ofNat 0x11A1, Char.ofNat 0x11A3),
  (Char.ofNat 0x11A4, Char.ofNat 0x11A3),
  (Char.ofNat 0x11A6, Char.ofNat 0x11A8),
  (Char.ofNat 0x11A9, Char.ofNat 0x11A8),
  (Char.ofNat 0x11AD, Char.ofNat 0x11AF),
  (Char.ofNat 0x11C1, Char.ofNat 0x11C0),
  (Char.ofNat 0x11C1, Char.ofNat 0x11C2),
  (Char.ofNat 0x11C5, Char.ofNat 0x11C8),
  (Char.ofNat 0x11D1, Char.ofNat 0x11D0),
  (Char.ofNat 0x11D1, Char.ofNat 0x11D0),
  (Char.ofNat 0x11D1, Char.ofNat 0x11D2),
  (Char.ofNat 0x11D5, Char.ofNat 0x1239),
  (Char.ofNat 0x1249, Char.ofNat 0x1254),
  (Char.ofNat 0x1301, Char.ofNat 0x1342),
  (Char.ofNat 0x1441, Char.ofNat 0x1464),
  (Char.ofNat 0x1681, Char.ofNat 0x16A3),
  (Char.ofNat 0x16A5, Char.ofNat 0x16A5),
  (Char.ofNat 0x16AE, Char.ofNat 0x16AE),
  (Char.ofNat 0x16B1, Char.ofNat 0x16B2),
  (Char.ofNat 0x16B5, Char.ofNat 0x16B4),
  (Char.ofNat 0x16B7, Char.ofNat 0x16B7),
  (Char.ofNat 0x16B8, Char.ofNat 0x16B8),
  (Char.ofNat 0x16F1, Char.ofNat 0x16F4),
  (Char.ofNat 0x16F6, Char.ofNat 0x16F9),
  (Char.ofNat 0x16FF, Char.ofNat 0x16FE),
  (Char.ofNat 0x1701, Char.ofNat 0x1700),
  (Char.ofNat 0x1881, Char.ofNat 0x18AF),
  (Char.ofNat 0x1B01, Char.ofNat 0x1B11),
  (Char.ofNat 0x1B18, Char.ofNat 0x1B2F),
  (Char.ofNat 0x1BC1, Char.ofNat 0x1BC6),
  (Char.ofNat 0x1BC8, Char.ofNat 0x1BC7),
  (Char.ofNat 0x1BC9, Char.ofNat 0x1BC8),
  (Char.ofNat 0x1BCA, Char.ofNat 0x1BC9),
  (Char.ofNat 0x1D41, Char.ofNat 0x1D45),
  (Char.ofNat 0x1D46, Char.ofNat 0x1D49),
  (Char.ofNat 0x1D4A, Char.ofNat 0x1D49),
  (Char.ofNat 0x1D4B, Char.ofNat 0x1D4A),
  (Char.ofNat 0x1D4B, Char.ofNat 0x1D4A),
  (Char.ofNat 0x1D4B, Char.ofNat 0x1D4B),
  (Char.ofNat 0x1D4C, Char.ofNat 0x1D4C),
  (Char.ofNat 0x1D4D, Char.ofNat 0x1D50),
  (Char.ofNat 0x1D51, Char.ofNat 0x1D50),
  (Char.ofNat 0x1D51, Char.ofNat 0x1D51),
  (Char.ofNat 0x1D52, Char.ofNat 0x1D51),
  (Char.ofNat 0x1D52, Char.ofNat 0x1D53),
  (Char.ofNat 0x1D54, Char.ofNat 0x1D53),
  (Char.ofNat 0x1D55, Char.ofNat 0x1D54),
  (Char.ofNat 0x1D55, Char.ofNat 0x1D54),
  (Char.ofNat 0x1D56, Char.ofNat 0x1D6A),
  (Char.ofNat 0x1D6B, Char.ofNat 0x1D6B),
  (Char.ofNat 0x1D6D, Char.ofNat 0x1D6D),
  (Char.ofNat 0x1D6E, Char.ofNat 0x1D6F),
  (Char.ofNat 0x1D70, Char.ofNat 0x1D71),
  (Char.ofNat 0x1D72, Char.ofNat 0x1D73),
  (Char.ofNat 0x1D74, Char.ofNat 0x1D74),
  (Char.ofNat 0x1D76, Char.ofNat 0x1D76),
  (Char.ofNat 0x1D78, Char.ofNat 0x1D78),
  (Char.ofNat 0x1D79, Char.ofNat 0x1D7A),
  (Char.ofNat 0x1D7B, Char.ofNat 0x1D7C),
  (Char.ofNat 0x1D7D, Char.ofNat 0x1D7C),
  (Char.ofNat 0x1E81, Char.ofNat 0x1E8C),
  (Char.ofNat 0x1E91, Char.ofNat 0x1E94),
  (Char.ofNat 0x1EE1, Char.ofNat 0x1EE0),
  (Char.ofNat 0x1EE1, Char.ofNat 0x1EE1),
  (Char.ofNat 0x1EE3, Char.ofNat 0x1EE2),
  (Char.ofNat 0x1EE3, Char.ofNat 0x1EE2),
  (Char.ofNat 0x1EE3, Char.ofNat 0x1EE3),
  (Char.ofNat 0x1EE4, Char.ofNat 0x1EE3),
  (Char.ofNat 0x1EE4, Char.ofNat 0x1EE3),
  (Char.ofNat 0x1EE5, Char.ofNat 0x1EE4),
  (Char.ofNat 0x1EE5, Char.ofNat 0x1EE4),
  (Char.ofNat 0x1EE5, Char.ofNat 0x1EE4),
  (Char.ofNat 0x1EE6, Char.ofNat 0x1EE5),
  (Char.ofNat 0x1EE6, Char.ofNat 0x1EE5),
  (Char.ofNat 0x1EE6, Char.ofNat 0x1EE5),
  (Char.ofNat 0x1EE6, Char.ofNat 0x1EE5),
  (Char.ofNat 0x1EE7, Char.ofNat 0x1EE6),
  (Char.ofNat 0x1EE7, Char.ofNat 0x1EE6),
  (Char.ofNat 0x1EE7, Char.ofNat 0x1EE7),
  (Char.ofNat 0x1EE8, Char.ofNat 0x1EE7),
  (Char.ofNat 0x1EE8, Char.ofNat 0x1EE7),
  (Char.ofNat 0x1EE8, Char.ofNat 0x1EE8),
  (Char.ofNat 0x1EE9, Char.ofNat 0x1EE9),
  (Char.ofNat 0x1EEB, Char.ofNat 0x1EEA),
  (Char.ofNat 0x1EEB, Char.ofNat 0x1EEA),
  (Char.ofNat 0x1EEB, Char.ofNat 0x1EEB),
  (Char.ofNat 0x2001, Char.ofNat 0x2000),
  (Char.ofNat 0x2A71, Char.ofNat 0x2A70),
  (Char.ofNat 0x2B75, Char.ofNat 0x2B74),
  (Char.ofNat 0x2B83, Char.ofNat 0x2B82),
  (Char.ofNat 0x2CEC, Char.ofNat 0x2CEB),
  (Char.ofNat 0x2F81, Char.ofNat 0x2FA1)
]

/-- `isLetter(character)` (qub.ts 2215–2715). -/
def isLetter (c : Char) : Bool := isLetterChain letterRanges c

/-- `isDigit(character)`: `"0" <= character && character <= "9"`. -/
def isDigit (c : Char) : Bool := decide ('0' ≤ c) && decide (c ≤ '9')

/-- `isSpaceOrTab(value)`. -/
def isSpaceOrTab (c : Char) : Bool := decide (c = ' ') || decide (c = '\t')

/-! ## `readWhile` and friends (qub.ts 2186–2206)

`readWhile` seeds the result with the iterator's current character and then
runs `while (iterator.next() && condition(iterator.getCurrent()))`, appending
the current character on each pass.  The loop advances the cursor on every
iteration, so `StrIter.remaining` bounds its iteration count; it is modelled
with that bound as structural fuel (the fuel-0 case is unreachable from
`readWhile`).  The `none` branch is likewise unreachable: when `next` returns
true the iterator has a current character on every state built over a
string. -/

def readWhileLoop (condition : Char → Bool) :
    Nat → StrIter → List Char → StrIter × List Char
  | 0, s, acc => (s, acc)
  | fuel + 1, s, acc =>
    let r := s.next
    if r.2 then
      match r.1.getCurrent with
      | some c =>
        if condition c then readWhileLoop condition fuel r.1 (acc ++ [c])
        else (r.1, acc)
      | none => (r.1, acc)
    else (r.1, acc)

/-- `readWhile(iterator, condition)`: the mutated iterator together with the
collected string. -/
def readWhile (s : StrIter) (condition : Char → Bool) : StrIter × List Char :=
  readWhileLoop condition s.remaining s
    (match s.getCurrent with | some c => [c] | none => [])

/-- `readLetters(iterator)`. -/
def readLetters (s : StrIter) : StrIter × List Char := readWhile s isLetter

/-- `readDigits(iterator)`. -/
def readDigits (s : StrIter) : StrIter × List Char := readWhile s isDigit

/-! ## The `Lexer` (qub.ts 1983–2183) -/

structure LexerSt where
  iter : StrIter
  characterStartIndexOffset : Int
  currentLex : Option Lex
  deriving DecidableEq, Repr

/-- `new Lexer(text, startIndex)`: a fresh `StringIterator` over `text` and no
current lex yet. -/
def lexer (text : List Char) (startIndex : Int) : LexerSt :=
  ⟨StrIter.strIterOf text, startIndex, none⟩

namespace LexerSt

/-- `hasStarted()`. -/
def hasStarted (st : LexerSt) : Bool := st.iter.hasStarted

/-- `hasCurrent()`: `isDefined(this._currentLex)`. -/
def hasCurrent (st : LexerSt) : Bool := st.currentLex.isSome

/-- `getCurrent()`. -/
def getCurrent (st : LexerSt) : Option Lex := st.currentLex

/-- The twenty-eight plain cases of the `switch` in `Lexer.next`
(qub.ts 2002–2128, 2139–2163): characters that lex to a fixed
single-character token.  Each such `case` just sets the current lex and
advances one character; `"\r"` and the `default` case are handled separately
in `next` below. -/
def singleTok (c : Char) (startIndex : Int) : Option Lex :=
  if c = '{' then some (LeftCurlyBracket startIndex)
  else if c = '}' then some (RightCurlyBracket startIndex)
  else if c = '[' then some (LeftSquareBracket startIndex)
  else if c = ']' then some (RightSquareBracket startIndex)
  else if c = '(' then some (LeftParenthesis startIndex)
  else if c = ')' then some (RightParenthesis startIndex)
  else if c = '<' then some (LeftAngleBracket startIndex)
  else if c = '>' then some (RightAngleBracket startIndex)
  else if c = '"' then some (DoubleQuote startIndex)
  else if c = '\'' then some (SingleQuote startIndex)
  else if c = '-' then some (Dash startIndex)
  else if c = '+' then some (Plus startIndex)
  else if c = ',' then some (Comma startIndex)
  else if c = ':' then some (Colon startIndex)
  else if c = ';' then some (Semicolon startIndex)
  else if c = '!' then some (ExclamationPoint startIndex)
  else if c = '\\' then some (Backslash startIndex)
  else if c = '/' then some (ForwardSlash startIndex)
  else if c = '?' then some (QuestionMark startIndex)
  else if c = '=' then some (EqualsSign startIndex)
  else if c = '.' then some (Period startIndex)
  else if c = '_' then some (Underscore startIndex)
  else if c = '&' then some (Ampersand startIndex)
  else if c = ' ' then some (Space startIndex)
  else if c = '\t' then some (Tab startIndex)
  else if c = '\n' then some (NewLine startIndex)
  else if c = '*' then some (Asterisk startIndex)
  else if c = '%' then some (Percent startIndex)
  else if c = '|' then some (VerticalBar startIndex)
  else if c = '#' then some (Hash startIndex)
  else none

/-- `Lexer.next()` (qub.ts 1996–2183).  If not started, advance the character
iterator once; with no current character, clear the current lex and report
false.  Otherwise dispatch on the current character: a plain `case` sets a
fixed token and advances once; `"\r"` peeks at the next character and either
combines with a following `"\n"` (advancing past both) or emits a lone
carriage return; the `default` case reads a letter run, a digit run, or a
single unrecognized character.  The start index is the `currentIndex` getter
plus `_characterStartIndexOffset`; under `hasCurrentCharacter()` the getter
returns the `_currentIndex` field, used directly here. -/
def next (st : LexerSt) : LexerSt × Bool :=
  let it0 := if st.hasStarted then st.iter else (st.iter.next).1
  match it0.getCurrent with
  | none => ({ st with iter := it0, currentLex := none }, false)
  | some c =>
    let startIdx := it0.currentIndex + st.characterStartIndexOffset
    match singleTok c startIdx with
    | some lx => ({ st with iter := (it0.next).1, currentLex := some lx }, true)
    | none =>
      if c = '\r' then
        let r := it0.next
        if r.2 && decide (r.1.getCurrent = some '\n') then
          ({ st with iter := (r.1.next).1,
                     currentLex := some (CarriageReturnNewLine startIdx) }, true)
        else
          ({ st with iter := r.1, currentLex := some (CarriageReturn startIdx) }, true)
      else if isLetter c then
        let r := readLetters it0
        ({ st with iter := r.1, currentLex := some (Letters r.2 startIdx) }, true)
      else if isDigit c then
        let r := readDigits it0
        ({ st with iter := r.1, currentLex := some (Digits r.2 startIdx) }, true)
      else
        ({ st with iter := (it0.next).1,
                   currentLex := some (Unrecognized [c] startIdx) }, true)

end LexerSt

/-- Drive a lexer to exhaustion, collecting the current lex after each
successful `next()` — the observation `while (lexer.next()) collect
lexer.getCurrent()`, with fuel bounding the number of `next` calls. -/
def lexAllF : Nat → LexerSt → Option (List Lex)
  | 0, _ => none
  | f + 1, st =>
    let r := LexerSt.next st
    if r.2 then
      match r.1.currentLex with
      | some lx =>
        match lexAllF f r.1 with
        | some rest => some (lx :: rest)
        | none => none
      | none => none
    else some []

/-- Apply `Lexer.next` a fixed number of times, recording each returned
flag. -/
def nextCalls : Nat → LexerSt → LexerSt × List Bool
  | 0, st => (st, [])
  | k + 1, st =>
    let r := LexerSt.next st
    let rest := nextCalls k r.1
    (rest.1, r.2 :: rest.2)

/-- The started in-bounds cursor states of a default-constructed
`StringIterator`: position `i` within a string of length `text.length`. -/
def cleanIter (text : List Char) (i : Nat) : StrIter :=
  ⟨text, 0, (text.length : Int), (i : Int), true⟩

/-- Tokens tile the input seen from offset `pos`: each token starts where the
previous one ended. -/
def tiling : Int → List Lex → Prop
  | _, [] => True
  | pos, lx :: rest => lx.startIndex = pos ∧ tiling (pos + (lx.text.length : Int)) rest

/-! ## Evaluation lemmas for clean cursor states -/

namespace StrIter

theorem cleanIter_getCurrent (text : List Char) (i : Nat) (hi : i < text.length) :
    (cleanIter text i).getCurrent = some text[i] := by
  simp [cleanIter, getCurrent, hasCurrent, hasStarted, hasMore, step, charAt,
    List.getElem?_eq_getElem hi]
  omega

theorem cleanIter_getCurrent_end (text : List Char) :
    (cleanIter text text.length).getCurrent = none := by
  simp [cleanIter, getCurrent, hasCurrent, hasStarted, hasMore, step]

theorem cleanIter_next (text : List Char) (i : Nat) (hi : i < text.length) :
    (cleanIter text i).next = (cleanIter text (i + 1), decide (i + 1 < text.length)) := by
  simp [next, cleanIter, hasMore, step, hi]
  omega

theorem cleanIter_next_end (text : List Char) :
    (cleanIter text text.length).next = (cleanIter text text.length, false) := by
  simp [next, cleanIter, hasMore, step]

theorem cleanIter_remaining (text : List Char) (i : Nat) (hi : i ≤ text.length) :
    (cleanIter text i).remaining = text.length - i := by
  simp [cleanIter, remaining, step]

end StrIter

open StrIter in
theorem singleTok_spec (c : Char) (si : Int) (lx : Lex)
    (h : LexerSt.singleTok c si = some lx) :
    lx.text = [c] ∧ lx.startIndex = si := by
  unfold LexerSt.singleTok at h
  by_cases h1 : c = '{'
  · rw [if_pos h1] at h
    injection h with h
    subst h
    subst h1
    exact ⟨rfl, rfl⟩
  rw [if_neg h1] at h
  by_cases h2 : c = '}'
  · rw [if_pos h2] at h
    injection h with h
    subst h
    subst h2
    exact ⟨rfl, rfl⟩
  rw [if_neg h2] at h
  by_cases h3 : c = '['
  · rw [if_pos h3] at h
    injection h with h
    subst h
    subst h3
    exact ⟨rfl, rfl⟩
  rw [if_neg h3] at h
  by_cases h4 : c = ']'
  · rw [if_pos h4] at h
    injection h with h
    subst h
    subst h4
    exact ⟨rfl, rfl⟩
  rw [if_neg h4] at h
  by_cases h5 : c = '('
  · rw [if_pos h5] at h
    injection h with h
    subst h
    subst h5
    exact ⟨rfl, rfl⟩
  rw [if_neg h5] at h
  by_cases h6 : c = ')'
  · rw [if_pos h6] at h
    injection h with h
    subst h
    subst h6
    exact ⟨rfl, rfl⟩
  rw [if_neg h6] at h
  by_cases h7 : c = '<'
  · rw [if_pos h7] at h
    injection h with h
    subst h
    subst h7
    exact ⟨rfl, rfl⟩
  rw [if_neg h7] at h
  by_cases h8 : c = '>'
  · rw [if_pos h8] at h
    injection h with h
    subst h
    subst h8
    exact ⟨rfl, rfl⟩
  rw [if_neg h8] at h
  by_cases h9 : c = '"'
  · rw [if_pos h9] at h
    injection h with h
    subst h
    subst h9
    exact ⟨rfl, rfl⟩
  rw [if_neg h9] at h
  by_cases h10 : c = '\''
  · rw [if_pos h10] at h
    injection h with h
    subst h
    subst h10
    exact ⟨rfl, rfl⟩
  rw [if_neg h10] at h
  by_cases h11 : c = '-'
  · rw [if_pos h11] at h
    injection h with h
    subst h
    subst h11
    exact ⟨rfl, rfl⟩
  rw [if_neg h11] at h
  by_cases h12 : c = '+'
  · rw [if_pos h12] at h
    injection h with h
    subst h
    subst h12
    exact ⟨rfl, rfl⟩
  rw [if_neg h12] at h
  by_cases h13 : c = ','
  · rw [if_pos h13] at h
    injection h with h
    subst h
    subst h13
    exact ⟨rfl, rfl⟩
  rw [if_neg h13] at h
  by_cases h14 : c = ':'
  · rw [if_pos h14] at h
    injection h with h
    subst h
    subst h14
    exact ⟨rfl, rfl⟩
  rw [if_neg h14] at h
  by_cases h15 : c = ';'
  · rw [if_pos h15] at h
    injection h with h
    subst h
    subst h15
    exact ⟨rfl, rfl⟩
  rw [if_neg h15] at h
  by_cases h16 : c = '!'
  · rw [if_pos h16] at h
    injection h with h
    subst h
    subst h16
    exact ⟨rfl, rfl⟩
  rw [if_neg h16] at h
  by_cases h17 : c = '\\'
  · rw [if_pos h17] at h
    injection h with h
    subst h
    subst h17
    exact ⟨rfl, rfl⟩
  rw [if_neg h17] at h
  by_cases h18 : c = '/'
  · rw [if_pos h18] at h
    injection h with h
    subst h
    subst h18
    exact ⟨rfl, rfl⟩
  rw [if_neg h18] at h
  by_cases h19 : c = '?'
  · rw [if_pos h19] at h
    injection h with h
    subst h
    subst h19
    exact ⟨rfl, rfl⟩
  rw [if_neg h19] at h
  by_cases h20 : c = '='
  · rw [if_pos h20] at h
    injection h with h
    subst h
    subst h20
    exact ⟨rfl, rfl⟩
  rw [if_neg h20] at h
  by_cases h21 : c = '.'
  · rw [if_pos h21] at h
    injection h with h
    subst h
    subst h21
    exact ⟨rfl, rfl⟩
  rw [if_neg h21] at h
  by_cases h22 : c = '_'
  · rw [if_pos h22] at h
    injection h with h
    subst h
    subst h22
    exact ⟨rfl, rfl⟩
  rw [if_neg h22] at h
  by_cases h23 : c = '&'
  · rw [if_pos h23] at h
    injection h with h
    subst h
    subst h23
    exact ⟨rfl, rfl⟩
  rw [if_neg h23] at h
  by_cases h24 : c = ' '
  · rw [if_pos h24] at h
    injection h with h
    subst h
    subst h24
    exact ⟨rfl, rfl⟩
  rw [if_neg h24] at h
  by_cases h25 : c = '\t'
  · rw [if_pos h25] at h
    injection h with h
    subst h
    subst h25
    exact ⟨rfl, rfl⟩
  rw [if_neg h25] at h
  by_cases h26 : c = '\n'
  · rw [if_pos h26] at h
    injection h with h
    subst h
    subst h26
    exact ⟨rfl, rfl⟩
  rw [if_neg h26] at h
  by_cases h27 : c = '*'
  · rw [if_pos h27] at h
    injection h with h
    subst h
    subst h27
    exact ⟨rfl, rfl⟩
  rw [if_neg h27] at h
  by_cases h28 : c = '%'
  · rw [if_pos h28] at h
    injection h with h
    subst h
    subst h28
    exact ⟨rfl, rfl⟩
  rw [if_neg h28] at h
  by_cases h29 : c = '|'
  · rw [if_pos h29] at h
    injection h with h
    subst h
    subst h29
    exact ⟨rfl, rfl⟩
  rw [if_neg h29] at h
  by_cases h30 : c = '#'
  · rw [if_pos h30] at h
    injection h with h
    subst h
    subst h30
    exact ⟨rfl, rfl⟩
  rw [if_neg h30] at h
  exact Option.noConfusion h

open StrIter in
theorem readWhileLoop_clean (cond : Char → Bool) (text : List Char) :
    ∀ n, ∀ i acc, i < text.length → text.length - i ≤ n →
      readWhileLoop cond n (cleanIter text i) acc =
        (cleanIter text (i + 1 + ((text.drop (i + 1)).takeWhile cond).length),
         acc ++ (text.drop (i + 1)).takeWhile cond) := by
  intro n
  induction n with
  | zero => intro i acc hi hn; omega
  | succ n ih =>
    intro i acc hi hn
    rw [readWhileLoop]
    simp only [cleanIter_next text i hi]
    by_cases h1 : i + 1 < text.length
    · have hd1 : decide (i + 1 < text.length) = true := by simpa using h1
      simp only [hd1, if_true]
      rw [cleanIter_getCurrent text (i + 1) h1]
      have hdrop : text.drop (i + 1) = text[i + 1] :: text.drop (i + 1 + 1) :=
        List.drop_eq_getElem_cons h1
      by_cases h2 : cond text[i + 1]
      · simp only [h2, if_true]
        rw [hdrop, List.takeWhile_cons_of_pos h2]
        rw [ih (i + 1) (acc ++ [text[i + 1]]) h1 (by omega)]
        simp only [List.length_cons]
        have hn2 : i + 1 + 1 + ((text.drop (i + 1 + 1)).takeWhile cond).length
            = i + 1 + (((text.drop (i + 1 + 1)).takeWhile cond).length + 1) := by omega
        rw [hn2, List.append_assoc]
        rfl
      · simp only [h2, Bool.false_eq_true, if_false]
        rw [hdrop, List.takeWhile_cons_of_neg h2]
        simp [cleanIter]
    · have hd1 : decide (i + 1 < text.length) = false := by simpa using h1
      simp only [hd1]
      have hdrop : text.drop (i + 1) = [] := List.drop_eq_nil_of_le (by omega)
      rw [hdrop]
      simp [cleanIter]

open StrIter in
theorem readWhile_clean (cond : Char → Bool) (text : List Char) (i : Nat)
    (hi : i < text.length) :
    readWhile (cleanIter text i) cond =
      (cleanIter text (i + 1 + ((text.drop (i + 1)).takeWhile cond).length),
       text[i] :: (text.drop (i + 1)).takeWhile cond) := by
  unfold readWhile
  rw [cleanIter_getCurrent text i hi, cleanIter_remaining text i (by omega)]
  rw [readWhileLoop_clean cond text (text.length - i) i _ hi (by omega)]
  simp

theorem takeWhile_append_drop_self {T : Type} (p : T → Bool) (l : List T) :
    l.takeWhile p ++ l.drop (l.takeWhile p).length = l := by
  conv_rhs => rw [← List.take_append_drop (l.takeWhile p).length l]
  congr 1
  exact List.prefix_iff_eq_take.mp (List.takeWhile_prefix p)

open StrIter LexerSt in
/-- One successful step of the lexer from a clean cursor position `i` inside
the input: some token comes out, the cursor lands on a strictly later clean
position `j`, the token starts at the offset plus `i`, and its text is
exactly the input slice from `i` to `j`. -/
theorem lexNext_step (st : LexerSt) (text : List Char) (i : Nat)
    (hit : (if st.hasStarted then st.iter else (st.iter.next).1) = cleanIter text i)
    (hi : i < text.length) :
    ∃ (tok : Lex) (j : Nat),
      i < j ∧ j ≤ text.length ∧
      LexerSt.next st = ({ st with iter := cleanIter text j, currentLex := some tok }, true) ∧
      tok.startIndex = st.characterStartIndexOffset + i ∧
      tok.text ++ text.drop j = text.drop i := by
  have hg := cleanIter_getCurrent text i hi
  have hnx := cleanIter_next text i hi
  have hdropi : text.drop i = text[i] :: text.drop (i + 1) := List.drop_eq_getElem_cons hi
  have hci : (cleanIter text i).currentIndex = (i : Int) := rfl
  rcases hsing : singleTok text[i] ((i : Int) + st.characterStartIndexOffset) with _ | lx
  case some =>
    obtain ⟨hlt, hls⟩ := singleTok_spec _ _ _ hsing
    refine ⟨lx, i + 1, by omega, by omega, ?_, by omega, ?_⟩
    · simp only [LexerSt.next, hit, hg, hci, hnx, hsing]
    · rw [hlt, hdropi]
      rfl
  case none =>
    by_cases hcr : text[i] = '\r'
    · -- the carriage-return case: peek at the next character
      rw [hcr] at hsing
      by_cases h1 : i + 1 < text.length
      · have hg2 := cleanIter_getCurrent text (i + 1) h1
        have hnx2 := cleanIter_next text (i + 1) h1
        have hd1 : decide (i + 1 < text.length) = true := by simpa using h1
        by_cases h2 : text[i + 1] = '\n'
        · -- combined carriage-return + newline token
          have hd2 : decide ((some text[i + 1] : Option Char) = some '\n') = true := by
            simpa using h2
          refine ⟨CarriageReturnNewLine ((i : Int) + st.characterStartIndexOffset),
            i + 1 + 1, by omega, by omega, ?_, by simp [CarriageReturnNewLine]; omega, ?_⟩
          · simp only [LexerSt.next, hit, hg, hci, hnx, hsing, hcr, hnx2, hg2,
              hd1, hd2, Bool.true_and, if_true, reduceIte]
          · simp [CarriageReturnNewLine, hdropi, List.drop_eq_getElem_cons h1, h2, hcr]
        · -- lone carriage return: the peeked character is not a newline
          have hd2 : decide ((some text[i + 1] : Option Char) = some '\n') = false := by
            simpa using h2
          refine ⟨CarriageReturn ((i : Int) + st.characterStartIndexOffset),
            i + 1, by omega, by omega, ?_, by simp [CarriageReturn]; omega, ?_⟩
          · simp only [LexerSt.next, hit, hg, hci, hnx, hsing, hcr, hg2,
              hd1, hd2, Bool.true_and, Bool.and_false, Bool.false_eq_true, if_false, reduceIte]
          · simp [CarriageReturn, hdropi, hcr]
      · -- carriage return as the last character: next() reports no more
        have hd1 : decide (i + 1 < text.length) = false := by simpa using h1
        refine ⟨CarriageReturn ((i : Int) + st.characterStartIndexOffset),
          i + 1, by omega, by omega, ?_, by simp [CarriageReturn]; omega, ?_⟩
        · simp only [LexerSt.next, hit, hg, hci, hnx, hsing, hcr,
            hd1, Bool.false_and, Bool.false_eq_true, if_false, reduceIte]
        · simp [CarriageReturn, hdropi, hcr]
    · by_cases hlet : isLetter text[i] = true
      · -- a letter run
        have hrw := readWhile_clean isLetter text i hi
        refine ⟨Letters (text[i] :: (text.drop (i + 1)).takeWhile isLetter)
            ((i : Int) + st.characterStartIndexOffset),
          i + 1 + ((text.drop (i + 1)).takeWhile isLetter).length,
          by omega,
          by have := (List.takeWhile_prefix (l := text.drop (i + 1)) isLetter).length_le
             simp [List.length_drop] at this
             omega,
          ?_, by simp [Letters]; omega, ?_⟩
        · simp only [LexerSt.next, hit, hg, hci, hnx, hsing, hcr, hlet,
            readLetters, hrw, if_false, if_true, reduceIte]
        · show text[i] :: (text.drop (i + 1)).takeWhile isLetter ++ _ = _
          rw [hdropi, List.cons_append]
          congr 1
          have := takeWhile_append_drop_self isLetter (text.drop (i + 1))
          rwa [List.drop_drop] at this
      · by_cases hdig : isDigit text[i] = true
        · -- a digit run
          have hrw := readWhile_clean isDigit text i hi
          refine ⟨Digits (text[i] :: (text.drop (i + 1)).takeWhile isDigit)
              ((i : Int) + st.characterStartIndexOffset),
            i + 1 + ((text.drop (i + 1)).takeWhile isDigit).length,
            by omega,
            by have := (List.takeWhile_prefix (l := text.drop (i + 1)) isDigit).length_le
               simp [List.length_drop] at this
               omega,
            ?_, by simp [Digits]; omega, ?_⟩
          · simp only [LexerSt.next, hit, hg, hci, hnx, hsing, hcr, hlet, hdig,
              readDigits, hrw, Bool.false_eq_true, if_false, if_true, reduceIte]
          · show text[i] :: (text.drop (i + 1)).takeWhile isDigit ++ _ = _
            rw [hdropi, List.cons_append]
            congr 1
            have := takeWhile_append_drop_self isDigit (text.drop (i + 1))
            rwa [List.drop_drop] at this
        · -- a single unrecognized character
          refine ⟨Unrecognized [text[i]] ((i : Int) + st.characterStartIndexOffset),
            i + 1, by omega, by omega, ?_, by simp [Unrecognized]; omega, ?_⟩
          · simp only [LexerSt.next, hit, hg, hci, hnx, hsing, hcr, hlet, hdig,
              Bool.false_eq_true, if_false, reduceIte]
          · rw [hdropi]
            rfl

open StrIter LexerSt in
/-- At the end of the input the lexer clears its current lex and reports
false, leaving the cursor where it is. -/
theorem lexNext_done (st : LexerSt) (text : List Char)
    (hit : (if st.hasStarted then st.iter else (st.iter.next).1) = cleanIter text text.length) :
    LexerSt.next st =
      ({ st with iter := cleanIter text text.length, currentLex := none }, false) := by
  simp only [LexerSt.next, hit, cleanIter_getCurrent_end]

open StrIter LexerSt in
/-- Driving the lexer from a clean position `i` with enough fuel tiles the
rest of the input: the collected texts concatenate to `text.drop i`, every
token is non-empty, and the start indices chain from `k + i`. -/
theorem lexAll_clean (text : List Char) (k : Int) :
    ∀ n, ∀ (i : Nat) (st : LexerSt),
      text.length - i ≤ n → i ≤ text.length →
      (if st.hasStarted then st.iter else (st.iter.next).1) = cleanIter text i →
      st.characterStartIndexOffset = k →
      ∃ toks, lexAllF (n + 1) st = some toks ∧
        (toks.map Lex.text).flatten = text.drop i ∧
        (∀ tok ∈ toks, tok.text ≠ []) ∧
        tiling (k + i) toks := by
  intro n
  induction n with
  | zero =>
    intro i st hn hi hit hoff
    have hieq : i = text.length := by omega
    subst hieq
    refine ⟨[], ?_, by simp, by simp, trivial⟩
    rw [lexAllF]
    simp only [lexNext_done st text hit, Bool.false_eq_true, if_false]
  | succ n ih =>
    intro i st hn hi hit hoff
    by_cases hend : i = text.length
    · subst hend
      refine ⟨[], ?_, by simp, by simp, trivial⟩
      rw [lexAllF]
      simp only [lexNext_done st text hit, Bool.false_eq_true, if_false]
    · have hi' : i < text.length := by omega
      obtain ⟨tok, j, hij, hjle, hNeq, hstart, htext⟩ := lexNext_step st text i hit hi'
      have hlen : tok.text.length = j - i := by
        have hc := congrArg List.length htext
        simp [List.length_drop] at hc
        omega
      obtain ⟨toks, hlex, hflat, hne, htil⟩ :=
        ih j ({ st with iter := cleanIter text j, currentLex := some tok })
          (by omega) hjle (by simp [LexerSt.hasStarted, StrIter.hasStarted, cleanIter]) hoff
      refine ⟨tok :: toks, ?_, ?_, ?_, ?_, ?_⟩
      · rw [lexAllF]
        simp only [hNeq, hlex, if_true, reduceIte]
      · simp only [List.map_cons, List.flatten_cons, hflat, htext]
      · intro t ht
        rcases List.mem_cons.mp ht with rfl | ht2
        · intro hnil
          rw [hnil] at hlen
          simp at hlen
          omega
        · exact hne t ht2
      · rw [hstart, hoff]
      · have harith : k + (i : Int) + (tok.text.length : Int) = k + (j : Int) := by
          rw [hlen]
          push_cast [Nat.cast_sub (le_of_lt hij)]
          ring
        rw [harith]
        exact htil

open StrIter LexerSt in
theorem lexer_start (text : List Char) (k : Int) :
    (if (lexer text k).hasStarted then (lexer text k).iter
     else ((lexer text k).iter.next).1) = cleanIter text 0 := by
  simp [lexer, LexerSt.hasStarted, StrIter.hasStarted, StrIter.strIterOf, StrIter.strIter,
    StrIter.next, cleanIter]


open StrIter in
theorem strIter_fresh_no_current (s : StrIter) (h : s.started = false) :
    s.hasCurrent = false := by
  simp [hasCurrent, hasStarted, h]

open StrIter in
theorem strIter_next_started (s : StrIter) : s.next.1.started = true := by
  unfold StrIter.next
  by_cases hs : s.started = false
  · simp [hs]
  · have hs2 : s.started = true := by simpa using hs
    by_cases hm : s.hasMore = true
    · simp [hs2, hm]
    · simp [hs2, hm]

open StrIter in
theorem strIter_next_no_more (s : StrIter) (hs : s.started = true)
    (hm : s.hasMore = false) : s.next = (s, false) := by
  simp [StrIter.next, hs, hm]

open StrIter in
theorem strIter_exhaust_permanent (s : StrIter) (h : s.next.2 = false) :
    s.next.1.hasCurrent = false ∧ s.next.1.next = (s.next.1, false) := by
  have hmore : s.next.1.hasMore = false := h
  exact ⟨by simp [hasCurrent, hmore],
    strIter_next_no_more _ (strIter_next_started s) hmore⟩

namespace Iter

/-- Apply `next()` a fixed number of times at fuel `f`, threading the
iterator state. -/
def iterNextsF {T : Type} : Nat → Nat → Iter T → Option (Iter T)
  | 0, _, it => some it
  | k + 1, f, it =>
    match nextF f it with
    | some r => iterNextsF k f r.1
    | none => none

/-- Exhaustion is permanent: from an exhausted state, any number of further
`next()` calls leaves the iterator exhausted, with `hasCurrent()` false and
`next()` still returning false. -/
theorem done_permanent {T : Type} :
    ∀ (k : Nat) (it : Iter T), Inv it .done →
      ∃ itk itH itN F, Inv itk .done ∧ ∀ f, F ≤ f →
        iterNextsF k f it = some itk ∧ hasCurF f itk = some (itH, false) ∧
          nextF f itk = some (itN, false) := by
  intro k
  induction k with
  | zero =>
    intro it hI
    obtain ⟨itN, itH, itG, F, hrN, hIN, hrH, hIH, hrG, hIG, hops⟩ := step it .done hI
    refine ⟨it, itH, itN, F, hI, ?_⟩
    intro f hf
    refine ⟨rfl, ?_, ?_⟩
    · simpa [AbsSt.hasA] using (hops f hf).2.1
    · simpa [AbsSt.stepA, AbsSt.hasA] using (hops f hf).1
  | succ k ih =>
    intro it hI
    obtain ⟨itN0, itH0, itG0, F0, hrN, hIN0, hrH, hIH, hrG, hIG, hops⟩ := step it .done hI
    have hIN0d : Inv itN0 .done := by simpa [AbsSt.stepA] using hIN0
    obtain ⟨itk, itH, itN, F, hIk, hrest⟩ := ih itN0 hIN0d
    refine ⟨itk, itH, itN, max F0 F, hIk, ?_⟩
    intro f hf
    have h0 : nextF f it = some (itN0, false) := by
      simpa [AbsSt.stepA, AbsSt.hasA] using (hops f (le_trans (le_max_left _ _) hf)).1
    have hr := hrest f (le_trans (le_max_right _ _) hf)
    refine ⟨?_, hr.2.1, hr.2.2⟩
    simp only [iterNextsF, h0]
    exact hr.1

end Iter

open Iter Ible in
/-- C8: for every iterable `x` and `n ≥ 0`, `x.skip(n).toArray()` equals
`x.toArray()` with its first `n` elements removed, and is empty when `n`
is at least the length of `x`; building the skipping view never fails on
short sequences (it is a total construction). -/
theorem claim_C8 {T : Type} (x : Ible T) (n : Int) (hn : 0 ≤ n) :
    ∃ l F, (∀ f, F ≤ f →
        ibleToArrayF f x = some l ∧
        ibleToArrayF f (skipM x (some n)) = some (l.drop n.toNat)) ∧
      ((l.length : Int) ≤ n → l.drop n.toNat = []) := by
  obtain ⟨F₀, hx⟩ := ibleToArray_den x
  have hskip : den (skipM x (some n)) = (den x).drop n.toNat := by
    by_cases h0 : 0 < n
    · simp [skipM, h0, den]
    · have hn0 : n = 0 := by omega
      simp [skipM, hn0]
  obtain ⟨F₁, hs⟩ := ibleToArray_den (skipM x (some n))
  refine ⟨den x, max F₀ F₁, fun f hf => ⟨hx f (by omega), ?_⟩, fun hlen => ?_⟩
  · rw [hs f (by omega), hskip]
  · exact List.drop_eq_nil_of_le (by omega)

open Iter Ible in
/-- C1: reverse/take duality.  For every well-formed iterable `x` and every
number `n`, `x.take(n).iterateReverse().toArray()` equals
`x.iterateReverse().skip(x.getCount() - n).toArray()`; both are
`(x.toArray().take n).reverse`. -/
theorem claim_C1 {T : Type} (x : Ible T) (n : Int) (hwf : wfB x = true) :
    ∃ cnt it r F, r = ((den x).take n.toNat).reverse ∧ ∀ f, F ≤ f →
      ibleGetCountF f x = some cnt ∧
      iterateReverseF f x = some it ∧
      toArrayF f (mkSkip it (some (cnt - n))) = some r ∧
      ibleToArrayRevF f (takeM x (some n)) = some r := by
  obtain ⟨F₀, hcnt⟩ := ibleGetCount_den x hwf
  obtain ⟨it, F₁, hI, hrev⟩ := iterateRev_den x hwf
  have hIskip : Iter.Inv (mkSkip it (some (((den x).length : Int) - n)))
      (.fresh (((den x).take n.toNat).reverse)) := by
    simp only [mkSkip, Iter.Inv]
    refine Or.inl ⟨(den x).reverse, hI, ?_⟩
    rw [List.reverse_take]
    rcases le_or_lt 0 n with hn | hn
    · have hrs : remSkips (some (((den x).length : Int) - n)) 0
          = (den x).length - n.toNat := by
        simp only [remSkips]; omega
      rw [hrs]
    · have hA : ((den x).reverse).drop ((den x).length - n.toNat) = [] :=
        List.drop_eq_nil_of_le (by rw [List.length_reverse]; omega)
      have hB : ((den x).reverse).drop (remSkips (some (((den x).length : Int) - n)) 0) = [] :=
        List.drop_eq_nil_of_le (by rw [List.length_reverse]; simp only [remSkips]; omega)
      rw [hA, hB]
  obtain ⟨F₂, hskipArr⟩ := toArray_fresh _ _ hIskip
  have htake : den (takeM x (some n)) = (den x).take n.toNat := by
    by_cases h0 : 0 < n
    · simp [takeM, h0, den]
    · have : n.toNat = 0 := by omega
      simp [takeM, h0, den, this]
  have hwtake : wfB (takeM x (some n)) = true := by
    by_cases h0 : 0 < n
    · simp [takeM, h0, wfB, hwf]
    · simp [takeM, h0, wfB]
  obtain ⟨F₃, hrevtake⟩ := ibleToArrayRev_den (takeM x (some n)) hwtake
  refine ⟨((den x).length : Int), it, ((den x).take n.toNat).reverse,
    max (max F₀ F₁) (max F₂ F₃), rfl, fun f hf => ⟨hcnt f (by omega), hrev f (by omega),
    hskipArr f (by omega), ?_⟩⟩
  rw [hrevtake f (by omega), htake]

open Iter Ible in
/-- C9: for all well-formed iterables `x` and `y`,
`x.concatenate(y).toArray()` is the concatenation of `x.toArray()` and
`y.toArray()`, and `x.concatenate(y).iterateReverse()` yields the elements
of `y` in reverse order followed by the elements of `x` in reverse order. -/
theorem claim_C9 {T : Type} (x y : Ible T) (hwfx : wfB x = true) (hwfy : wfB y = true) :
    ∃ lx ly z F, ∀ f, F ≤ f →
      ibleToArrayF f x = some lx ∧
      ibleToArrayF f y = some ly ∧
      concatenateF f x (some y) = some z ∧
      ibleToArrayF f z = some (lx ++ ly) ∧
      ibleToArrayRevF f z = some (ly.reverse ++ lx.reverse) := by
  obtain ⟨F₀, hx⟩ := ibleToArray_den x
  obtain ⟨F₁, hy⟩ := ibleToArray_den y
  obtain ⟨F₂, hz⟩ := ibleToArray_den (Ible.concatI x (den y))
  have hwz : wfB (Ible.concatI x (den y)) = true := by simpa [wfB] using hwfx
  obtain ⟨F₃, hzr⟩ := ibleToArrayRev_den (Ible.concatI x (den y)) hwz
  refine ⟨den x, den y, Ible.concatI x (den y), max (max F₀ F₁) (max F₂ F₃),
    fun f hf => ⟨hx f (by omega), hy f (by omega), ?_, ?_, ?_⟩⟩
  · simp only [concatenateF, hy f (by omega)]
  · rw [hz f (by omega)]; simp [den]
  · rw [hzr f (by omega)]; simp [den, List.reverse_append]

open Iter Ible in
/-- C2: `x.endsWith(y)` is true exactly when `y` is non-empty, at most as
long as `x`, and the last `y.getCount()` elements of `x` equal `y`
elementwise; it is false for an absent `y`. -/
theorem claim_C2 {T : Type} [DecidableEq T] (x y : Ible T)
    (hwfx : wfB x = true) (hwfy : wfB y = true) :
    (∃ F, ∀ f, F ≤ f → endsWithF f x (some y) =
      some (decide (den y ≠ [] ∧ den y <:+ den x))) ∧
    (∀ f, endsWithF f x (none : Option (Ible T)) = some false) := by
  refine ⟨?_, fun f => rfl⟩
  obtain ⟨F₀, hvc⟩ := ibleGetCount_den y hwfy
  obtain ⟨F₁, hxc⟩ := ibleGetCount_den x hwfx
  by_cases hynil : den y = []
  · refine ⟨F₀, fun f hf => ?_⟩
    simp [endsWithF, hvc f (by omega), hynil]
  · have hvc0 : ¬ (((den y).length : Int) = 0) := by
      simp only [ne_eq, ← List.length_eq_zero] at hynil
      omega
    by_cases hlong : (den x).length < (den y).length
    · have hns : ¬ (den y <:+ den x) := fun hs => by
        have := List.IsSuffix.length_le hs
        omega
      refine ⟨max F₀ F₁, fun f hf => ?_⟩
      simp only [endsWithF, hvc f (by omega), hvc0, if_false, hxc f (by omega)]
      rw [if_pos (by exact_mod_cast hlong)]
      simp [hns]
    · -- the main path: len y ≤ len x
      have hle : (den y).length ≤ (den x).length := by omega
      obtain ⟨tl, F₂, htlr, hdtl⟩ : ∃ tl F₂, (∀ f, F₂ ≤ f →
          takeLastF f x ((den y).length : Int) = some tl) ∧
          den tl = (den x).drop ((den x).length - (den y).length) := by
        by_cases heq : ((den x).length : Int) ≤ ((den y).length : Int)
        · refine ⟨x, F₁, fun f hf => ?_, ?_⟩
          · simp only [takeLastF]
            rw [if_neg (by omega), hxc f (by omega)]
            simp [heq]
          · have h0 : (den x).length - (den y).length = 0 := by omega
            rw [h0, List.drop_zero]
        · refine ⟨skipM x (some (((den x).length : Int) - ((den y).length : Int))), F₁,
            fun f hf => ?_, ?_⟩
          · simp only [takeLastF]
            rw [if_neg (by omega), hxc f (by omega)]
            simp [heq]
          · have hpos : 0 < ((den x).length : Int) - ((den y).length : Int) := by omega
            have htn : ((((den x).length : Int) - ((den y).length : Int))).toNat
                = (den x).length - (den y).length := by omega
            simp [skipM, hpos, den, htn]
      obtain ⟨ita, Fa, hIa, hita⟩ := iterate_den tl
      obtain ⟨itb, Fb, hIb, hitb⟩ := iterate_den y
      have hlen : (den tl).length = (den y).length := by
        rw [hdtl, List.length_drop]
        omega
      obtain ⟨Fl, hloop⟩ := endsWithLoop_inv (den y).length ita itb
        (.fresh (den tl)) (.fresh (den y)) (by simpa [AbsSt.futureOf] using hlen)
        (by simp [AbsSt.futureOf]) hIa hIb
      refine ⟨max (max F₀ F₁) (max F₂ (max (max Fa Fb) Fl)), fun f hf => ?_⟩
      simp only [endsWithF, hvc f (by omega), hvc0, if_false, hxc f (by omega)]
      rw [if_neg (by exact_mod_cast hlong)]
      simp only [htlr f (by omega), hita f (by omega), hitb f (by omega), hloop f (by omega)]
      congr 1
      rw [decide_eq_decide]
      simp only [AbsSt.futureOf]
      rw [hdtl]
      constructor
      · intro hdrop
        exact ⟨hynil, (drop_suffix_iff hle).1 hdrop⟩
      · intro ⟨_, hs⟩
        exact (drop_suffix_iff hle).2 hs

open Iter Ible in
/-- C6: absent or degenerate arguments degrade gracefully and never throw.
At the iterable level `where(undefined)` returns the receiver itself,
`map(undefined)` and `take(0/undefined)` return an empty `ArrayList`, and
`skip(0/negative/undefined)` returns the receiver.  At the iterator level,
the corresponding decorators built over any freshly created iterator behave
as the identity view (`where`/`skip`) or as a permanently empty view
(`map`: has-current always false and advance always false; `take`).  All
constructions are total functions of their inputs. -/
theorem claim_C6 {T : Type} (x : Ible T) (it : Iter T) (l : List T)
    (hI : Iter.Inv it (.fresh l)) :
    whereM x none = x ∧
    mapM x (none : Option (T → T)) = Ible.arr [] ∧
    skipM x none = x ∧
    (∀ n : Int, n ≤ 0 → skipM x (some n) = x) ∧
    takeM x (none : Option Int) = Ible.arr [] ∧
    (∀ n : Int, n ≤ 0 → takeM x (some n) = Ible.arr []) ∧
    (∃ F, ∀ f, F ≤ f → toArrayF f (Iter.whereIt it none) = some l) ∧
    (∀ f st, nextF (f+1) (Iter.mapIt it none st) = some (Iter.mapIt it none true, false) ∧
      hasCurF (f+1) (Iter.mapIt it none st) = some (Iter.mapIt it none st, false) ∧
      getCurF (f+1) (Iter.mapIt it none st) = some (Iter.mapIt it none st, none)) ∧
    (∀ n : Int, n ≤ 0 → ∃ F, ∀ f, F ≤ f → toArrayF f (mkSkip it (some n)) = some l) ∧
    (∃ F, ∀ f, F ≤ f → toArrayF f (mkSkip it none) = some l) ∧
    (∀ n : Int, n ≤ 0 → ∃ it2 F, (∀ f, F ≤ f → mkTakeF f it (some n) = some it2) ∧
      ∀ f, F ≤ f → toArrayF f it2 = some []) ∧
    (∃ it2 F, (∀ f, F ≤ f → mkTakeF f it none = some it2) ∧
      ∀ f, F ≤ f → toArrayF f it2 = some []) := by
  obtain ⟨_, itH, _, F₀, _, _, _, hIH, _, _, hops⟩ := step it _ hI
  refine ⟨rfl, rfl, rfl, ?_, rfl, ?_, ?_, fun f st => ⟨rfl, rfl, rfl⟩, ?_, ?_, ?_, ?_⟩
  · intro n hn
    simp [skipM, show ¬ (0 < n) by omega]
  · intro n hn
    simp [takeM, show ¬ (0 < n) by omega]
  · have hIw : Iter.Inv (Iter.whereIt it none) (.fresh l) := by
      simp only [Iter.Inv]; exact hI
    exact toArray_fresh _ _ hIw
  · intro n hn
    have hIs : Iter.Inv (mkSkip it (some n)) (.fresh l) := by
      simp only [mkSkip, Iter.Inv]
      refine Or.inl ⟨l, hI, ?_⟩
      have h0 : remSkips (some n) 0 = 0 := by simp only [remSkips]; omega
      rw [h0, List.drop_zero]
    exact toArray_fresh _ _ hIs
  · have hIs : Iter.Inv (mkSkip it none) (.fresh l) := by
      simp only [mkSkip, Iter.Inv]
      exact Or.inl ⟨l, hI, by simp [remSkips]⟩
    exact toArray_fresh _ _ hIs
  · intro n hn
    have hIt : Iter.Inv (Iter.takeIt itH (some n) 0) (.fresh []) := by
      simp only [Iter.Inv]
      refine Or.inl ⟨n, l, rfl, hIH, ?_⟩
      have h0 : (n - 0).toNat = 0 := by omega
      rw [h0, List.take_zero]
    obtain ⟨F₁, harr⟩ := toArray_fresh _ _ hIt
    refine ⟨Iter.takeIt itH (some n) 0, max F₀ F₁, fun f hf => ?_, fun f hf => harr f (by omega)⟩
    have h1 := (hops f (by omega)).2.1
    simp only [mkTakeF, h1, AbsSt.hasA, Bool.false_eq_true, if_false]
  · have hIt : Iter.Inv (Iter.takeIt itH none 0) .done := by
      simp only [Iter.Inv]
      exact Or.inr (Or.inr (Or.inl ⟨rfl, ⟨_, hIH⟩, by trivial⟩))
    obtain ⟨F₁, harr⟩ := toArray_done _ hIt
    refine ⟨Iter.takeIt itH none 0, max F₀ F₁, fun f hf => ?_, fun f hf => harr f (by omega)⟩
    have h1 := (hops f (by omega)).2.1
    simp only [mkTakeF, h1, AbsSt.hasA, Bool.false_eq_true, if_false]


/-- C3: lexing `"ab12 }"` from offset 0 yields exactly
Letters `"ab"` at 0, Digits `"12"` at 2, Space at 4 and RightCurlyBracket
at 5, with lengths 2, 2, 1, 1 and total consumed length 6; the first four
`next()` calls return true, the call after them returns false, and
`hasCurrent()` is then false. -/
theorem claim_C3 :
    lexAllF 7 (lexer ['a', 'b', '1', '2', ' ', '}'] 0) =
      some [⟨['a', 'b'], 0, .Letters⟩, ⟨['1', '2'], 2, .Digits⟩,
            ⟨[' '], 4, .Space⟩, ⟨['}'], 5, .RightCurlyBracket⟩] ∧
    [(⟨['a', 'b'], 0, .Letters⟩ : Lex), ⟨['1', '2'], 2, .Digits⟩,
        ⟨[' '], 4, .Space⟩, ⟨['}'], 5, .RightCurlyBracket⟩].map Lex.getLength
      = [2, 2, 1, 1] ∧
    ([(⟨['a', 'b'], 0, .Letters⟩ : Lex), ⟨['1', '2'], 2, .Digits⟩,
        ⟨[' '], 4, .Space⟩, ⟨['}'], 5, .RightCurlyBracket⟩].map Lex.getLength).sum
      = 6 ∧
    (nextCalls 5 (lexer ['a', 'b', '1', '2', ' ', '}'] 0)).2
      = [true, true, true, true, false] ∧
    ((nextCalls 5 (lexer ['a', 'b', '1', '2', ' ', '}'] 0)).1).hasCurrent = false := by
  refine ⟨?_, rfl, rfl, ?_, ?_⟩ <;> rfl

open StrIter LexerSt in
/-- C4: the input `"\r\n"` lexes to exactly one token, a combined
carriage-return+newline token of length 2 with `isNewLine()` true and
`isWhitespace()` false; in general, from any in-bounds cursor position
holding `"\r"` the lexer peeks the next character: a following `"\n"`
produces the combined two-character newline-classified token and consumes
both characters, anything else (or end of input) produces the lone
one-character whitespace-classified carriage-return token and consumes only
the `"\r"`. -/
theorem claim_C4 :
    (lexAllF 2 (lexer ['\r', '\n'] 0) = some [⟨['\r', '\n'], 0, .NewLine⟩] ∧
      Lex.isNewLine ⟨['\r', '\n'], 0, .NewLine⟩ = true ∧
      Lex.isWhitespace ⟨['\r', '\n'], 0, .NewLine⟩ = false ∧
      Lex.getLength ⟨['\r', '\n'], 0, .NewLine⟩ = 2) ∧
    (∀ (text : List Char) (k : Int) (cl : Option Lex) (i : Nat),
      i < text.length → text[i]? = some '\r' →
      ((text[i + 1]? = some '\n' →
          LexerSt.next ⟨cleanIter text i, k, cl⟩ =
            (⟨cleanIter text (i + 1 + 1), k,
              some ⟨['\r', '\n'], (i : Int) + k, .NewLine⟩⟩, true) ∧
          Lex.isNewLine ⟨['\r', '\n'], ((i : Int) + k), .NewLine⟩ = true ∧
          Lex.isWhitespace ⟨['\r', '\n'], ((i : Int) + k), .NewLine⟩ = false) ∧
       (text[i + 1]? ≠ some '\n' →
          LexerSt.next ⟨cleanIter text i, k, cl⟩ =
            (⟨cleanIter text (i + 1), k,
              some ⟨['\r'], (i : Int) + k, .CarriageReturn⟩⟩, true) ∧
          Lex.isWhitespace ⟨['\r'], ((i : Int) + k), .CarriageReturn⟩ = true ∧
          Lex.isNewLine ⟨['\r'], ((i : Int) + k), .CarriageReturn⟩ = false))) := by
  refine ⟨⟨rfl, rfl, rfl, rfl⟩, ?_⟩
  intro text k cl i hi hr
  have hget : text[i] = '\r' := by
    have h0 := List.getElem?_eq_getElem hi
    rw [h0] at hr
    exact Option.some.inj hr
  have hg := cleanIter_getCurrent text i hi
  have hnx := cleanIter_next text i hi
  have hci : (cleanIter text i).currentIndex = (i : Int) := rfl
  have hhs : (⟨cleanIter text i, k, cl⟩ : LexerSt).hasStarted = true := rfl
  have hsing : singleTok '\r' ((i : Int) + k) = none := rfl
  constructor
  · intro hnl
    have h1 : i + 1 < text.length := (List.getElem?_eq_some.mp hnl).1
    have h2 : text[i + 1] = '\n' := by
      have h0 := List.getElem?_eq_getElem h1
      rw [h0] at hnl
      exact Option.some.inj hnl
    have hg2 := cleanIter_getCurrent text (i + 1) h1
    have hnx2 := cleanIter_next text (i + 1) h1
    have hd1 : decide (i + 1 < text.length) = true := by simpa using h1
    have hd2 : decide ((some text[i + 1] : Option Char) = some '\n') = true := by
      simpa using h2
    refine ⟨?_, rfl, rfl⟩
    simp only [LexerSt.next, hhs, hg, hci, hget, hnx, hsing, hnx2, hg2,
      hd1, hd2, Bool.true_and, if_true, reduceIte, CarriageReturnNewLine]
  · intro hnl
    by_cases h1 : i + 1 < text.length
    · have hg2 := cleanIter_getCurrent text (i + 1) h1
      have hd1 : decide (i + 1 < text.length) = true := by simpa using h1
      have h2 : ¬text[i + 1] = '\n' := by
        intro hx
        exact hnl (by rw [List.getElem?_eq_getElem h1, hx])
      have hd2 : decide ((some text[i + 1] : Option Char) = some '\n') = false := by
        simpa using h2
      refine ⟨?_, rfl, rfl⟩
      simp only [LexerSt.next, hhs, hg, hci, hget, hnx, hsing, hg2,
        hd1, hd2, Bool.true_and, Bool.and_false, Bool.false_eq_true, if_false, reduceIte,
        CarriageReturn]
    · have hd1 : decide (i + 1 < text.length) = false := by simpa using h1
      refine ⟨?_, rfl, rfl⟩
      simp only [LexerSt.next, hhs, hg, hci, hget, hnx, hsing,
        hd1, Bool.false_and, Bool.false_eq_true, if_false, reduceIte, CarriageReturn]

/-- C5 (refuted): outside the Letters, Digits and Unrecognized types, the
type tag does not determine the text.  Lexing `"\n\r\n"` produces two
tokens that both carry `LexType.NewLine` — one with text `"\n"`, one with
text `"\r\n"` — because the `CarriageReturnNewLine` factory
(qub.ts 1909–1911) tags its lex with `LexType.NewLine`. -/
theorem claim_C5 :
    ∃ (toks : List Lex) (t1 t2 : Lex),
      lexAllF 3 (lexer ['\n', '\r', '\n'] 0) = some toks ∧
      t1 ∈ toks ∧ t2 ∈ toks ∧
      t1.getType = t2.getType ∧
      t1.getType ≠ .Letters ∧ t1.getType ≠ .Digits ∧ t1.getType ≠ .Unrecognized ∧
      t2.getType ≠ .Letters ∧ t2.getType ≠ .Digits ∧ t2.getType ≠ .Unrecognized ∧
      t1.text ≠ t2.text := by
  refine ⟨[⟨['\n'], 0, .NewLine⟩, ⟨['\r', '\n'], 1, .NewLine⟩],
    ⟨['\n'], 0, .NewLine⟩, ⟨['\r', '\n'], 1, .NewLine⟩, ?_, ?_, ?_, ?_, ?_, ?_, ?_, ?_, ?_, ?_, ?_⟩
  · rfl
  all_goals decide

open StrIter LexerSt in
/-- C10: lexer tiling round-trip.  For every input string and every starting
offset `k`, running the lexer to exhaustion (fuel `length + 1` suffices)
yields tokens whose texts concatenate to the input exactly, each token is
non-empty (forward progress on every character), and each token starts at
`k` plus the total length of the preceding tokens (no gaps, no overlaps). -/
theorem claim_C10 (text : List Char) (k : Int) :
    ∃ toks, lexAllF (text.length + 1) (lexer text k) = some toks ∧
      (toks.map Lex.text).flatten = text ∧
      (∀ tok ∈ toks, tok.text ≠ []) ∧
      tiling k toks := by
  obtain ⟨toks, h1, h2, h3, h4⟩ := lexAll_clean text k text.length 0 (lexer text k)
    (by omega) (by omega) (lexer_start text k) rfl
  refine ⟨toks, h1, by simpa using h2, h3, ?_⟩
  rwa [show k + ((0 : Nat) : Int) = k by simp] at h4


open Iter in
/-- C7: iterators never un-exhaust.  For the string-backed cursor: before the
first `next()` there is no current character, and once `next()` returns
false the state is a fixpoint on which `hasCurrent()` is false and every
further `next()` returns false.  For the array-backed forward and reverse
iterators and all decorator iterators (every state related to an abstract
state by the simulation invariant): a not-yet-started iterator has no
current element; when `next()` settles to false the iterator has reached the
exhausted abstract state; and from the exhausted state any number of further
`next()` calls keeps `hasCurrent()` false and keeps `next()` returning
false. -/
theorem claim_C7 {T : Type} :
    (∀ s : StrIter, s.started = false → s.hasCurrent = false) ∧
    (∀ s : StrIter, s.next.2 = false →
      s.next.1.hasCurrent = false ∧ s.next.1.next = (s.next.1, false)) ∧
    (∀ (it : Iter T) (l : List T), Iter.Inv it (.fresh l) →
      ∃ itH F, ∀ f, F ≤ f → hasCurF f it = some (itH, false)) ∧
    (∀ (it : Iter T) (s : AbsSt T), Iter.Inv it s →
      ∃ itN F, (∀ f, F ≤ f → nextF f it = some (itN, s.stepA.hasA)) ∧
        (s.stepA.hasA = false → Iter.Inv itN .done)) ∧
    (∀ (it : Iter T), Iter.Inv it .done → ∀ k,
      ∃ itk itH itN F, Iter.Inv itk .done ∧ ∀ f, F ≤ f →
        iterNextsF k f it = some itk ∧ hasCurF f itk = some (itH, false) ∧
          nextF f itk = some (itN, false)) := by
  refine ⟨fun s h => strIter_fresh_no_current s h,
    fun s h => strIter_exhaust_permanent s h, ?_, ?_, ?_⟩
  · intro it l hI
    obtain ⟨itN, itH, itG, F, hrN, hIN, hrH, hIH, hrG, hIG, hops⟩ :=
      Iter.step it (.fresh l) hI
    exact ⟨itH, F, fun f hf => by simpa [AbsSt.hasA] using (hops f hf).2.1⟩
  · intro it s hI
    obtain ⟨itN, itH, itG, F, hrN, hIN, hrH, hIH, hrG, hIG, hops⟩ := Iter.step it s hI
    refine ⟨itN, F, fun f hf => (hops f hf).1, fun hfalse => ?_⟩
    rwa [AbsSt.hasA_stepA_false hfalse] at hIN
  · intro it hI k
    exact done_permanent k it hI

open Iter in
theorem claim_C7_witness :
    StrIter.hasCurrent ⟨['a'], 0, 1, 0, false⟩ = false ∧
    (∃ itH F, ∀ f, F ≤ f →
      hasCurF f (Iter.arrFwd ([7] : List Nat) none) = some (itH, false)) ∧
    (∃ itk itH itN F, Iter.Inv itk AbsSt.done ∧ ∀ f, F ≤ f →
      iterNextsF 3 f (Iter.arrFwd ([] : List Nat) (some 0)) = some itk ∧
      hasCurF f itk = some (itH, false) ∧ nextF f itk = some (itN, false)) := by
  refine ⟨(claim_C7 (T := Nat)).1 _ rfl, (claim_C7 (T := Nat)).2.2.1 _ [7] rfl, ?_⟩
  have hInv : Iter.Inv (Iter.arrFwd ([] : List Nat) (some 0)) AbsSt.done := by
    simp [Iter.Inv]
  exact (claim_C7 (T := Nat)).2.2.2.2 _ hInv 3


open Iter Ible in
theorem claim_C8_witness :
    (0 : Int) ≤ 2 ∧
    ∃ l F, (∀ f, F ≤ f →
        ibleToArrayF f (Ible.arr ([4, 5, 6] : List Nat)) = some l ∧
        ibleToArrayF f (skipM (Ible.arr ([4, 5, 6] : List Nat)) (some 2)) =
          some (l.drop (2 : Int).toNat)) ∧
      ((l.length : Int) ≤ 2 → l.drop (2 : Int).toNat = []) :=
  ⟨by decide, claim_C8 (Ible.arr [4, 5, 6]) 2 (by decide)⟩

open Iter Ible in
theorem claim_C1_witness :
    wfB (Ible.arr ([1, 2, 3] : List Nat)) = true ∧
    ∃ cnt it r F, r = ((den (Ible.arr ([1, 2, 3] : List Nat))).take (2 : Int).toNat).reverse ∧
      ∀ f, F ≤ f →
        ibleGetCountF f (Ible.arr ([1, 2, 3] : List Nat)) = some cnt ∧
        iterateReverseF f (Ible.arr ([1, 2, 3] : List Nat)) = some it ∧
        toArrayF f (mkSkip it (some (cnt - 2))) = some r ∧
        ibleToArrayRevF f (takeM (Ible.arr ([1, 2, 3] : List Nat)) (some 2)) = some r :=
  ⟨rfl, claim_C1 (Ible.arr [1, 2, 3]) 2 rfl⟩

open Iter Ible in
theorem claim_C9_witness :
    wfB (Ible.arr ([1, 2] : List Nat)) = true ∧ wfB (Ible.arr ([3] : List Nat)) = true ∧
    ∃ lx ly z F, ∀ f, F ≤ f →
      ibleToArrayF f (Ible.arr ([1, 2] : List Nat)) = some lx ∧
      ibleToArrayF f (Ible.arr ([3] : List Nat)) = some ly ∧
      concatenateF f (Ible.arr ([1, 2] : List Nat)) (some (Ible.arr [3])) = some z ∧
      ibleToArrayF f z = some (lx ++ ly) ∧
      ibleToArrayRevF f z = some (ly.reverse ++ lx.reverse) :=
  ⟨rfl, rfl, claim_C9 (Ible.arr [1, 2]) (Ible.arr [3]) rfl rfl⟩

open Iter Ible in
theorem claim_C2_witness :
    wfB (Ible.arr ([1, 2] : List Nat)) = true ∧ wfB (Ible.arr ([2] : List Nat)) = true ∧
    (∃ F, ∀ f, F ≤ f →
      endsWithF f (Ible.arr ([1, 2] : List Nat)) (some (Ible.arr [2])) =
        some (decide (den (Ible.arr ([2] : List Nat)) ≠ [] ∧
          den (Ible.arr ([2] : List Nat)) <:+ den (Ible.arr ([1, 2] : List Nat))))) ∧
    (∀ f, endsWithF f (Ible.arr ([1, 2] : List Nat)) (none : Option (Ible Nat)) = some false) := by
  have h := claim_C2 (Ible.arr ([1, 2] : List Nat)) (Ible.arr [2]) rfl rfl
  exact ⟨rfl, rfl, h.1, h.2⟩

open Iter Ible in
theorem claim_C6_witness :
    Iter.Inv (Iter.arrFwd ([5] : List Nat) none) (.fresh [5]) ∧
    whereM (Ible.arr ([9] : List Nat)) none = Ible.arr [9] ∧
    (∀ f st, nextF (f + 1) (Iter.mapIt (Iter.arrFwd ([5] : List Nat) none) none st) =
        some (Iter.mapIt (Iter.arrFwd [5] none) none true, false) ∧
      hasCurF (f + 1) (Iter.mapIt (Iter.arrFwd ([5] : List Nat) none) none st) =
        some (Iter.mapIt (Iter.arrFwd [5] none) none st, false) ∧
      getCurF (f + 1) (Iter.mapIt (Iter.arrFwd ([5] : List Nat) none) none st) =
        some (Iter.mapIt (Iter.arrFwd [5] none) none st, none)) := by
  have hI : Iter.Inv (Iter.arrFwd ([5] : List Nat) none) (.fresh [5]) := by
    simp [Iter.Inv]
  have h := claim_C6 (Ible.arr ([9] : List Nat)) (Iter.arrFwd [5] none) [5] hI
  exact ⟨hI, h.1, h.2.2.2.2.2.2.2.1⟩

open StrIter LexerSt in
theorem claim_C4_witness :
    ((['x', '\r', '\n'] : List Char)[1]? = some '\r') ∧
    (LexerSt.next ⟨cleanIter ['x', '\r', '\n'] 1, 5, none⟩ =
      (⟨cleanIter ['x', '\r', '\n'] (1 + 1 + 1), 5,
        some ⟨['\r', '\n'], ((1 : Nat) : Int) + 5, .NewLine⟩⟩, true) ∧
      Lex.isNewLine ⟨['\r', '\n'], ((1 : Nat) : Int) + 5, .NewLine⟩ = true ∧
      Lex.isWhitespace ⟨['\r', '\n'], ((1 : Nat) : Int) + 5, .NewLine⟩ = false) :=
  ⟨by decide, (claim_C4.2 ['x', '\r', '\n'] 5 none 1 (by decide) (by decide)).1 (by decide)⟩

theorem claim_C10_witness :
    ∃ toks, lexAllF ((['a'] : List Char).length + 1) (lexer ['a'] 0) = some toks ∧
      (toks.map Lex.text).flatten = ['a'] ∧ (∀ tok ∈ toks, tok.text ≠ []) ∧ tiling 0 toks :=
  claim_C10 ['a'] 0

end Qub
